import Mathlib

/-!
# Verification of the nmltab comparison/consolidation engine

This file gives a shallow embedding of the core of nmltab.py (superset,
nmldiff, nmlprune, prunefilelist, strnmldict) and proves the frozen claims
about it.

Modelling conventions:
* A Fortran namelist value is modelled by the closed sum type NmlValue.
  Python floats are modelled opaquely by their repr string (equality of
  floats becomes equality of the repr strings; this is faithful except for
  the 0.0 / -0.0 and nan corner cases, which no claim depends on).
  Python repr of a string value is modelled as the value wrapped in single
  quotes (faithful for strings without quotes or escapes).
* Python (ordered) dicts are modelled as association lists
  (List (String x value)): lookup takes the first matching key, assignment
  replaces the first occurrence in place or appends, deletion removes the
  first occurrence.  Python guarantees unique keys; well-formedness
  (Nodup of the key list) is carried as an explicit hypothesis.
* In-place mutation is modelled by explicit state passing: each mutating
  function returns the new dictionary.
* The while-loop of nmlprune is modelled with a fuel parameter that is
  large enough for every reachable state (proved in the nmlprune theorem).
* prunefilelist's file-system access (os.path.isfile, filecmp.cmp with
  shallow=False) is modelled by two oracle functions: isfile and the byte
  content of each path.
-/

set_option maxHeartbeats 1000000

namespace Nmltab

/-- The value of a namelist variable: bool, int, float, string or list,
as produced by f90nml. Floats are modelled by their repr string. -/
inductive NmlValue where
  | vbool : Bool → NmlValue
  | vint : Int → NmlValue
  | vfloat : String → NmlValue
  | vstr : String → NmlValue
  | vlist : List NmlValue → NmlValue

mutual

/-- Python == on namelist values (structural equality). -/
def NmlValue.beq : NmlValue → NmlValue → Bool
  | .vbool a, .vbool b => a == b
  | .vint a, .vint b => a == b
  | .vfloat a, .vfloat b => a == b
  | .vstr a, .vstr b => a == b
  | .vlist a, .vlist b => NmlValue.beqList a b
  | _, _ => false
termination_by structural a => a

/-- Python == on lists of namelist values. -/
def NmlValue.beqList : List NmlValue → List NmlValue → Bool
  | [], [] => true
  | a :: as, b :: bs => NmlValue.beq a b && NmlValue.beqList as bs
  | _, _ => false
termination_by structural a => a

end

mutual

theorem NmlValue.eq_of_beq : ∀ (a b : NmlValue), NmlValue.beq a b = true → a = b
  | .vbool _, .vbool _, h => by simp [NmlValue.beq] at h; rw [h]
  | .vint _, .vint _, h => by simp [NmlValue.beq] at h; rw [h]
  | .vfloat _, .vfloat _, h => by simp [NmlValue.beq] at h; rw [h]
  | .vstr _, .vstr _, h => by simp [NmlValue.beq] at h; rw [h]
  | .vlist a, .vlist b, h => by
      rw [NmlValue.eqList_of_beqList a b (by simpa [NmlValue.beq] using h)]
  | .vbool _, .vint _, h => by simp [NmlValue.beq] at h
  | .vbool _, .vfloat _, h => by simp [NmlValue.beq] at h
  | .vbool _, .vstr _, h => by simp [NmlValue.beq] at h
  | .vbool _, .vlist _, h => by simp [NmlValue.beq] at h
  | .vint _, .vbool _, h => by simp [NmlValue.beq] at h
  | .vint _, .vfloat _, h => by simp [NmlValue.beq] at h
  | .vint _, .vstr _, h => by simp [NmlValue.beq] at h
  | .vint _, .vlist _, h => by simp [NmlValue.beq] at h
  | .vfloat _, .vbool _, h => by simp [NmlValue.beq] at h
  | .vfloat _, .vint _, h => by simp [NmlValue.beq] at h
  | .vfloat _, .vstr _, h => by simp [NmlValue.beq] at h
  | .vfloat _, .vlist _, h => by simp [NmlValue.beq] at h
  | .vstr _, .vbool _, h => by simp [NmlValue.beq] at h
  | .vstr _, .vint _, h => by simp [NmlValue.beq] at h
  | .vstr _, .vfloat _, h => by simp [NmlValue.beq] at h
  | .vstr _, .vlist _, h => by simp [NmlValue.beq] at h
  | .vlist _, .vbool _, h => by simp [NmlValue.beq] at h
  | .vlist _, .vint _, h => by simp [NmlValue.beq] at h
  | .vlist _, .vfloat _, h => by simp [NmlValue.beq] at h
  | .vlist _, .vstr _, h => by simp [NmlValue.beq] at h
termination_by structural a => a

theorem NmlValue.eqList_of_beqList :
    ∀ (a b : List NmlValue), NmlValue.beqList a b = true → a = b
  | [], [], _ => rfl
  | [], _ :: _, h => by simp [NmlValue.beqList] at h
  | _ :: _, [], h => by simp [NmlValue.beqList] at h
  | x :: xs, y :: ys, h => by
      have h' := h
      simp only [NmlValue.beqList, Bool.and_eq_true] at h'
      rw [NmlValue.eq_of_beq x y h'.1, NmlValue.eqList_of_beqList xs ys h'.2]
termination_by structural a => a

end

mutual

theorem NmlValue.beq_refl : ∀ (a : NmlValue), NmlValue.beq a a = true
  | .vbool _ => by simp [NmlValue.beq]
  | .vint _ => by simp [NmlValue.beq]
  | .vfloat _ => by simp [NmlValue.beq]
  | .vstr _ => by simp [NmlValue.beq]
  | .vlist a => by simp [NmlValue.beq, NmlValue.beqList_refl a]
termination_by structural a => a

theorem NmlValue.beqList_refl : ∀ (a : List NmlValue), NmlValue.beqList a a = true
  | [] => rfl
  | x :: xs => by simp [NmlValue.beqList, NmlValue.beq_refl x, NmlValue.beqList_refl xs]
termination_by structural a => a

end

instance : DecidableEq NmlValue := fun a b =>
  decidable_of_iff (NmlValue.beq a b = true)
    ⟨NmlValue.eq_of_beq a b, fun h => h ▸ NmlValue.beq_refl a⟩

instance : BEq NmlValue := ⟨NmlValue.beq⟩

instance : LawfulBEq NmlValue where
  eq_of_beq := fun {a b} h => NmlValue.eq_of_beq a b h
  rfl := fun {a} => NmlValue.beq_refl a

/-- A namelist group: ordered dict from variable name to value. -/
abbrev Group := List (String × NmlValue)

/-- A parsed namelist file: ordered dict from group name to group. -/
abbrev Document := List (String × Group)

/-- A set of namelist files: ordered dict from file name to document,
as returned by nmldict. -/
abbrev DocSet := List (String × Document)

/-! ## Python dict primitives on association lists -/

/-- Python d[k] as an Option (first matching key). -/
def alookup {α : Type} : List (String × α) → String → Option α
  | [], _ => none
  | (k1, v1) :: t, k => if k1 = k then some v1 else alookup t k

/-- Python (k in d). -/
def amem {α : Type} (m : List (String × α)) (k : String) : Bool :=
  (alookup m k).isSome

/-- Python d[k] = v: replace in place if the key exists, else append. -/
def aset {α : Type} : List (String × α) → String → α → List (String × α)
  | [], k, v => [(k, v)]
  | (k1, v1) :: t, k, v => if k1 = k then (k, v) :: t else (k1, v1) :: aset t k v

/-- Python (del d[k]): remove the first occurrence of the key (no-op if absent). -/
def adel {α : Type} : List (String × α) → String → List (String × α)
  | [], _ => []
  | (k1, v1) :: t, k => if k1 = k then t else (k1, v1) :: adel t k

/-- Apply f to the value at key k (Python d[k] = f(d[k]); no-op if absent). -/
def amodify {α : Type} : List (String × α) → String → (α → α) → List (String × α)
  | [], _, _ => []
  | (k1, v1) :: t, k, f => if k1 = k then (k1, f v1) :: t else (k1, v1) :: amodify t k f

/-- Python d.update(other). -/
def aupdate {α : Type} (m other : List (String × α)) : List (String × α) :=
  other.foldl (fun acc p => aset acc p.1 p.2) m

/-- Lookup of a variable inside a group of a document: d[g][v] as an Option. -/
def dvlookup (doc : Document) (g v : String) : Option NmlValue :=
  match alookup doc g with
  | some grp => alookup grp v
  | none => none

/-! ## Python builtins used by the source -/

/-- Python max(list of nats, default=0). -/
def pymax0 (l : List Nat) : Nat := l.foldl Nat.max 0

/-- Python s.ljust(w). -/
def pyljust (s : String) (w : Nat) : String :=
  s ++ String.mk (List.replicate (w - s.length) ' ')

/-- Python s * n (string repetition). -/
def pyrepeat (s : String) (n : Nat) : String :=
  String.join (List.replicate n s)

/-- Python s.lower() (ASCII case folding, as used for format names). -/
def pyLower (s : String) : String := String.mk (s.data.map Char.toLower)

/-- Python s.startswith(pre). -/
def pyStartsWith (s pre : String) : Bool := pre.data.isPrefixOf s.data

/-- Left-to-right non-overlapping replacement on character lists (fuel-driven;
the fuel is the length of the scanned list, and the patterns used in the
source are non-empty). -/
def replChars : Nat → List Char → List Char → List Char → List Char
  | 0, l, _, _ => l
  | _ + 1, [], _, _ => []
  | n + 1, c :: t, pat, rep =>
    if pat ≠ [] ∧ pat.isPrefixOf (c :: t) then
      rep ++ replChars n ((c :: t).drop pat.length) pat rep
    else c :: replChars n t pat rep

/-- Python s.replace(pat, rep). -/
def pyreplace (s pat rep : String) : String :=
  String.mk (replChars s.data.length s.data pat.data rep.data)

/-- Python sorted() on a list of strings (code-point lexicographic). -/
def pysorted (l : List String) : List String :=
  l.insertionSort (fun a b => a ≤ b)

/-! ## superset (nmltab.py lines 79-116) -/

/-- Return dict of groups and variables present in any of the input Namelists
(faithful to nmltab.superset: dict.update for groups, then per-group
dict.update over all documents in order, so the value for each
(group, variable) is the one from the last document defining it). -/
def superset (nmlall : DocSet) : Document :=
  let nmlsuperset : Document := nmlall.foldl (fun acc p => aupdate acc p.2) []
  nmlsuperset.map (fun ge =>
    (ge.1, nmlall.foldl (fun acc p =>
      match alookup p.2 ge.1 with
      | some grp => aupdate acc grp
      | none => acc) ge.2))

/-! ## nmldiff (nmltab.py lines 119-196) -/

/-- Delete variable var from group in every document (the inner
"for nml in nmlall: del nmlall[nml][group][var]" loop of nmldiff). -/
def delvarFromAll (nmlall : DocSet) (group var : String) : DocSet :=
  nmlall.map (fun p => (p.1, amodify p.2 group (fun grp => adel grp var)))

/-- Delete group from every document (the "for nml in nmlall:
del nmlall[nml][group]" loop of nmldiff). -/
def delgroupFromAll (nmlall : DocSet) (group : String) : DocSet :=
  nmlall.map (fun p => (p.1, adel p.2 group))

/-- One iteration of nmldiff's inner variable loop; the state is the
current DocSet together with the varkept flag. -/
def diffVarStep (keep group : String) (supgrp : Group) (st : DocSet × Bool)
    (var : String) : DocSet × Bool :=
  let deletevar := st.1.all (fun p =>
    (alookup ((alookup p.2 group).getD []) var).isSome)
  if deletevar then
    let deletevar := st.1.all (fun p =>
      alookup ((alookup p.2 group).getD []) var == alookup supgrp var)
    if deletevar then
      if var == keep then (st.1, true)
      else (delvarFromAll st.1 group var, st.2)
    else st
  else st

/-- The body of nmldiff's outer loop for one superset group entry. -/
def diffGroup (keep : String) (st : DocSet) (ge : String × Group) : DocSet :=
  let deletegroup := st.all (fun p => amem p.2 ge.1)
  if deletegroup then
    let st2 := (ge.2.map Prod.fst).foldl (diffVarStep keep ge.1 ge.2) (st, false)
    let varkept := st2.2
    let nmlall := st2.1
    let onlyvarkept :=
      if varkept then
        nmlall.foldl (fun ovk p =>
          let grp := (alookup p.2 ge.1).getD []
          let ovk := ovk && decide (grp.length < 2)
          if ovk && grp.length == 1 then
            match grp with
            | e :: _ => e.1 == keep
            | [] => ovk
          else ovk) true
      else false
    let deletegroup :=
      if onlyvarkept then true
      else (nmlall.map (fun p => ((alookup p.2 ge.1).getD []).length)).foldl Nat.max 0 == 0
    if deletegroup then delgroupFromAll nmlall ge.1 else nmlall
  else st

/-- In-place remove every group/variable that is the same in all file
Namelists (faithful to nmltab.nmldiff; the in-place mutation is modelled
by returning the new DocSet). -/
def nmldiff (nmlall : DocSet) (keep : String) : DocSet :=
  let nmlsuperset := superset nmlall
  nmlsuperset.foldl (diffGroup keep) nmlall

/-! ## prunefilelist (nmltab.py lines 199-229) -/

/-- Remove names of files with identical content to the previous kept file
in the list (faithful to nmltab.prunefilelist; the file system is modelled
by the two oracles isfile and content, with filecmp.cmp(a, b, shallow=False)
modelled as content a == content b). -/
def prunefilelist (isfile : String → Bool) (content : String → List Nat)
    (fnames : List String) : List String :=
  let fntmp := fnames.filter isfile
  if fntmp.length ≤ 1 then fntmp
  else
    match fntmp with
    | [] => []
    | f :: rest =>
      rest.foldl (fun out fn =>
        if !(content (out.getLastD "") == content fn) then out ++ [fn] else out) [f]

/-! ## nmlprune (nmltab.py lines 232-283) -/

/-- Delete the ignore-listed (group, variable) entries from a copied pair
(the "for group in ignore: for var in ignore[group]: ..." loop of nmlprune). -/
def applyIgnore (ignore : List (String × List String)) (pair : DocSet) : DocSet :=
  ignore.foldl (fun pair gv =>
    gv.2.foldl (fun pair v =>
      pair.map (fun p => (p.1, amodify p.2 gv.1 (fun grp => adel grp v)))) pair) pair

/-- The while-True loop of nmlprune, with a fuel parameter (the fuel chosen
in nmlprune is large enough for every reachable state, see the nmlprune
refinement theorem). -/
def pruneLoopF (ignore : List (String × List String)) :
    Nat → DocSet → Nat → DocSet
  | 0, nmlall, _ => nmlall
  | fuel + 1, nmlall, idx =>
    let pair := applyIgnore ignore ((nmlall.drop idx).take 2)
    let pair := nmldiff pair ""
    if pymax0 (pair.map (fun p => p.2.length)) == 0 then
      let key2 := (pair.map Prod.fst).getD 1 ""
      let nmlall2 := adel nmlall key2
      if (idx : Int) > (nmlall2.length : Int) - 2 then nmlall2
      else pruneLoopF ignore fuel nmlall2 idx
    else
      if ((idx : Int) + 1) > (nmlall.length : Int) - 2 then nmlall
      else pruneLoopF ignore fuel nmlall (idx + 1)

/-- In-place remove all Namelists that are the same as the previous one in
nmlall (faithful to nmltab.nmlprune). -/
def nmlprune (nmlall : DocSet) (ignore : List (String × List String)) : DocSet :=
  if nmlall.length > 1 then pruneLoopF ignore (2 * nmlall.length) nmlall 0
  else nmlall

/-! ## strnmldict (nmltab.py lines 322-582) -/

/-- Python truthiness of a namelist value (used by the masterswitch test
"not nmlall[fn][group][masterswitch]"). -/
def pyTruthy : NmlValue → Bool
  | .vbool b => b
  | .vint n => !(n == 0)
  | .vfloat r => !(r == "0.0" || r == "-0.0")
  | .vstr s => !(s == "")
  | .vlist xs => !xs.isEmpty

mutual

/-- Python repr of a namelist value. -/
def pyrepr : NmlValue → String
  | .vbool b => if b then "True" else "False"
  | .vint n => toString n
  | .vfloat r => r
  | .vstr s => "\x27" ++ s ++ "\x27"
  | .vlist xs => "[" ++ pyreprList xs ++ "]"
termination_by structural a => a

/-- Python repr of a list of values, joined by ", ". -/
def pyreprList : List NmlValue → String
  | [] => ""
  | [x] => pyrepr x
  | x :: y :: t => pyrepr x ++ ", " ++ pyreprList (y :: t)
termination_by structural a => a

end

/-- The latexstr helper of strnmldict. -/
def latexstr (item : String) : String :=
  pyreplace (pyreplace (pyreplace item "_" "\\_") "/" "\\slash ") "%" "\\%"

mutual

/-- The latexrepr helper of strnmldict. -/
def latexrepr : NmlValue → String
  | .vstr s => "\x27" ++ latexstr s ++ "\x27"
  | .vfloat r => "\\num*\x7b" ++ (pyreplace (pyreplace r "e+0" "e+") "e-0" "e-") ++ "\x7d\x7b\x7d"
  | .vlist xs => latexreprList xs
  | .vbool b => pyrepr (.vbool b)
  | .vint n => pyrepr (.vint n)
termination_by structural a => a

/-- latexrepr of a list: items joined by ", " (the s[:-2] idiom). -/
def latexreprList : List NmlValue → String
  | [] => ""
  | [x] => latexrepr x
  | x :: y :: t => latexrepr x ++ ", " ++ latexreprList (y :: t)
termination_by structural a => a

end

/-- Python "(group in hide) and (var in hide[group])". -/
def hideHas (hide : List (String × List String)) (g v : String) : Bool :=
  match alookup hide g with
  | some vs => vs.contains v
  | none => false

/-- Python "group in nmldss and var in nmldss[group]" (difference marking). -/
def dssHas (nmldss : Document) (g v : String) : Bool :=
  match alookup nmldss g with
  | some grp => amem grp v
  | none => false

/-- The (group, variable) pairs in the order every format iterates them:
lexicographically sorted group names, and within each group
lexicographically sorted variable names. -/
def sortedPairs (nmlss : Document) : List (String × String) :=
  (pysorted (nmlss.map Prod.fst)).flatMap (fun g =>
    (pysorted (((alookup nmlss g).getD []).map Prod.fst)).map (fun v => (g, v)))

/-- The markdown branch of strnmldict. -/
def strnmldictMd (nmlall : DocSet) (nmlss : Document) (fnames : List String)
    (colwidth : Nat) : String :=
  if nmlss.length > 0 then
    let pairs := sortedPairs nmlss
    let st := "| " ++ pyljust "File" colwidth ++ " | "
    let st := pairs.foldl (fun st gv => st ++ "&" ++ gv.1 ++ "<br>" ++ gv.2 ++ " | ") st
    let st := st ++ "\n|-" ++ pyrepeat "-" colwidth ++ ":|" ++ pyrepeat "--:|" pairs.length
    let st := fnames.foldl (fun st fn =>
      let st := st ++ "\n| " ++ fn ++ " | "
      pairs.foldl (fun st gv =>
        let st := match dvlookup ((alookup nmlall fn).getD []) gv.1 gv.2 with
          | some x => st ++ pyrepr x
          | none => st
        st ++ " | ") st) st
    st ++ "\n"
  else ""

/-- The per-value cell of the latex table, with the masterswitch greying rule. -/
def latexCell (grp : Group) (masterswitch v : String) (x : NmlValue) : String :=
  let st1 := latexrepr x
  match alookup grp masterswitch with
  | some mv =>
    if !(pyTruthy mv) && !(v == masterswitch) then "\\ignored\x7b" ++ st1 ++ "\x7d"
    else st1
  | none => st1

/-- The rows of the latex table (the sorted group/variable double loop). -/
def latexTableRows (nmlall : DocSet) (nmlss nmldss : Document)
    (fnames : List String) (masterswitch : String)
    (hide : List (String × List String)) : String :=
  (pysorted (nmlss.map Prod.fst)).foldl (fun st g =>
    let res := (pysorted (((alookup nmlss g).getD []).map Prod.fst)).foldl
      (fun (acc : String × Bool) v =>
        if hideHas hide g v then acc
        else
          let gr := if acc.2 then "\\&\\nmllink\x7b" ++ latexstr g ++ "\x7d\x7b" ++ g ++ "\x7d" else ""
          let st1 :=
            if dssHas nmldss g v then
              gr ++ " \\hfill \\nmldiffer\x7b\\nmllink\x7b" ++ latexstr v ++ "\x7d\x7b" ++ v ++ "\x7d\x7d"
            else
              gr ++ " \\hfill \\nmllink\x7b" ++ latexstr v ++ "\x7d\x7b" ++ v ++ "\x7d"
          let st := acc.1 ++ st1
          let st := fnames.foldl (fun st fn =>
            let st := st ++ "\t & \t"
            match alookup ((alookup nmlall fn).getD []) g with
            | some grp =>
              match alookup grp v with
              | some x => st ++ latexCell grp masterswitch v x
              | none => st
            | none => st) st
          (st ++ " \\\\\n", false))
      (st, true)
    if !res.2 then res.1 ++ "\\hline\n" else res.1) ""

/-- The dedented latex header emitted for fmt == latex (table-only output). -/
def latexTableOnlyHeader : String :=
  "\n% Latex tabulation of Fortran namelist, auto-generated by nmltab.py <https://github.com/aekiss/nmltab>\n%\n% Include this file in a latex document using \\import\x7bpath/to/this/file\x7d.\n% The importing document requires\n% \\usepackage\x7bltablex, array, sistyle\x7d\n% and possibly (depending on definitions below)\n% \\usepackage\x7bhyperref, color\x7d\n% and also needs to define \x27nmldiffer\x27, \x27nmllink\x27 and \x27ignored\x27 commands, e.g.\n% \\newcommand\x7b\\nmldiffer\x7d[1]\x7b#1\x7d % no special display of differing variables\n% \\newcommand\x7b\\nmldiffer\x7d[1]\x7b\\textbf\x7b#1\x7d\x7d % bold display of differing variables\n% \\definecolor\x7bhilite\x7d\x7bcmyk\x7d\x7b0, 0, 0.9, 0\x7d\\newcommand\x7b\\nmldiffer\x7d[1]\x7b\\colorbox\x7bhilite\x7d\x7b#1\x7d\x7d\\setlength\x7b\\fboxsep\x7d\x7b0pt\x7d % colour highlight of differing variables (requires color package)\n% \\newcommand\x7b\\nmllink\x7d[2]\x7b#1\x7d % don\x27t link variables\n% \\newcommand\x7b\\nmllink\x7d[2]\x7b\\href\x7bhttps://github.com/mom-ocean/MOM5/search?q=#2\x7d\x7b#1\x7d\x7d % link variables to documentation (requires hyperref package)\n% \\newcommand\x7b\\ignored\x7d[1]\x7b#1\x7d % no special display of ignored variables\n% \\definecolor\x7bignore\x7d\x7bgray\x7d\x7b0.7\x7d\\newcommand\x7b\\ignored\x7d[1]\x7b\\textcolor\x7bignore\x7d\x7b#1\x7d\x7d % gray display of ignored variables (but only in groups where masterswitch key is present and false, so may not work well for differences; requires color package)\n% and also define the length \x27nmllen\x27 that sets the column width, e.g.\n% \\newlength\x7b\\nmllen\x7d\\setlength\x7b\\nmllen\x7d\x7b12ex\x7d\n\n"

/-- The dedented latex-complete document preamble. -/
def latexCompleteHeader : String :=
  "% generated by https://github.com/aekiss/nmltab\n            \\documentclass[10pt]\x7barticle\x7d\n            \\usepackage[a4paper, truedimen, top=2cm,bottom=2cm,left=2cm,right=2cm]\x7bgeometry\x7d\n\n            \\usepackage\x7bPTSansNarrow\x7d % narrow sans serif font for urls\n            \\usepackage[scaled=.9]\x7binconsolata\x7d % for texttt\n            \\renewcommand\x7b\\familydefault\x7d\x7b\\sfdefault\x7d\n\n            \\usepackage[table,dvipsnames]\x7bxcolor\x7d    % loads also colortbl\n            \\definecolor\x7blightblue\x7d\x7brgb\x7d\x7b0.93,0.95,1.0\x7d  % for table rows\n            \\rowcolors\x7b1\x7d\x7blightblue\x7d\x7bwhite\x7d\n            \\definecolor\x7blink\x7d\x7brgb\x7d\x7b0,0,1\x7d\n            \\usepackage[colorlinks, linkcolor=\x7blink\x7d,citecolor=\x7blink\x7d,urlcolor=\x7blink\x7d,\n             breaklinks, bookmarks, bookmarksnumbered]\x7bhyperref\x7d\n            \\usepackage\x7burl\x7d\n            \\usepackage\x7bbreakurl\x7d\n            \\urlstyle\x7bsf\x7d\n\n            \\usepackage\x7bltablex\x7d\\keepXColumns\n            \\usepackage\x7barray, sistyle\x7d\n\n            \\usepackage[strings]\x7bunderscore\x7d % allows hyphenation at underscores\n            \\usepackage\x7bdatetime2\x7d\\DTMsetdatestyle\x7biso\x7d\n\n            \\usepackage\x7bmakeidx\x7d\n            \\makeindex\n\n            \\usepackage\x7bfancyhdr\x7d\n            \\pagestyle\x7bfancy\x7d\n            \\renewcommand\x7b\\headrulewidth\x7d\x7b0pt\x7d\n            \\lfoot\x7b\x7b\\footnotesize \\textsl\x7bFortran namelist table generated by \\url\x7bhttps://github.com/aekiss/nmltab\x7d\x7d\x7d\x7d\n            \\rfoot\x7b\\textsl\x7b\\today\\ \\DTMcurrenttime\\ \\DTMcurrentzone\x7d\x7d\n\n            \\begin\x7bdocument\x7d\n\n            \\definecolor\x7bignore\x7d\x7bgray\x7d\x7b0.7\x7d\\newcommand\x7b\\ignored\x7d[1]\x7b\\textcolor\x7bignore\x7d\x7b#1\x7d\x7d % gray display of ignored variables (but only in groups where masterswitch key is present and false, so may not work well for differences; requires color package)\n            \\newlength\x7b\\nmllen\x7d\\setlength\x7b\\nmllen\x7d\x7b12ex\x7d\n\n"

/-- The dedented latex-complete document footer. -/
def latexCompleteFooter : String :=
  "\n\\clearpage\n\\phantomsection % fix hyperrefs to index\n\\addcontentsline\x7btoc\x7d\x7bpart\x7d\x7b\\indexname\x7d\n\\printindex\n\\end\x7bdocument\x7d\n"

/-- The latex family branch of strnmldict (any fmt starting with "latex"). -/
def strnmldictLatex (nmlall : DocSet) (nmlss nmldss : Document)
    (fnames : List String) (fmt masterswitch : String)
    (hide : List (String × List String)) (heading url : String) : String :=
  if nmlss.length > 0 then
    let st :=
      if fmt = "latex" then latexTableOnlyHeader
      else if fmt = "latex-complete" then
        latexCompleteHeader ++ heading ++
        (if url = "" then "\\newcommand\x7b\\nmllink\x7d[2]\x7b#1\\index\x7b#1\x7d\x7d"
         else "Variables are weblinks to source code searches.\n" ++
           "\\newcommand\x7b\\nmllink\x7d[2]\x7b\\href\x7b" ++ url ++ "#2\x7d\x7b#1\x7d\\index\x7b#1\x7d\x7d") ++ "\n"
      else ""
    let st := st ++ "\\newcolumntype\x7bR\x7d\x7b>\x7b\\raggedleft\\arraybackslash\x7db\x7b\\nmllen\x7d\x7d\n"
    let st := st ++ "\\begin\x7btabularx\x7d\x7b\\linewidth\x7d\x7bX" ++ pyrepeat "R" fnames.length ++ "\x7d\n"
    let st := st ++ "\\hline\n\\hiderowcolors\n"
    let st := st ++ "\\textbf\x7bGroup\\quad\\hfill Variable\x7d"
    let st := fnames.foldl (fun st fn => st ++ "\t & \t\\textbf\x7b" ++ latexstr fn ++ "\x7d") st
    let st := st ++ " \\\\\n\\showrowcolors\n\\hline\\endfirsthead\n"
    let st := st ++ "\\hline\n\\hiderowcolors\n"
    let st := st ++ "\\textbf\x7bGroup (continued)\\quad\\hfill Variable\x7d"
    let st := fnames.foldl (fun st fn => st ++ "\t & \t\\textbf\x7b" ++ latexstr fn ++ "\x7d") st
    let st := st ++ " \\\\\n\\showrowcolors\n\\hline\\endhead\n"
    let st := st ++ latexTableRows nmlall nmlss nmldss fnames masterswitch hide
    let st := st ++ "\\end\x7btabularx\x7d\n"
    if fmt = "latex-complete" then st ++ latexCompleteFooter else st
  else ""

/-- The text / text-tight branch of strnmldict. -/
def strnmldictText (nmlall : DocSet) (nmlss nmldss : Document)
    (fnames : List String) (hide : List (String × List String))
    (gwidth vwidth dwidth : Nat) : String :=
  (pysorted (nmlss.map Prod.fst)).foldl (fun st g =>
    (pysorted (((alookup nmlss g).getD []).map Prod.fst)).foldl (fun st v =>
      if hideHas hide g v then st
      else
        let st1 := if dssHas nmldss g v then "* " else "  "
        fnames.foldl (fun st fn =>
          let st := st ++ st1 ++ "&" ++ pyljust g gwidth ++ "  " ++ pyljust v vwidth ++ "  "
          let dstr := match dvlookup ((alookup nmlall fn).getD []) g v with
            | some x => pyrepr x
            | none => ""
          st ++ pyljust dstr dwidth ++ "  " ++ fn ++ "\n") st) st) ""

/-- The default (plain) branch of strnmldict. -/
def strnmldictDefault (nmlall : DocSet) (nmlss : Document)
    (fnames : List String) (colwidth : Nat)
    (hide : List (String × List String)) : String :=
  (pysorted (nmlss.map Prod.fst)).foldl (fun st g =>
    (pysorted (((alookup nmlss g).getD []).map Prod.fst)).foldl (fun st v =>
      if hideHas hide g v then st
      else
        let st := st ++ pyrepeat " " (colwidth + 2) ++ "&" ++ g ++ "\n"
        let st := st ++ pyrepeat " " (colwidth + 2) ++ " " ++ v ++ "\n"
        fnames.foldl (fun st fn =>
          let st := st ++ pyljust fn colwidth ++ " : "
          let st := match dvlookup ((alookup nmlall fn).getD []) g v with
            | some x => st ++ pyrepr x
            | none => st
          st ++ "\n") st) st) ""

/-- Return string representation of a dict of Namelists (faithful to
nmltab.strnmldict). -/
def strnmldict (nmlall : DocSet) (fmt0 : String) (masterswitch : String)
    (hide : List (String × List String)) (heading url : String) : String :=
  let fmt := pyLower fmt0
  let nmlss := superset nmlall
  let nmldss := superset (nmldiff nmlall "")
  let fnames := nmlall.map Prod.fst
  let colwidth := pymax0 (fnames.map String.length)
  if fmt = "md" ∨ fmt = "markdown" then
    strnmldictMd nmlall nmlss fnames colwidth
  else if pyStartsWith fmt "latex" then
    strnmldictLatex nmlall nmlss nmldss fnames fmt masterswitch hide heading url
  else if pyStartsWith fmt "text" then
    let gwidth := if fmt = "text" then pymax0 ((nmlss.map Prod.fst).map String.length) else 0
    let vwidth := if fmt = "text" then
        pymax0 ((nmlss.map Prod.snd).map (fun g => pymax0 ((g.map Prod.fst).map String.length)))
      else 0
    let dwidth := if fmt = "text" then
        pymax0 ((nmlall.map Prod.fst).map (fun fn =>
          pymax0 ((((alookup nmlall fn).getD []).map Prod.snd).map (fun g =>
            pymax0 ((g.map Prod.snd).map (fun x => (pyrepr x).length))))))
      else 0
    strnmldictText nmlall nmlss nmldss fnames hide gwidth vwidth dwidth
  else
    strnmldictDefault nmlall nmlss fnames colwidth hide

/-! ## Well-formedness (Python dicts have unique keys) -/

/-- Unique variable names within a group. -/
def GroupWF (g : Group) : Prop := (g.map Prod.fst).Nodup

/-- Unique group names within a document, and well-formed groups. -/
def DocWF (d : Document) : Prop :=
  (d.map Prod.fst).Nodup ∧ ∀ e ∈ d, GroupWF e.2

/-- Unique source names within a DocumentSet, and well-formed documents. -/
def DocSetWF (D : DocSet) : Prop :=
  (D.map Prod.fst).Nodup ∧ ∀ p ∈ D, DocWF p.2

instance (g : Group) : Decidable (GroupWF g) := by unfold GroupWF; infer_instance

instance (d : Document) : Decidable (DocWF d) := by unfold DocWF; infer_instance

instance (D : DocSet) : Decidable (DocSetWF D) := by unfold DocSetWF; infer_instance

/-! ## Association list lemmas -/

variable {α : Type}

theorem alookup_aset (m : List (String × α)) (k : String) (v : α) (k' : String) :
    alookup (aset m k v) k' = if k = k' then some v else alookup m k' := by
  induction m with
  | nil => simp [aset, alookup]
  | cons e t ih =>
    obtain ⟨k1, v1⟩ := e
    by_cases h1 : k1 = k
    · subst h1
      by_cases h2 : k1 = k'
      · subst h2; simp [aset, alookup]
      · simp [aset, alookup, h2, Ne.symm h2]
    · by_cases h2 : k1 = k'
      · subst h2; simp [aset, alookup, h1, Ne.symm h1]
      · simp [aset, alookup, h1, h2, ih]

theorem amem_keys {m : List (String × α)} {k : String} :
    amem m k = true ↔ k ∈ m.map Prod.fst := by
  induction m with
  | nil => simp [amem, alookup]
  | cons e t ih =>
    by_cases h : e.1 = k
    · subst h; simp [amem, alookup]
    · simpa [amem, alookup, h, Ne.symm h] using ih

theorem alookup_isSome_iff_mem_keys {m : List (String × α)} {k : String} :
    (alookup m k).isSome = true ↔ k ∈ m.map Prod.fst := amem_keys

theorem alookup_eq_none_iff_not_mem_keys {m : List (String × α)} {k : String} :
    alookup m k = none ↔ ¬ k ∈ m.map Prod.fst := by
  rw [← alookup_isSome_iff_mem_keys]
  cases alookup m k <;> simp

theorem keys_aset (m : List (String × α)) (k : String) (v : α) :
    (aset m k v).map Prod.fst =
      if k ∈ m.map Prod.fst then m.map Prod.fst else m.map Prod.fst ++ [k] := by
  induction m with
  | nil => simp [aset]
  | cons e t ih =>
    obtain ⟨k1, v1⟩ := e
    by_cases h1 : k1 = k
    · subst h1; simp [aset]
    · by_cases h2 : k ∈ t.map Prod.fst <;>
        simp [aset, h1, Ne.symm h1, h2, ih]

theorem nodup_keys_aset {m : List (String × α)} (k : String) (v : α)
    (h : (m.map Prod.fst).Nodup) : ((aset m k v).map Prod.fst).Nodup := by
  rw [keys_aset]
  by_cases hk : k ∈ m.map Prod.fst
  · simpa [hk] using h
  · simp only [hk, if_false]
    refine List.Nodup.append h (List.nodup_singleton k) ?_
    intro a ha hb
    simp only [List.mem_singleton] at hb
    subst hb
    exact hk ha

theorem alookup_aupdate (m : List (String × α)) {o : List (String × α)}
    (ho : (o.map Prod.fst).Nodup) (k : String) :
    alookup (aupdate m o) k =
      match alookup o k with
      | some v => some v
      | none => alookup m k := by
  induction o generalizing m with
  | nil => simp [aupdate, alookup]
  | cons e t ih =>
    obtain ⟨k1, v1⟩ := e
    simp only [List.map_cons, List.nodup_cons] at ho
    have step : aupdate m ((k1, v1) :: t) = aupdate (aset m k1 v1) t := by
      simp [aupdate]
    rw [step, ih (aset m k1 v1) ho.2]
    by_cases h1 : k1 = k
    · subst h1
      have : alookup t k1 = none := alookup_eq_none_iff_not_mem_keys.mpr ho.1
      simp [this, alookup, alookup_aset]
    · simp [alookup, h1, alookup_aset]

theorem keys_aupdate_mem (m o : List (String × α)) (k : String) :
    k ∈ (aupdate m o).map Prod.fst ↔ k ∈ m.map Prod.fst ∨ k ∈ o.map Prod.fst := by
  induction o generalizing m with
  | nil => simp [aupdate]
  | cons e t ih =>
    have step : aupdate m (e :: t) = aupdate (aset m e.1 e.2) t := by simp [aupdate]
    rw [step, ih]
    rw [keys_aset]
    by_cases h : e.1 ∈ m.map Prod.fst
    · simp only [h, if_true, List.map_cons, List.mem_cons]
      constructor
      · rintro (h1 | h1)
        · exact Or.inl h1
        · exact Or.inr (Or.inr h1)
      · rintro (h1 | h1 | h1)
        · exact Or.inl h1
        · exact Or.inl (h1 ▸ h)
        · exact Or.inr h1
    · simp only [h, if_false, List.mem_append, List.mem_singleton, List.map_cons,
        List.mem_cons]
      tauto

theorem nodup_keys_aupdate {m : List (String × α)} (o : List (String × α))
    (h : (m.map Prod.fst).Nodup) : ((aupdate m o).map Prod.fst).Nodup := by
  induction o generalizing m with
  | nil => simpa [aupdate] using h
  | cons e t ih =>
    have step : aupdate m (e :: t) = aupdate (aset m e.1 e.2) t := by simp [aupdate]
    rw [step]
    exact ih (nodup_keys_aset e.1 e.2 h)

theorem alookup_adel_ne (m : List (String × α)) {k k' : String} (h : k' ≠ k) :
    alookup (adel m k) k' = alookup m k' := by
  induction m with
  | nil => simp [adel]
  | cons e t ih =>
    obtain ⟨k1, v1⟩ := e
    by_cases h1 : k1 = k
    · subst h1; simp [adel, alookup, Ne.symm h]
    · by_cases h2 : k1 = k' <;> simp [adel, alookup, h, h1, h2, ih]

theorem alookup_adel_self {m : List (String × α)} {k : String}
    (h : (m.map Prod.fst).Nodup) : alookup (adel m k) k = none := by
  induction m with
  | nil => simp [adel, alookup]
  | cons e t ih =>
    obtain ⟨k1, v1⟩ := e
    simp only [List.map_cons, List.nodup_cons] at h
    by_cases h1 : k1 = k
    · subst h1
      simp only [adel, if_pos rfl]
      exact alookup_eq_none_iff_not_mem_keys.mpr h.1
    · simp [adel, alookup, h1, ih h.2]

theorem keys_adel_sublist (m : List (String × α)) (k : String) :
    ((adel m k).map Prod.fst).Sublist (m.map Prod.fst) := by
  induction m with
  | nil => simp [adel]
  | cons e t ih =>
    by_cases h1 : e.1 = k
    · simpa [adel, h1] using List.sublist_cons_self _ _
    · simpa [adel, h1] using ih

theorem nodup_keys_adel {m : List (String × α)} (k : String)
    (h : (m.map Prod.fst).Nodup) : ((adel m k).map Prod.fst).Nodup :=
  (keys_adel_sublist m k).nodup h

theorem keys_amodify (m : List (String × α)) (k : String) (f : α → α) :
    (amodify m k f).map Prod.fst = m.map Prod.fst := by
  induction m with
  | nil => simp [amodify]
  | cons e t ih =>
    by_cases h1 : e.1 = k <;> simp [amodify, h1, ih]

theorem alookup_amodify_self (m : List (String × α)) (k : String) (f : α → α) :
    alookup (amodify m k f) k = (alookup m k).map f := by
  induction m with
  | nil => simp [amodify, alookup]
  | cons e t ih =>
    obtain ⟨k1, v1⟩ := e
    by_cases h1 : k1 = k <;> simp [amodify, alookup, h1, ih]

theorem alookup_amodify_ne (m : List (String × α)) {k k' : String} (f : α → α)
    (h : k' ≠ k) : alookup (amodify m k f) k' = alookup m k' := by
  induction m with
  | nil => simp [amodify]
  | cons e t ih =>
    obtain ⟨k1, v1⟩ := e
    by_cases h1 : k1 = k
    · subst h1; simp [amodify, alookup, Ne.symm h]
    · by_cases h2 : k1 = k' <;> simp [amodify, alookup, h, h1, h2, ih]

theorem alookup_filter (m : List (String × α)) (p : String → Bool) (k : String) :
    alookup (m.filter (fun e => p e.1)) k = if p k then alookup m k else none := by
  induction m with
  | nil => simp [alookup]
  | cons e t ih =>
    obtain ⟨k1, v1⟩ := e
    by_cases h1 : k1 = k
    · subst h1
      by_cases hp : p k1 <;> simp [List.filter_cons, alookup, hp, ih]
    · by_cases hp : p k1 <;> simp [List.filter_cons, alookup, hp, h1, ih]

theorem adel_eq_filter {m : List (String × α)} {k : String}
    (h : (m.map Prod.fst).Nodup) :
    adel m k = m.filter (fun e => !(e.1 == k)) := by
  induction m with
  | nil => simp [adel]
  | cons e t ih =>
    obtain ⟨k1, v1⟩ := e
    simp only [List.map_cons, List.nodup_cons] at h
    by_cases h1 : k1 = k
    · subst h1
      have : ∀ e ∈ t, (!(e.1 == k1)) = true := by
        intro e he
        have : e.1 ∈ t.map Prod.fst := List.mem_map_of_mem Prod.fst he
        simp only [Bool.not_eq_eq_eq_not, Bool.not_true, beq_eq_false_iff_ne, ne_eq]
        intro hc; exact h.1 (hc ▸ this)
      simp [adel, List.filter_cons, (List.filter_eq_self).mpr this]
    · simp [adel, List.filter_cons, h1, ih h.2]

theorem alookup_mem {m : List (String × α)} {k : String} {v : α}
    (h : alookup m k = some v) : (k, v) ∈ m := by
  induction m with
  | nil => simp [alookup] at h
  | cons e t ih =>
    obtain ⟨k1, v1⟩ := e
    by_cases h1 : k1 = k
    · subst h1
      simp only [alookup, if_true] at h
      cases h
      exact List.mem_cons_self _ _
    · simp only [alookup, h1, if_false] at h
      exact List.mem_cons_of_mem _ (ih h)

theorem alookup_of_mem_nodup {m : List (String × α)} {k : String} {v : α}
    (hnd : (m.map Prod.fst).Nodup) (h : (k, v) ∈ m) : alookup m k = some v := by
  induction m with
  | nil => simp at h
  | cons e t ih =>
    obtain ⟨k1, v1⟩ := e
    simp only [List.map_cons, List.nodup_cons] at hnd
    rcases List.mem_cons.mp h with h | h
    · cases h; simp [alookup]
    · have hk1 : ¬ k1 = k := by
        intro hc
        apply hnd.1
        rw [hc]
        exact List.mem_map.mpr ⟨(k, v), h, rfl⟩
      simp only [alookup, hk1, if_false]
      exact ih hnd.2 h

theorem alookup_fst_mem {m : List (String × α)} {e : String × α}
    (hnd : (m.map Prod.fst).Nodup) (h : e ∈ m) : alookup m e.1 = some e.2 :=
  alookup_of_mem_nodup hnd (by simpa using h)

theorem eq_nil_of_alookup_eq_none {m : List (String × α)}
    (h : ∀ k, alookup m k = none) : m = [] := by
  cases m with
  | nil => rfl
  | cons e t =>
    have := h e.1
    simp [alookup] at this

/-! ## Characterization of superset -/

/-- The value for (g, v) from the last document, in DocumentSet order,
that defines variable v in group g (the spec's last-wins representative). -/
def lastVal : DocSet → String → String → Option NmlValue
  | [], _, _ => none
  | p :: t, g, v =>
    match lastVal t g v with
    | some x => some x
    | none => dvlookup p.2 g v

/-- The whole group entry of g from the last document containing group g. -/
def lastGroup : DocSet → String → Option Group
  | [], _ => none
  | p :: t, g =>
    match lastGroup t g with
    | some grp => some grp
    | none => alookup p.2 g

/-- Lookup of the value of (g, v) in the superset (nmlsuperset[g][v]). -/
def svlookup (D : DocSet) (g v : String) : Option NmlValue :=
  match alookup (superset D) g with
  | some sgrp => alookup sgrp v
  | none => none

theorem lastVal_isSome_iff {D : DocSet} {g v : String} :
    (lastVal D g v).isSome = true ↔ ∃ p ∈ D, (dvlookup p.2 g v).isSome = true := by
  induction D with
  | nil => simp [lastVal]
  | cons p t ih =>
    simp only [lastVal]
    cases h : lastVal t g v with
    | some x =>
      simp only [Option.isSome_some, true_iff]
      rcases ih.mp (by simp [h]) with ⟨q, hq, hdv⟩
      exact ⟨q, List.mem_cons_of_mem _ hq, hdv⟩
    | none =>
      rw [h] at ih
      simp only [List.mem_cons]
      constructor
      · intro hp
        exact ⟨p, Or.inl rfl, hp⟩
      · rintro ⟨q, hq | hq, hdv⟩
        · subst hq; exact hdv
        · exact absurd (ih.mpr ⟨q, hq, hdv⟩) (by simp)

theorem lastVal_mem {D : DocSet} {g v : String} {x : NmlValue}
    (h : lastVal D g v = some x) : ∃ p ∈ D, dvlookup p.2 g v = some x := by
  induction D with
  | nil => simp [lastVal] at h
  | cons p t ih =>
    simp only [lastVal] at h
    cases h' : lastVal t g v with
    | some y =>
      rw [h'] at h
      cases h
      rcases ih h' with ⟨q, hq, hdv⟩
      exact ⟨q, List.mem_cons_of_mem _ hq, hdv⟩
    | none =>
      rw [h'] at h
      exact ⟨p, List.mem_cons_self _ _, h⟩

theorem lastGroup_mem {D : DocSet} {g : String} {grp : Group}
    (h : lastGroup D g = some grp) : ∃ p ∈ D, alookup p.2 g = some grp := by
  induction D with
  | nil => simp [lastGroup] at h
  | cons p t ih =>
    simp only [lastGroup] at h
    cases h' : lastGroup t g with
    | some y =>
      rw [h'] at h
      cases h
      rcases ih h' with ⟨q, hq, hg⟩
      exact ⟨q, List.mem_cons_of_mem _ hq, hg⟩
    | none =>
      rw [h'] at h
      exact ⟨p, List.mem_cons_self _ _, h⟩

theorem lastGroup_isSome_iff {D : DocSet} {g : String} :
    (lastGroup D g).isSome = true ↔ ∃ p ∈ D, (alookup p.2 g).isSome = true := by
  induction D with
  | nil => simp [lastGroup]
  | cons p t ih =>
    simp only [lastGroup]
    cases h : lastGroup t g with
    | some x =>
      simp only [Option.isSome_some, true_iff]
      rcases ih.mp (by simp [h]) with ⟨q, hq, hg⟩
      exact ⟨q, List.mem_cons_of_mem _ hq, hg⟩
    | none =>
      rw [h] at ih
      simp only [List.mem_cons]
      constructor
      · intro hp
        exact ⟨p, Or.inl rfl, hp⟩
      · rintro ⟨q, hq | hq, hg⟩
        · subst hq; exact hg
        · exact absurd (ih.mpr ⟨q, hq, hg⟩) (by simp)

/-- The first loop of superset: nmlsuperset.update(nmlall[nml]) over all nml. -/
theorem foldl_aupdate_alookup {D : DocSet} (m : Document) (g : String)
    (hD : ∀ p ∈ D, (p.2.map Prod.fst).Nodup) :
    alookup (D.foldl (fun acc p => aupdate acc p.2) m) g =
      match lastGroup D g with
      | some grp => some grp
      | none => alookup m g := by
  induction D generalizing m with
  | nil => simp [lastGroup]
  | cons p t ih =>
    simp only [List.foldl_cons, lastGroup]
    rw [ih (aupdate m p.2) (fun q hq => hD q (List.mem_cons_of_mem _ hq))]
    cases h : lastGroup t g with
    | some grp => simp
    | none =>
      simp only
      rw [alookup_aupdate m (hD p (List.mem_cons_self _ _)) g]
      cases alookup p.2 g <;> simp

theorem foldl_aupdate_mem_keys (D : DocSet) (m : Document) (g : String) :
    g ∈ ((D.foldl (fun acc p => aupdate acc p.2) m).map Prod.fst) ↔
      g ∈ m.map Prod.fst ∨ ∃ p ∈ D, g ∈ p.2.map Prod.fst := by
  induction D generalizing m with
  | nil => simp
  | cons p t ih =>
    simp only [List.foldl_cons]
    rw [ih (aupdate m p.2)]
    rw [keys_aupdate_mem]
    simp only [List.mem_cons]
    constructor
    · rintro ((h | h) | ⟨q, hq, hg⟩)
      · exact Or.inl h
      · exact Or.inr ⟨p, Or.inl rfl, h⟩
      · exact Or.inr ⟨q, Or.inr hq, hg⟩
    · rintro (h | ⟨q, hq | hq, hg⟩)
      · exact Or.inl (Or.inl h)
      · subst hq; exact Or.inl (Or.inr hg)
      · exact Or.inr ⟨q, hq, hg⟩

theorem foldl_aupdate_nodup (D : DocSet) {m : Document}
    (h : (m.map Prod.fst).Nodup) :
    ((D.foldl (fun acc p => aupdate acc p.2) m).map Prod.fst).Nodup := by
  induction D generalizing m with
  | nil => simpa using h
  | cons p t ih => exact ih (nodup_keys_aupdate p.2 h)

/-- Lookup in an association list whose entries were mapped value-wise. -/
theorem alookup_map_entry {β : Type} (m : List (String × α))
    (F : String × α → β) (k : String) :
    alookup (m.map (fun ge => (ge.1, F ge))) k =
      (alookup m k).map (fun v => F (k, v)) := by
  induction m with
  | nil => simp [alookup]
  | cons e t ih =>
    obtain ⟨k1, v1⟩ := e
    by_cases h1 : k1 = k
    · subst h1; simp [alookup]
    · simp [alookup, h1, ih]

/-- The inner fold of superset for one group. -/
theorem superset_inner_alookup {D : DocSet} (start : Group) (g v : String)
    (hD : ∀ p ∈ D, ∀ e ∈ p.2, ((e.2 : Group).map Prod.fst).Nodup) :
    alookup (D.foldl (fun acc p =>
      match alookup p.2 g with
      | some grp => aupdate acc grp
      | none => acc) start) v =
      match lastVal D g v with
      | some x => some x
      | none => alookup start v := by
  induction D generalizing start with
  | nil => simp [lastVal]
  | cons p t ih =>
    simp only [List.foldl_cons, lastVal]
    have step : ∀ st : Group,
        alookup (match alookup p.2 g with
          | some grp => aupdate st grp
          | none => st) v =
        match dvlookup p.2 g v with
        | some x => some x
        | none => alookup st v := by
      intro st
      cases hg : alookup p.2 g with
      | some grp =>
        simp only [dvlookup, hg]
        rw [alookup_aupdate st ?_ v]
        · cases alookup grp v <;> simp
        · exact hD p (List.mem_cons_self _ _) (g, grp) (alookup_mem hg)
      | none => simp [dvlookup, hg]
    rw [ih _ (fun q hq => hD q (List.mem_cons_of_mem _ hq))]
    cases h : lastVal t g v with
    | some x => simp
    | none => simp only; exact step start

theorem nodup_inner_fold (D : DocSet) {start : Group} (g : String)
    (h : (start.map Prod.fst).Nodup) :
    (((D.foldl (fun acc p =>
      match alookup p.2 g with
      | some grp => aupdate acc grp
      | none => acc) start)).map Prod.fst).Nodup := by
  induction D generalizing start with
  | nil => simpa using h
  | cons p t ih =>
    simp only [List.foldl_cons]
    apply ih
    cases alookup p.2 g with
    | some grp => exact nodup_keys_aupdate grp h
    | none => exact h

/-- Mapping an alist value-wise preserves the key list. -/
theorem keys_map_entry {β : Type} (m : List (String × α)) (F : String × α → β) :
    (m.map (fun ge => (ge.1, F ge))).map Prod.fst = m.map Prod.fst := by
  induction m with
  | nil => rfl
  | cons e t ih => simp [ih]

/-- superset with its let-bindings unfolded. -/
theorem superset_eq (D : DocSet) :
    superset D = (D.foldl (fun acc p => aupdate acc p.2) []).map
      (fun ge => (ge.1, D.foldl (fun acc p =>
        match alookup p.2 ge.1 with
        | some grp => aupdate acc grp
        | none => acc) ge.2)) := rfl

/-- Keys of the superset: exactly the group names present in some document. -/
theorem superset_mem_keys {D : DocSet} {g : String} :
    g ∈ (superset D).map Prod.fst ↔ ∃ p ∈ D, g ∈ p.2.map Prod.fst := by
  rw [superset_eq, keys_map_entry]
  simpa using foldl_aupdate_mem_keys D [] g

theorem superset_alookup {D : DocSet}
    (hD : ∀ p ∈ D, ((p.2 : Document).map Prod.fst).Nodup) (g : String) :
    alookup (superset D) g = (lastGroup D g).map (fun start =>
      D.foldl (fun acc p =>
        match alookup p.2 g with
        | some grp => aupdate acc grp
        | none => acc) start) := by
  rw [superset_eq, alookup_map_entry]
  rw [foldl_aupdate_alookup ([] : Document) g hD]
  cases lastGroup D g <;> simp [alookup]

theorem superset_nodup_keys (D : DocSet) : ((superset D).map Prod.fst).Nodup := by
  rw [superset_eq, keys_map_entry]
  exact foldl_aupdate_nodup D (by simp)

theorem svlookup_eq_lastVal {D : DocSet} (hWF : DocSetWF D) (g v : String) :
    svlookup D g v = lastVal D g v := by
  have hD1 : ∀ p ∈ D, ((p.2 : Document).map Prod.fst).Nodup :=
    fun p hp => (hWF.2 p hp).1
  have hD2 : ∀ p ∈ D, ∀ e ∈ (p.2 : Document), ((e.2 : Group).map Prod.fst).Nodup :=
    fun p hp e he => (hWF.2 p hp).2 e he
  unfold svlookup
  rw [superset_alookup hD1 g]
  cases hlg : lastGroup D g with
  | none =>
    simp only [Option.map_none']
    cases hlv : lastVal D g v with
    | none => rfl
    | some x =>
      exfalso
      rcases lastVal_mem hlv with ⟨p, hp, hdv⟩
      have hg : (alookup p.2 g).isSome := by
        unfold dvlookup at hdv
        cases hh : alookup p.2 g with
        | none => rw [hh] at hdv; cases hdv
        | some grp => simp
      have := lastGroup_isSome_iff.mpr ⟨p, hp, hg⟩
      rw [hlg] at this
      cases this
  | some start =>
    simp only [Option.map_some']
    rw [superset_inner_alookup start g v hD2]
    cases hlv : lastVal D g v with
    | some x => rfl
    | none =>
      rcases lastGroup_mem hlg with ⟨p, hp, hpg⟩
      cases hsv : alookup start v with
      | none => rfl
      | some x =>
        exfalso
        have : (lastVal D g v).isSome := by
          apply lastVal_isSome_iff.mpr
          exact ⟨p, hp, by simp [dvlookup, hpg, hsv]⟩
        rw [hlv] at this
        cases this

theorem superset_DocWF {D : DocSet} (hWF : DocSetWF D) : DocWF (superset D) := by
  have hD1 : ∀ p ∈ D, ((p.2 : Document).map Prod.fst).Nodup :=
    fun p hp => (hWF.2 p hp).1
  refine ⟨superset_nodup_keys D, ?_⟩
  intro e he
  have h1 := alookup_fst_mem (superset_nodup_keys D) he
  rw [superset_alookup hD1 e.1] at h1
  cases hlg : lastGroup D e.1 with
  | none => rw [hlg] at h1; cases h1
  | some start =>
    rw [hlg] at h1
    simp only [Option.map_some', Option.some_inj] at h1
    rcases lastGroup_mem hlg with ⟨p, hp, hpg⟩
    have hstart : (start.map Prod.fst).Nodup :=
      (hWF.2 p hp).2 (e.1, start) (alookup_mem hpg)
    rw [← h1]
    exact nodup_inner_fold D e.1 hstart

theorem svlookup_isSome_iff {D : DocSet} (hWF : DocSetWF D) (g v : String) :
    (svlookup D g v).isSome = true ↔ ∃ p ∈ D, (dvlookup p.2 g v).isSome = true := by
  rw [svlookup_eq_lastVal hWF]
  exact lastVal_isSome_iff

/-- C2 helper: membership of v in the superset group for g is exactly
svlookup being defined. -/
theorem svlookup_via_keys {D : DocSet} {g v : String} {sgrp : Group}
    (h : alookup (superset D) g = some sgrp) :
    alookup sgrp v = svlookup D g v := by
  unfold svlookup
  rw [h]

/-! ## Claim C2: superset characterization -/

/-- C2: For every DocumentSet D, superset(D) contains exactly the group names
present in some document of D and, within each such group, exactly the
variable names present in that group in some document of D (no spurious
entries); the value attached to each (group, variable) is the value from the
last document, in DocumentSet order, that defines that variable.  (superset
never mutates its input: in this value-level embedding superset is a pure
function of D, so non-mutation holds by construction.) -/
theorem superset_exact (D : DocSet) (hWF : DocSetWF D) :
    (∀ g, g ∈ (superset D).map Prod.fst ↔ ∃ p ∈ D, g ∈ p.2.map Prod.fst)
    ∧ (∀ g v, (svlookup D g v).isSome = true ↔
        ∃ p ∈ D, (dvlookup p.2 g v).isSome = true)
    ∧ (∀ g v, svlookup D g v = lastVal D g v) := by
  refine ⟨fun g => superset_mem_keys, fun g v => svlookup_isSome_iff hWF g v,
    fun g v => svlookup_eq_lastVal hWF g v⟩

/-- Example DocumentSet from the spec (section 8). -/
def exampleAB : DocSet :=
  [("a.nml", [("grp", [("x", .vint 1), ("y", .vint 2)])]),
   ("b.nml", [("grp", [("x", .vint 1), ("y", .vint 3)])])]

/-- Witness for C2 at a concrete DocumentSet. -/
theorem superset_exact_witness :
    DocSetWF exampleAB
    ∧ svlookup exampleAB "grp" "y" = lastVal exampleAB "grp" "y"
    ∧ lastVal exampleAB "grp" "y" = some (.vint 3) := by
  refine ⟨by decide, (superset_exact exampleAB (by decide)).2.2 "grp" "y", by decide⟩

/-! ## Claim C9: the two formulations of the step 3(b) value test -/

theorem dvlookup_eq_getD (doc : Document) (g v : String) :
    dvlookup doc g v = alookup ((alookup doc g).getD ([] : Group)) v := by
  unfold dvlookup
  cases alookup doc g with
  | some grp => rfl
  | none => simp [alookup]

/-- Step 3(b) as the code tests it (nmltab.py lines 169-174): every
document's value for (g, v) equals the superset's representative value. -/
def step3bCode (D : DocSet) (g v : String) : Bool :=
  D.all (fun p => alookup ((alookup p.2 g).getD ([] : Group)) v == svlookup D g v)

/-- Step 3(b) reformulated: all documents' values for (g, v) are pairwise
equal. -/
def step3bPairwise (D : DocSet) (g v : String) : Bool :=
  D.all (fun p => D.all (fun q =>
    alookup ((alookup p.2 g).getD ([] : Group)) v ==
      alookup ((alookup q.2 g).getD ([] : Group)) v))

/-- C9: given that variable v is present in group g of every document, the
code's per-document comparison against the superset's last-wins value accepts
exactly the same DocumentSets as requiring all documents' values to be
pairwise equal. -/
theorem step3b_equiv (D : DocSet) (g v : String) (hWF : DocSetWF D)
    (hpres : ∀ p ∈ D, (dvlookup p.2 g v).isSome = true) :
    step3bCode D g v = true ↔ step3bPairwise D g v = true := by
  unfold step3bCode step3bPairwise
  simp only [List.all_eq_true, beq_iff_eq]
  simp only [← dvlookup_eq_getD]
  constructor
  · intro h p hp q hq
    rw [h p hp, h q hq]
  · intro h p hp
    rw [svlookup_eq_lastVal hWF]
    have h1 : (lastVal D g v).isSome = true :=
      lastVal_isSome_iff.mpr ⟨p, hp, hpres p hp⟩
    obtain ⟨x, hx⟩ := Option.isSome_iff_exists.mp h1
    rcases lastVal_mem hx with ⟨q, hq, hdq⟩
    rw [hx, ← hdq]
    exact h p hp q hq

/-- Witness for C9 at a concrete DocumentSet. -/
theorem step3b_equiv_witness :
    DocSetWF exampleAB
    ∧ (∀ p ∈ exampleAB, (dvlookup p.2 "grp" "x").isSome = true)
    ∧ (step3bCode exampleAB "grp" "x" = true ↔
        step3bPairwise exampleAB "grp" "x" = true)
    ∧ step3bCode exampleAB "grp" "x" = true
    ∧ step3bPairwise exampleAB "grp" "y" = false := by
  refine ⟨by decide, by decide,
    step3b_equiv exampleAB "grp" "x" (by decide) (by decide), by decide, by decide⟩

/-! ## Characterization of nmldiff -/

/-- Group g is present in every document (nmldiff's delete-candidate check). -/
def gPresentAll (D : DocSet) (g : String) : Bool :=
  D.all (fun p => amem p.2 g)

/-- Variable v is present in group g of every document. -/
def vPresentAll (D : DocSet) (g v : String) : Bool :=
  D.all (fun p => (alookup ((alookup p.2 g).getD []) v).isSome)

/-- Every document's value for (g, v) equals the superset group's value. -/
def vEqSup (D : DocSet) (supgrp : Group) (g v : String) : Bool :=
  D.all (fun p => alookup ((alookup p.2 g).getD []) v == alookup supgrp v)

/-- Variable v of delete-candidate group g is deleted by nmldiff's variable
phase: in the superset, present everywhere, equal everywhere, not the keep
token. -/
def candDel (keep : String) (D : DocSet) (supgrp : Group) (g v : String) : Bool :=
  (supgrp.map Prod.fst).contains v && vPresentAll D g v
    && vEqSup D supgrp g v && !(v == keep)

/-- The varkept flag at the end of nmldiff's variable phase. -/
def keptB (keep : String) (D : DocSet) (supgrp : Group) (g : String) : Bool :=
  (supgrp.map Prod.fst).contains keep && vPresentAll D g keep
    && vEqSup D supgrp g keep

/-- Delete from group g of every document all variables satisfying P. -/
def applyDel (D : DocSet) (g : String) (P : String → Bool) : DocSet :=
  D.map (fun p => (p.1, amodify p.2 g (fun grp => grp.filter (fun e => !(P e.1)))))

/-- The per-document condition of nmldiff's onlyvarkept loop: the group has
fewer than 2 variables, and if it has exactly one, it is the keep token. -/
def ovkDoc (keep : String) (grp : Group) : Bool :=
  decide (grp.length < 2) &&
    (!(grp.length == 1) ||
      (match grp with
       | e :: _ => e.1 == keep
       | [] => true))

/-- nmldiff's final decision to delete delete-candidate group g from every
document, evaluated after the variable phase. -/
def diffDelGroupB (keep : String) (D : DocSet) (g : String) (supgrp : Group) : Bool :=
  let A1 := applyDel D g (candDel keep D supgrp g)
  (keptB keep D supgrp g && A1.all (fun p => ovkDoc keep ((alookup p.2 g).getD [])))
    || A1.all (fun p => ((alookup p.2 g).getD []).length == 0)

theorem amodify_amodify (doc : List (String × α)) (k : String) (f h : α → α) :
    amodify (amodify doc k f) k h = amodify doc k (fun x => h (f x)) := by
  induction doc with
  | nil => simp [amodify]
  | cons e t ih =>
    obtain ⟨k1, v1⟩ := e
    by_cases h1 : k1 = k <;> simp [amodify, h1, ih]

theorem adel_amodify (doc : List (String × α)) (k : String) (f : α → α) :
    adel (amodify doc k f) k = adel doc k := by
  induction doc with
  | nil => simp [amodify, adel]
  | cons e t ih =>
    obtain ⟨k1, v1⟩ := e
    by_cases h1 : k1 = k <;> simp [amodify, adel, h1, ih]

theorem amodify_congr {doc : List (String × α)} {k : String} {f1 f2 : α → α}
    (h : ∀ x, alookup doc k = some x → f1 x = f2 x) :
    amodify doc k f1 = amodify doc k f2 := by
  induction doc with
  | nil => simp [amodify]
  | cons e t ih =>
    obtain ⟨k1, v1⟩ := e
    by_cases h1 : k1 = k
    · subst h1
      have := h v1 (by simp [alookup])
      simp [amodify, this]
    · simp only [amodify, h1, if_false, List.cons.injEq, true_and]
      exact ih (fun x hx => h x (by simpa [alookup, h1] using hx))

theorem amodify_id (doc : List (String × α)) (k : String) :
    amodify doc k (fun x => x) = doc := by
  induction doc with
  | nil => simp [amodify]
  | cons e t ih =>
    obtain ⟨k1, v1⟩ := e
    by_cases h1 : k1 = k <;> simp [amodify, h1, ih]

theorem applyDel_congr {D : DocSet} {g : String} {P1 P2 : String → Bool}
    (h : ∀ w, P1 w = P2 w) : applyDel D g P1 = applyDel D g P2 := by
  unfold applyDel
  apply List.map_congr_left
  intro p _
  congr 1
  apply amodify_congr
  intro grp _
  apply List.filter_congr
  intro e _
  rw [h e.1]

theorem applyDel_false (D : DocSet) (g : String) :
    applyDel D g (fun _ => false) = D := by
  unfold applyDel
  have : ∀ p : String × Document, (p.1, amodify p.2 g
      (fun grp => grp.filter (fun e => !(false : Bool)))) = p := by
    intro p
    have : ∀ grp : Group, grp.filter (fun e => !(false : Bool)) = grp := by
      intro grp
      apply List.filter_eq_self.mpr
      intro a _
      rfl
    calc (p.1, amodify p.2 g (fun grp => grp.filter (fun e => !(false : Bool))))
        = (p.1, amodify p.2 g (fun grp => grp)) := by
          congr 1
          exact amodify_congr (fun x _ => this x)
      _ = p := by rw [amodify_id]
  rw [List.map_congr_left (fun p _ => this p)]
  simp

theorem keys_applyDel (D : DocSet) (g : String) (P : String → Bool) :
    (applyDel D g P).map Prod.fst = D.map Prod.fst := by
  unfold applyDel
  rw [List.map_map]
  rfl

/-- The g-entry of a document after applyDel. -/
theorem alookup_applyDel_doc (doc : Document) (g : String) (P : String → Bool) :
    alookup (amodify doc g (fun grp => grp.filter (fun e => !(P e.1)))) g =
      (alookup doc g).map (fun grp => grp.filter (fun e => !(P e.1))) :=
  alookup_amodify_self doc g _

theorem foldl_and_all {β : Type} (f : β → Bool) (l : List β) (b : Bool) :
    l.foldl (fun acc x => acc && f x) b = (b && l.all f) := by
  induction l generalizing b with
  | nil => simp
  | cons x t ih =>
    simp only [List.foldl_cons, List.all_cons]
    rw [ih (b && f x), Bool.and_assoc]

theorem foldl_max_eq_zero_iff (l : List Nat) (a : Nat) :
    l.foldl Nat.max a = 0 ↔ a = 0 ∧ ∀ x ∈ l, x = 0 := by
  induction l generalizing a with
  | nil => simp
  | cons x t ih =>
    simp only [List.foldl_cons, ih, List.mem_cons]
    constructor
    · rintro ⟨h1, h2⟩
      rcases Nat.max_eq_zero_iff.mp h1 with ⟨ha, hx⟩
      refine ⟨ha, ?_⟩
      intro y hy
      rcases hy with hy | hy
      · exact hy ▸ hx
      · exact h2 y hy
    · rintro ⟨ha, h2⟩
      exact ⟨Nat.max_eq_zero_iff.mpr ⟨ha, h2 x (Or.inl rfl)⟩, fun y hy => h2 y (Or.inr hy)⟩

theorem all_congr {β : Type} {l : List β} {f h : β → Bool}
    (hfh : ∀ x ∈ l, f x = h x) : l.all f = l.all h := by
  induction l with
  | nil => rfl
  | cons x t ih =>
    simp only [List.all_cons]
    rw [hfh x (List.mem_cons_self _ _), ih (fun y hy => hfh y (List.mem_cons_of_mem _ hy))]

theorem state_gview (doc : Document) (g : String) (P : String → Bool) :
    ((alookup (amodify doc g (fun grp => grp.filter (fun e => !(P e.1)))) g).getD []) =
      ((alookup doc g).getD []).filter (fun e => !(P e.1)) := by
  rw [alookup_amodify_self]
  cases alookup doc g <;> simp

theorem applyDel_vPresent {D : DocSet} {g : String} {P : String → Bool} {v : String}
    (hPv : P v = false) :
    (applyDel D g P).all (fun p => (alookup ((alookup p.2 g).getD []) v).isSome) =
      vPresentAll D g v := by
  unfold applyDel vPresentAll
  rw [List.all_map]
  apply all_congr
  intro p _
  show (alookup ((alookup (amodify p.2 g _) g).getD []) v).isSome = _
  rw [state_gview, alookup_filter _ (fun w => !(P w)) v]
  simp [hPv]

theorem applyDel_vEqSup {D : DocSet} {g : String} {P : String → Bool}
    {supgrp : Group} {v : String} (hPv : P v = false) :
    (applyDel D g P).all (fun p =>
        alookup ((alookup p.2 g).getD []) v == alookup supgrp v) =
      vEqSup D supgrp g v := by
  unfold applyDel vEqSup
  rw [List.all_map]
  apply all_congr
  intro p _
  show (alookup ((alookup (amodify p.2 g _) g).getD []) v == alookup supgrp v) = _
  rw [state_gview, alookup_filter _ (fun w => !(P w)) v]
  simp [hPv]

theorem delvar_applyDel {D : DocSet} {g : String}
    (hD : ∀ p ∈ D, (((alookup p.2 g).getD ([] : Group)).map Prod.fst).Nodup)
    (P : String → Bool) (v : String) :
    delvarFromAll (applyDel D g P) g v =
      applyDel D g (fun w => P w || (w == v)) := by
  unfold delvarFromAll applyDel
  rw [List.map_map]
  apply List.map_congr_left
  intro p hp
  show (p.1, amodify (amodify p.2 g _) g _) = _
  rw [amodify_amodify]
  congr 1
  apply amodify_congr
  intro grp hgrp
  have hnd : (grp.map Prod.fst).Nodup := by
    have h1 := hD p hp
    rw [hgrp] at h1
    simpa using h1
  have hnd2 : (((grp.filter (fun e => !(P e.1))).map Prod.fst)).Nodup :=
    ((List.filter_sublist grp).map Prod.fst).nodup hnd
  rw [adel_eq_filter hnd2, List.filter_filter]
  apply List.filter_congr
  intro e _
  cases hP : P e.1 <;> cases hv : (e.1 == v) <;> simp [hP, hv]

theorem varPhase_aux (keep g : String) (supgrp : Group) (D : DocSet)
    (hD : ∀ p ∈ D, (((alookup p.2 g).getD ([] : Group)).map Prod.fst).Nodup) :
    ∀ (vs : List String) (P : String → Bool) (b : Bool),
      vs.Nodup →
      (∀ v ∈ vs, (supgrp.map Prod.fst).contains v = true) →
      (∀ v ∈ vs, P v = false) →
      vs.foldl (diffVarStep keep g supgrp) (applyDel D g P, b) =
        (applyDel D g (fun w => P w || (vs.contains w && candDel keep D supgrp g w)),
         b || (vs.contains keep && vPresentAll D g keep && vEqSup D supgrp g keep)) := by
  intro vs
  induction vs with
  | nil =>
    intro P b _ _ _
    simp only [List.foldl_nil]
    rw [Prod.mk.injEq]
    constructor
    · apply applyDel_congr
      intro w
      simp
    · simp
  | cons v rest ih =>
    intro P b hnd hmem hP
    have hPv : P v = false := hP v (List.mem_cons_self _ _)
    have hvrest : ¬ v ∈ rest := (List.nodup_cons.mp hnd).1
    have hndr : rest.Nodup := (List.nodup_cons.mp hnd).2
    have hmemv : (supgrp.map Prod.fst).contains v = true :=
      hmem v (List.mem_cons_self _ _)
    have hmemr : ∀ w ∈ rest, (supgrp.map Prod.fst).contains w = true :=
      fun w hw => hmem w (List.mem_cons_of_mem _ hw)
    have hPr : ∀ w ∈ rest, P w = false :=
      fun w hw => hP w (List.mem_cons_of_mem _ hw)
    simp only [List.foldl_cons]
    have hstep : diffVarStep keep g supgrp (applyDel D g P, b) v =
        if vPresentAll D g v then
          if vEqSup D supgrp g v then
            if v == keep then (applyDel D g P, true)
            else (applyDel D g (fun w => P w || (w == v)), b)
          else (applyDel D g P, b)
        else (applyDel D g P, b) := by
      unfold diffVarStep
      simp only
      rw [applyDel_vPresent hPv, applyDel_vEqSup hPv]
      by_cases h1 : vPresentAll D g v = true
      · simp only [h1, if_true]
        by_cases h2 : vEqSup D supgrp g v = true
        · simp only [h2, if_true]
          by_cases h3 : (v == keep) = true
          · simp [h3]
          · have h3' : (v == keep) = false := Bool.eq_false_iff.mpr h3
            simp [h3', delvar_applyDel hD P v]
        · have h2' : vEqSup D supgrp g v = false :=
            Bool.eq_false_iff.mpr h2
          simp [h2']
      · have h1' : vPresentAll D g v = false := Bool.eq_false_iff.mpr h1
        simp [h1']
    by_cases h1 : vPresentAll D g v = true
    · by_cases h2 : vEqSup D supgrp g v = true
      · by_cases h3 : (v == keep) = true
        · -- the keep variable: state unchanged, varkept set
          have hvk : v = keep := eq_of_beq h3
          have hstep2 : diffVarStep keep g supgrp (applyDel D g P, b) v =
              (applyDel D g P, true) := by
            rw [hstep]
            simp [h1, h2, h3]
          rw [hstep2, ih P true hndr hmemr hPr, Prod.mk.injEq]
          constructor
          · apply applyDel_congr
            intro w
            by_cases hw : w = v
            · subst hw
              have hc : candDel keep D supgrp g w = false := by
                unfold candDel
                rw [h3]
                simp
              simp [hc]
            · simp [List.contains_cons, hw, beq_iff_eq]
          · rw [← hvk, h1, h2]
            have hck : ((v :: rest).contains v) = true := by
              simp [List.contains_cons]
            rw [hck]
            simp
        · -- a deleted common variable
          have h3' : (v == keep) = false := Bool.eq_false_iff.mpr h3
          have hvC : candDel keep D supgrp g v = true := by
            unfold candDel
            rw [hmemv, h1, h2, h3']
            rfl
          have hstep2 : diffVarStep keep g supgrp (applyDel D g P, b) v =
              (applyDel D g (fun w => P w || (w == v)), b) := by
            rw [hstep]
            simp [h1, h2, h3']
          have hPr' : ∀ w ∈ rest, (P w || (w == v)) = false := by
            intro w hw
            have hwv : (w == v) = false := by
              have hne : ¬ w = v := fun hc => hvrest (hc ▸ hw)
              simpa using hne
            simp [hPr w hw, hwv]
          rw [hstep2, ih (fun w => P w || (w == v)) b hndr hmemr hPr', Prod.mk.injEq]
          constructor
          · apply applyDel_congr
            intro w
            by_cases hw : w = v
            · subst hw
              simp [List.contains_cons, hvC]
            · have hwv : (w == v) = false := by simpa using hw
              simp [List.contains_cons, hw, hwv]
          · have hvk : ¬ keep = v := by
              intro hc
              rw [hc] at h3
              simp at h3
            simp [List.contains_cons, hvk]
      · -- values differ somewhere: no-op
        have h2' : vEqSup D supgrp g v = false := Bool.eq_false_iff.mpr h2
        have hstep2 : diffVarStep keep g supgrp (applyDel D g P, b) v =
            (applyDel D g P, b) := by
          rw [hstep]
          simp [h1, h2']
        rw [hstep2, ih P b hndr hmemr hPr, Prod.mk.injEq]
        constructor
        · apply applyDel_congr
          intro w
          by_cases hw : w = v
          · subst hw
            have hc : candDel keep D supgrp g w = false := by
              unfold candDel
              rw [h2']
              simp
            simp [hc]
          · simp [List.contains_cons, hw, beq_iff_eq]
        · by_cases hk : keep = v
          · rw [← hk] at h2'
            rw [h2']
            simp
          · simp [List.contains_cons, hk]
    · -- variable missing somewhere: no-op
      have h1' : vPresentAll D g v = false := Bool.eq_false_iff.mpr h1
      have hstep2 : diffVarStep keep g supgrp (applyDel D g P, b) v =
          (applyDel D g P, b) := by
        rw [hstep]
        simp [h1']
      rw [hstep2, ih P b hndr hmemr hPr, Prod.mk.injEq]
      constructor
      · apply applyDel_congr
        intro w
        by_cases hw : w = v
        · subst hw
          have hc : candDel keep D supgrp g w = false := by
            unfold candDel
            rw [h1']
            simp
          simp [hc]
        · simp [List.contains_cons, hw, beq_iff_eq]
      · by_cases hk : keep = v
        · rw [← hk] at h1'
          rw [h1']
          simp
        · simp [List.contains_cons, hk]

theorem contains_of_mem {l : List String} {a : String} (h : a ∈ l) :
    l.contains a = true := by
  simpa using h

theorem varPhase (keep g : String) (supgrp : Group) (D : DocSet)
    (hsup : (supgrp.map Prod.fst).Nodup)
    (hD : ∀ p ∈ D, (((alookup p.2 g).getD ([] : Group)).map Prod.fst).Nodup) :
    (supgrp.map Prod.fst).foldl (diffVarStep keep g supgrp) (D, false) =
      (applyDel D g (candDel keep D supgrp g), keptB keep D supgrp g) := by
  have h0 := varPhase_aux keep g supgrp D hD (supgrp.map Prod.fst)
    (fun _ => false) false hsup (fun v hv => contains_of_mem hv) (fun v _ => rfl)
  rw [applyDel_false] at h0
  rw [h0, Prod.mk.injEq]
  constructor
  · apply applyDel_congr
    intro w
    cases hc : (supgrp.map Prod.fst).contains w
    · have : candDel keep D supgrp g w = false := by
        unfold candDel
        rw [hc]
        simp
      simp [this]
    · simp [hc]
  · unfold keptB
    cases hc : (supgrp.map Prod.fst).contains keep <;> simp [hc]

theorem ovk_step (keep : String) (grp : Group) (b : Bool) :
    (if (b && decide (grp.length < 2)) && grp.length == 1 then
       match grp with
       | e :: _ => e.1 == keep
       | [] => b && decide (grp.length < 2)
     else b && decide (grp.length < 2)) = (b && ovkDoc keep grp) := by
  cases b
  · simp
  · cases grp with
    | nil => simp [ovkDoc]
    | cons e t =>
      cases t with
      | nil => simp [ovkDoc]
      | cons e2 t2 => simp [ovkDoc]

theorem foldmax_beq_zero (l : List Nat) :
    ((l.foldl Nat.max 0) == 0) = l.all (fun x => x == 0) := by
  rw [Bool.eq_iff_iff]
  simp only [beq_iff_eq, List.all_eq_true]
  rw [foldl_max_eq_zero_iff]
  simp

theorem ovk_fold (keep g : String) (A : DocSet) :
    A.foldl (fun ovk p =>
      let grp := (alookup p.2 g).getD []
      let ovk2 := ovk && decide (grp.length < 2)
      if ovk2 && grp.length == 1 then
        match grp with
        | e :: _ => e.1 == keep
        | [] => ovk2
      else ovk2) true =
      A.all (fun p => ovkDoc keep ((alookup p.2 g).getD [])) := by
  have hext : A.foldl (fun ovk p =>
      let grp := (alookup p.2 g).getD []
      let ovk2 := ovk && decide (grp.length < 2)
      if ovk2 && grp.length == 1 then
        match grp with
        | e :: _ => e.1 == keep
        | [] => ovk2
      else ovk2) true =
      A.foldl (fun ovk p => ovk && ovkDoc keep ((alookup p.2 g).getD [])) true := by
    apply List.foldl_ext
    intro b p _
    exact ovk_step keep ((alookup p.2 g).getD []) b
  rw [hext, foldl_and_all]
  simp

theorem vPresentAll_map {D : DocSet} {f : Document → Document} {g : String}
    (hf : ∀ p ∈ D, alookup (f p.2) g = alookup p.2 g) (w : String) :
    vPresentAll (D.map (fun p => (p.1, f p.2))) g w = vPresentAll D g w := by
  unfold vPresentAll
  rw [List.all_map]
  apply all_congr
  intro p hp
  show (alookup ((alookup (f p.2) g).getD []) w).isSome = _
  rw [hf p hp]

theorem vEqSup_map {D : DocSet} {f : Document → Document} {g : String}
    {supgrp : Group} (hf : ∀ p ∈ D, alookup (f p.2) g = alookup p.2 g)
    (w : String) :
    vEqSup (D.map (fun p => (p.1, f p.2))) supgrp g w = vEqSup D supgrp g w := by
  unfold vEqSup
  rw [List.all_map]
  apply all_congr
  intro p hp
  show (alookup ((alookup (f p.2) g).getD []) w == alookup supgrp w) = _
  rw [hf p hp]

theorem candDel_map {D : DocSet} {f : Document → Document} {g keep : String}
    {supgrp : Group} (hf : ∀ p ∈ D, alookup (f p.2) g = alookup p.2 g)
    (w : String) :
    candDel keep (D.map (fun p => (p.1, f p.2))) supgrp g w =
      candDel keep D supgrp g w := by
  unfold candDel
  rw [vPresentAll_map hf, vEqSup_map hf]

theorem keptB_map {D : DocSet} {f : Document → Document} {g keep : String}
    {supgrp : Group} (hf : ∀ p ∈ D, alookup (f p.2) g = alookup p.2 g) :
    keptB keep (D.map (fun p => (p.1, f p.2))) supgrp g = keptB keep D supgrp g := by
  unfold keptB
  rw [vPresentAll_map hf, vEqSup_map hf]

theorem applyDel_all_gview {D : DocSet} {f : Document → Document} {g : String}
    (hf : ∀ p ∈ D, alookup (f p.2) g = alookup p.2 g) (P : String → Bool)
    (q : Group → Bool) :
    (applyDel (D.map (fun p => (p.1, f p.2))) g P).all
        (fun p => q ((alookup p.2 g).getD [])) =
      (applyDel D g P).all (fun p => q ((alookup p.2 g).getD [])) := by
  unfold applyDel
  rw [List.map_map, List.all_map, List.all_map]
  apply all_congr
  intro p hp
  show q ((alookup (amodify (f p.2) g _) g).getD []) =
    q ((alookup (amodify p.2 g _) g).getD [])
  rw [state_gview, state_gview, hf p hp]

theorem if_ovk_shape (vk a z : Bool) :
    (if (if vk then a else false) then true else z) = ((vk && a) || z) := by
  cases vk <;> cases a <;> cases z <;> rfl

theorem diffGroup_eq_raw (keep : String) (st : DocSet) (g : String) (supgrp : Group) :
    diffGroup keep st (g, supgrp) =
      if st.all (fun p => amem p.2 g) then
        if (if (if ((supgrp.map Prod.fst).foldl (diffVarStep keep g supgrp) (st, false)).2 then
                  ((supgrp.map Prod.fst).foldl (diffVarStep keep g supgrp) (st, false)).1.foldl
                    (fun ovk p =>
                      let grp := (alookup p.2 g).getD []
                      let ovk2 := ovk && decide (grp.length < 2)
                      if ovk2 && grp.length == 1 then
                        match grp with
                        | e :: _ => e.1 == keep
                        | [] => ovk2
                      else ovk2) true
                else false) then true
            else ((((supgrp.map Prod.fst).foldl (diffVarStep keep g supgrp) (st, false)).1.map
                (fun p => ((alookup p.2 g).getD []).length)).foldl Nat.max 0 == 0)) then
          delgroupFromAll ((supgrp.map Prod.fst).foldl (diffVarStep keep g supgrp) (st, false)).1 g
        else ((supgrp.map Prod.fst).foldl (diffVarStep keep g supgrp) (st, false)).1
      else st := rfl

theorem all_map' {β γ : Type} (l : List β) (f : β → γ) (p : γ → Bool) :
    (l.map f).all p = l.all (fun x => p (f x)) := by
  induction l with
  | nil => rfl
  | cons x t ih => simp [ih]

theorem diffGroup_char (keep g : String) (supgrp : Group) (D : DocSet)
    (f : Document → Document)
    (hf : ∀ p ∈ D, alookup (f p.2) g = alookup p.2 g)
    (hsup : (supgrp.map Prod.fst).Nodup)
    (hD : ∀ p ∈ D, (((alookup p.2 g).getD ([] : Group)).map Prod.fst).Nodup) :
    diffGroup keep (D.map (fun p => (p.1, f p.2))) (g, supgrp) =
      if gPresentAll D g then
        if diffDelGroupB keep D g supgrp then
          D.map (fun p => (p.1, adel (f p.2) g))
        else
          D.map (fun p => (p.1, amodify (f p.2) g
            (fun grp => grp.filter (fun e => !(candDel keep D supgrp g e.1)))))
      else D.map (fun p => (p.1, f p.2)) := by
  have hDA : ∀ p ∈ D.map (fun p => (p.1, f p.2)),
      (((alookup p.2 g).getD ([] : Group)).map Prod.fst).Nodup := by
    intro p hp
    rcases List.mem_map.mp hp with ⟨q, hq, rfl⟩
    show (((alookup (f q.2) g).getD []).map Prod.fst).Nodup
    rw [hf q hq]
    exact hD q hq
  have hApres : (D.map (fun p => (p.1, f p.2))).all (fun p => amem p.2 g) =
      gPresentAll D g := by
    rw [List.all_map]
    unfold gPresentAll
    apply all_congr
    intro p hp
    show amem (f p.2) g = amem p.2 g
    unfold amem
    rw [hf p hp]
  rw [diffGroup_eq_raw]
  rw [varPhase keep g supgrp _ hsup hDA]
  rw [hApres]
  simp only [ovk_fold]
  rw [keptB_map hf]
  have hA1 : applyDel (D.map (fun p => (p.1, f p.2))) g
      (candDel keep (D.map (fun p => (p.1, f p.2))) supgrp g) =
      applyDel (D.map (fun p => (p.1, f p.2))) g (candDel keep D supgrp g) :=
    applyDel_congr (candDel_map hf)
  rw [hA1]
  rw [if_ovk_shape]
  have hovk : (applyDel (D.map (fun p => (p.1, f p.2))) g
        (candDel keep D supgrp g)).all
        (fun p => ovkDoc keep ((alookup p.2 g).getD [])) =
      (applyDel D g (candDel keep D supgrp g)).all
        (fun p => ovkDoc keep ((alookup p.2 g).getD [])) :=
    applyDel_all_gview hf _ _
  have hmaxz : (((applyDel (D.map (fun p => (p.1, f p.2))) g
        (candDel keep D supgrp g)).map
        (fun p => ((alookup p.2 g).getD []).length)).foldl Nat.max 0 == 0) =
      ((applyDel D g (candDel keep D supgrp g)).all
        (fun p => ((alookup p.2 g).getD []).length == 0)) := by
    rw [foldmax_beq_zero]
    rw [all_map']
    have := applyDel_all_gview hf (candDel keep D supgrp g)
      (fun grp => grp.length == 0)
    simpa using this
  rw [hmaxz]
  have hcondB : ((keptB keep D supgrp g &&
      (applyDel (D.map (fun p => (p.1, f p.2))) g
        (candDel keep D supgrp g)).all
        (fun p => ovkDoc keep ((alookup p.2 g).getD []))) ||
      (applyDel D g (candDel keep D supgrp g)).all
        (fun p => ((alookup p.2 g).getD []).length == 0)) =
      diffDelGroupB keep D g supgrp := by
    rw [hovk]
    rfl
  rw [hcondB]
  have hdel : delgroupFromAll (applyDel (D.map (fun p => (p.1, f p.2))) g
      (candDel keep D supgrp g)) g = D.map (fun p => (p.1, adel (f p.2) g)) := by
    unfold delgroupFromAll applyDel
    rw [List.map_map, List.map_map]
    apply List.map_congr_left
    intro p _
    show (p.1, adel (amodify (f p.2) g _) g) = (p.1, adel (f p.2) g)
    rw [adel_amodify]
  rw [hdel]
  have hkeepb : applyDel (D.map (fun p => (p.1, f p.2))) g
      (candDel keep D supgrp g) =
      D.map (fun p => (p.1, amodify (f p.2) g
        (fun grp => grp.filter (fun e => !(candDel keep D supgrp g e.1))))) := by
    unfold applyDel
    rw [List.map_map]
    rfl
  rw [hkeepb]

/-- The action nmldiff performs on one document for one superset entry,
with all decisions evaluated against the original DocumentSet D. -/
def diffActStep (keep : String) (D : DocSet) (ge : String × Group)
    (doc : Document) : Document :=
  if gPresentAll D ge.1 then
    if diffDelGroupB keep D ge.1 ge.2 then adel doc ge.1
    else amodify doc ge.1
      (fun grp => grp.filter (fun e => !(candDel keep D ge.2 ge.1 e.1)))
  else doc

/-- The document produced by nmldiff for an input document of D. -/
def diffOutDoc (keep : String) (D : DocSet) (doc : Document) : Document :=
  (superset D).foldl (fun d ge => diffActStep keep D ge d) doc

theorem diffActStep_lookup_ne (keep : String) (D : DocSet) (ge : String × Group)
    (doc : Document) {g : String} (h : g ≠ ge.1) :
    alookup (diffActStep keep D ge doc) g = alookup doc g := by
  unfold diffActStep
  by_cases h1 : gPresentAll D ge.1 = true
  · simp only [h1, if_true]
    by_cases h2 : diffDelGroupB keep D ge.1 ge.2 = true
    · simp only [h2, if_true]
      exact alookup_adel_ne doc h
    · have h2' : diffDelGroupB keep D ge.1 ge.2 = false := Bool.eq_false_iff.mpr h2
      simp only [h2', Bool.false_eq_true, if_false]
      exact alookup_amodify_ne doc _ h
  · have h1' : gPresentAll D ge.1 = false := Bool.eq_false_iff.mpr h1
    simp [h1']

theorem diffActStep_keys_nodup (keep : String) (D : DocSet) (ge : String × Group)
    {doc : Document} (h : (doc.map Prod.fst).Nodup) :
    ((diffActStep keep D ge doc).map Prod.fst).Nodup := by
  unfold diffActStep
  by_cases h1 : gPresentAll D ge.1 = true
  · simp only [h1, if_true]
    by_cases h2 : diffDelGroupB keep D ge.1 ge.2 = true
    · simp only [h2, if_true]
      exact nodup_keys_adel ge.1 h
    · have h2' : diffDelGroupB keep D ge.1 ge.2 = false := Bool.eq_false_iff.mpr h2
      simp only [h2', Bool.false_eq_true, if_false]
      rw [keys_amodify]
      exact h
  · have h1' : gPresentAll D ge.1 = false := Bool.eq_false_iff.mpr h1
    simp [h1', h]

theorem docWF_gview {doc : Document} (h : DocWF doc) (g : String) :
    (((alookup doc g).getD ([] : Group)).map Prod.fst).Nodup := by
  cases hg : alookup doc g with
  | none => simp
  | some grp =>
    simp only [Option.getD_some]
    exact h.2 (g, grp) (alookup_mem hg)

theorem diffFold_char (keep : String) (D : DocSet) (hDWF : ∀ p ∈ D, DocWF p.2) :
    ∀ (es : List (String × Group)) (f : Document → Document),
      (es.map Prod.fst).Nodup →
      (∀ ge ∈ es, ((ge.2 : Group).map Prod.fst).Nodup) →
      (∀ p ∈ D, ∀ g' ∈ es.map Prod.fst, alookup (f p.2) g' = alookup p.2 g') →
      es.foldl (diffGroup keep) (D.map (fun p => (p.1, f p.2))) =
        D.map (fun p => (p.1, es.foldl (fun doc ge => diffActStep keep D ge doc) (f p.2))) := by
  intro es
  induction es with
  | nil =>
    intro f _ _ _
    simp
  | cons ge rest ih =>
    intro f hnd hgw hpres
    have hndr : (rest.map Prod.fst).Nodup := (List.nodup_cons.mp (by simpa using hnd)).2
    have hge1 : ¬ ge.1 ∈ rest.map Prod.fst := (List.nodup_cons.mp (by simpa using hnd)).1
    have hf1 : ∀ p ∈ D, alookup (f p.2) ge.1 = alookup p.2 ge.1 :=
      fun p hp => hpres p hp ge.1 (by simp)
    have hD1 : ∀ p ∈ D, (((alookup p.2 ge.1).getD ([] : Group)).map Prod.fst).Nodup :=
      fun p hp => docWF_gview (hDWF p hp) ge.1
    simp only [List.foldl_cons]
    have hchar : diffGroup keep (D.map (fun p => (p.1, f p.2))) ge =
        D.map (fun p => (p.1, diffActStep keep D ge (f p.2))) := by
      have h0 := diffGroup_char keep ge.1 ge.2 D f hf1
        (hgw ge (List.mem_cons_self _ _)) hD1
      have hge : ge = (ge.1, ge.2) := rfl
      rw [← hge] at h0
      rw [h0]
      unfold diffActStep
      by_cases h1 : gPresentAll D ge.1 = true
      · simp only [h1, if_true]
        by_cases h2 : diffDelGroupB keep D ge.1 ge.2 = true
        · simp [h2]
        · have h2' : diffDelGroupB keep D ge.1 ge.2 = false := Bool.eq_false_iff.mpr h2
          simp [h2']
      · have h1' : gPresentAll D ge.1 = false := Bool.eq_false_iff.mpr h1
        simp [h1']
    rw [hchar]
    have hpres' : ∀ p ∈ D, ∀ g' ∈ rest.map Prod.fst,
        alookup (diffActStep keep D ge (f p.2)) g' = alookup p.2 g' := by
      intro p hp g' hg'
      have hne : g' ≠ ge.1 := fun hc => hge1 (hc ▸ hg')
      rw [diffActStep_lookup_ne keep D ge (f p.2) hne]
      exact hpres p hp g' (List.mem_cons_of_mem _ hg')
    exact ih (fun doc => diffActStep keep D ge (f doc)) hndr
      (fun q hq => hgw q (List.mem_cons_of_mem _ hq)) hpres'

/-- nmldiff acts uniformly on the documents of a well-formed DocumentSet:
source names and order are preserved, and each output document is
diffOutDoc of the input document. -/
theorem nmldiff_eq_map (keep : String) (D : DocSet) (hWF : DocSetWF D) :
    nmldiff D keep = D.map (fun p => (p.1, diffOutDoc keep D p.2)) := by
  unfold nmldiff diffOutDoc
  have hstart : D = D.map (fun p => (p.1, id p.2)) := by simp
  calc (superset D).foldl (diffGroup keep) D
      = (superset D).foldl (diffGroup keep) (D.map (fun p => (p.1, id p.2))) := by
        rw [← hstart]
    _ = D.map (fun p => (p.1,
          (superset D).foldl (fun doc ge => diffActStep keep D ge doc) (id p.2))) := by
        apply diffFold_char keep D (fun p hp => (hWF.2 p hp))
        · exact superset_nodup_keys D
        · intro ge hge
          exact (superset_DocWF hWF).2 ge hge
        · intro p _ g' _
          rfl
    _ = D.map (fun p => (p.1,
          (superset D).foldl (fun doc ge => diffActStep keep D ge doc) p.2)) := rfl

theorem diffChain_lookup (keep : String) (D : DocSet) :
    ∀ (es : List (String × Group)) (doc : Document) (g : String),
      (es.map Prod.fst).Nodup → (doc.map Prod.fst).Nodup →
      alookup (es.foldl (fun d ge => diffActStep keep D ge d) doc) g =
        (match alookup es g with
         | none => alookup doc g
         | some supgrp =>
           if gPresentAll D g then
             if diffDelGroupB keep D g supgrp then none
             else (alookup doc g).map
               (fun grp => grp.filter (fun e => !(candDel keep D supgrp g e.1)))
           else alookup doc g) := by
  intro es
  induction es with
  | nil =>
    intro doc g _ _
    simp [alookup]
  | cons ge rest ih =>
    intro doc g hnd hdoc
    have hndr : (rest.map Prod.fst).Nodup := (List.nodup_cons.mp (by simpa using hnd)).2
    have hge1 : ¬ ge.1 ∈ rest.map Prod.fst := (List.nodup_cons.mp (by simpa using hnd)).1
    have hdoc' : ((diffActStep keep D ge doc).map Prod.fst).Nodup :=
      diffActStep_keys_nodup keep D ge hdoc
    simp only [List.foldl_cons]
    rw [ih (diffActStep keep D ge doc) g hndr hdoc']
    by_cases hg : ge.1 = g
    · subst hg
      have hrest : alookup rest ge.1 = none :=
        alookup_eq_none_iff_not_mem_keys.mpr hge1
      have hcons : alookup (ge :: rest) ge.1 = some ge.2 := by
        have : ge = (ge.1, ge.2) := rfl
        rw [this]
        simp [alookup]
      rw [hrest, hcons]
      simp only
      unfold diffActStep
      by_cases h1 : gPresentAll D ge.1 = true
      · simp only [h1, if_true]
        by_cases h2 : diffDelGroupB keep D ge.1 ge.2 = true
        · simp only [h2, if_true]
          exact alookup_adel_self hdoc
        · have h2' : diffDelGroupB keep D ge.1 ge.2 = false := Bool.eq_false_iff.mpr h2
          simp only [h2', Bool.false_eq_true, if_false]
          exact alookup_amodify_self doc ge.1 _
      · have h1' : gPresentAll D ge.1 = false := Bool.eq_false_iff.mpr h1
        simp [h1']
    · have hcons : alookup (ge :: rest) g = alookup rest g := by
        have : ge = (ge.1, ge.2) := rfl
        rw [this]
        simp [alookup, hg]
      rw [hcons, diffActStep_lookup_ne keep D ge doc (Ne.symm hg)]

/-- Lookup characterization of a document produced by nmldiff. -/
theorem diffOutDoc_lookup (keep : String) (D : DocSet) (hWF : DocSetWF D)
    {doc : Document} (hdoc : (doc.map Prod.fst).Nodup) (g : String) :
    alookup (diffOutDoc keep D doc) g =
      (match alookup (superset D) g with
       | none => alookup doc g
       | some supgrp =>
         if gPresentAll D g then
           if diffDelGroupB keep D g supgrp then none
           else (alookup doc g).map
             (fun grp => grp.filter (fun e => !(candDel keep D supgrp g e.1)))
         else alookup doc g) := by
  unfold diffOutDoc
  exact diffChain_lookup keep D (superset D) doc g (superset_nodup_keys D) hdoc

theorem gPresentAll_iff {D : DocSet} {g : String} :
    gPresentAll D g = true ↔ ∀ p ∈ D, (alookup p.2 g).isSome = true := by
  unfold gPresentAll amem
  rw [List.all_eq_true]

theorem gPresentAll_false {D : DocSet} {g : String}
    (h : gPresentAll D g = false) : ∃ p ∈ D, alookup p.2 g = none := by
  by_contra hc
  push_neg at hc
  have : gPresentAll D g = true := by
    rw [gPresentAll_iff]
    intro p hp
    cases hl : alookup p.2 g with
    | none => exact absurd hl (hc p hp)
    | some grp => simp
  rw [h] at this
  cases this

theorem vPresentAll_iff {D : DocSet} {g v : String} :
    vPresentAll D g v = true ↔ ∀ p ∈ D, (dvlookup p.2 g v).isSome = true := by
  unfold vPresentAll
  rw [List.all_eq_true]
  constructor
  · intro h p hp
    rw [dvlookup_eq_getD]
    exact h p hp
  · intro h p hp
    rw [← dvlookup_eq_getD]
    exact h p hp

theorem vEqSup_iff {D : DocSet} {supgrp : Group} {g v : String} :
    vEqSup D supgrp g v = true ↔ ∀ p ∈ D, dvlookup p.2 g v = alookup supgrp v := by
  unfold vEqSup
  rw [List.all_eq_true]
  constructor
  · intro h p hp
    rw [dvlookup_eq_getD]
    exact eq_of_beq (h p hp)
  · intro h p hp
    have := h p hp
    rw [dvlookup_eq_getD] at this
    rw [this]
    exact beq_self_eq_true _

/-- The superset group's value is the last-wins value. -/
theorem supgrp_val {D : DocSet} (hWF : DocSetWF D) {g : String} {supgrp : Group}
    (hsup : alookup (superset D) g = some supgrp) (v : String) :
    alookup supgrp v = lastVal D g v := by
  rw [svlookup_via_keys hsup]
  exact svlookup_eq_lastVal hWF g v

theorem lastVal_of_all_eq {D : DocSet} {g v : String} {x : NmlValue}
    (hall : ∀ p ∈ D, dvlookup p.2 g v = some x) (hD0 : D ≠ []) :
    lastVal D g v = some x := by
  obtain ⟨p0, t, rfl⟩ : ∃ p0 t, D = p0 :: t := by
    cases D with
    | nil => exact absurd rfl hD0
    | cons p0 t => exact ⟨p0, t, rfl⟩
  have h1 : (lastVal (p0 :: t) g v).isSome = true :=
    lastVal_isSome_iff.mpr ⟨p0, List.mem_cons_self _ _, by
      rw [hall p0 (List.mem_cons_self _ _)]; simp⟩
  obtain ⟨y, hy⟩ := Option.isSome_iff_exists.mp h1
  rcases lastVal_mem hy with ⟨q, hq, hdq⟩
  rw [hall q hq] at hdq
  rw [hy, hdq]

theorem contains_sup_of_present {D : DocSet} (hWF : DocSetWF D) {g : String}
    {supgrp : Group} (hsup : alookup (superset D) g = some supgrp) {p : String × Document}
    (hp : p ∈ D) {v : String} (hpv : (dvlookup p.2 g v).isSome = true) :
    (supgrp.map Prod.fst).contains v = true := by
  have h1 : (alookup supgrp v).isSome = true := by
    rw [supgrp_val hWF hsup v]
    exact lastVal_isSome_iff.mpr ⟨p, hp, hpv⟩
  exact contains_of_mem (alookup_isSome_iff_mem_keys.mp h1)

/-- No variable in any document of D is named v. -/
def noVarNamed (D : DocSet) (v : String) : Bool :=
  D.all (fun p => p.2.all (fun ge => ge.2.all (fun e => !(e.1 == v))))

theorem noVar_ne {D : DocSet} {v : String} (hnov : noVarNamed D v = true)
    {p : String × Document} (hp : p ∈ D) {g w : String} {x : NmlValue}
    (hw : dvlookup p.2 g w = some x) : w ≠ v := by
  unfold dvlookup at hw
  cases hg : alookup p.2 g with
  | none => rw [hg] at hw; cases hw
  | some grp =>
    rw [hg] at hw
    have hgm : (g, grp) ∈ p.2 := alookup_mem hg
    have hwm : (w, x) ∈ grp := alookup_mem hw
    unfold noVarNamed at hnov
    rw [List.all_eq_true] at hnov
    have h1 := hnov p hp
    rw [List.all_eq_true] at h1
    have h2 := h1 (g, grp) hgm
    rw [List.all_eq_true] at h2
    have h3 := h2 (w, x) hwm
    simp only [Bool.not_eq_eq_eq_not, Bool.not_true, beq_eq_false_iff_ne, ne_eq] at h3
    exact h3

/-- A common variable (present with the same value in every document) is
deleted by the variable phase, unless it is the keep token. -/
theorem candDel_of_common {D : DocSet} (hWF : DocSetWF D) {keep g v : String}
    {x : NmlValue} (hne : ¬ v = keep)
    (hall : ∀ p ∈ D, dvlookup p.2 g v = some x) (hD0 : D ≠ [])
    {supgrp : Group} (hsup : alookup (superset D) g = some supgrp) :
    candDel keep D supgrp g v = true := by
  obtain ⟨p0, hp0⟩ : ∃ p0, p0 ∈ D := by
    cases D with
    | nil => exact absurd rfl hD0
    | cons p0 t => exact ⟨p0, List.mem_cons_self _ _⟩
  unfold candDel
  have h1 : (supgrp.map Prod.fst).contains v = true :=
    contains_sup_of_present hWF hsup hp0 (by rw [hall p0 hp0]; simp)
  have h2 : vPresentAll D g v = true :=
    vPresentAll_iff.mpr (fun p hp => by rw [hall p hp]; simp)
  have h3 : vEqSup D supgrp g v = true := by
    apply vEqSup_iff.mpr
    intro p hp
    rw [hall p hp, supgrp_val hWF hsup v, lastVal_of_all_eq hall hD0]
  have h4 : (v == keep) = false := by simpa using hne
  rw [h1, h2, h3, h4]
  rfl

/-- Diff completeness (general keep): a variable other than keep that is
present with the same value in every document is removed from every
document. -/
theorem diff_completeness (keep : String) (D : DocSet) (hWF : DocSetWF D)
    {g v : String} {x : NmlValue} (hne : ¬ v = keep)
    (hall : ∀ p ∈ D, dvlookup p.2 g v = some x) :
    ∀ p ∈ nmldiff D keep, dvlookup p.2 g v = none := by
  intro p hp
  rw [nmldiff_eq_map keep D hWF] at hp
  rcases List.mem_map.mp hp with ⟨q, hq, rfl⟩
  have hD0 : D ≠ [] := by
    intro hc
    rw [hc] at hq
    cases hq
  have hdocWF : ((q.2 : Document).map Prod.fst).Nodup := (hWF.2 q hq).1
  have hql := diffOutDoc_lookup keep D hWF hdocWF g
  have hqg : (alookup q.2 g).isSome = true := by
    have h1 := hall q hq
    unfold dvlookup at h1
    cases hh : alookup q.2 g with
    | none => rw [hh] at h1; cases h1
    | some grp => simp
  have hkey : g ∈ (superset D).map Prod.fst :=
    superset_mem_keys.mpr ⟨q, hq, alookup_isSome_iff_mem_keys.mp hqg⟩
  obtain ⟨supgrp, hsup⟩ :=
    Option.isSome_iff_exists.mp (alookup_isSome_iff_mem_keys.mpr hkey)
  have hpresent : gPresentAll D g = true := by
    apply gPresentAll_iff.mpr
    intro r hr
    have h1 := hall r hr
    unfold dvlookup at h1
    cases hh : alookup r.2 g with
    | none => rw [hh] at h1; cases h1
    | some grp => simp
  have hcand : candDel keep D supgrp g v = true :=
    candDel_of_common hWF hne hall hD0 hsup
  show dvlookup (diffOutDoc keep D q.2) g v = none
  unfold dvlookup
  rw [hql, hsup]
  simp only [hpresent, if_true]
  by_cases hdg : diffDelGroupB keep D g supgrp = true
  · simp [hdg]
  · have hdg' : diffDelGroupB keep D g supgrp = false := Bool.eq_false_iff.mpr hdg
    simp only [hdg', Bool.false_eq_true, if_false]
    obtain ⟨grp, hgrp⟩ := Option.isSome_iff_exists.mp hqg
    rw [hgrp]
    simp only [Option.map_some']
    rw [alookup_filter grp (fun w => !(candDel keep D supgrp g w)) v]
    rw [hcand]
    simp

/-- Diff soundness: every surviving (source, group, variable) differs from
some other source in the original DocumentSet. -/
theorem diff_soundness (D : DocSet) (hWF : DocSetWF D)
    (hnov : noVarNamed D "" = true) {i : Nat} {g v : String} {x : NmlValue}
    (hi : i < (nmldiff D "").length)
    (hx : dvlookup ((nmldiff D "")[i]).2 g v = some x) :
    ∃ j, ∃ (hj : j < D.length), j ≠ i ∧
      (alookup (D[j]).2 g = none
       ∨ dvlookup (D[j]).2 g v = none
       ∨ (∃ y, dvlookup (D[j]).2 g v = some y ∧ y ≠ x)) := by
  have hmap := nmldiff_eq_map "" D hWF
  have hi' : i < D.length := by
    rw [hmap] at hi
    simpa using hi
  have hqmem : D[i] ∈ D := List.getElem_mem hi'
  have hdocWF : (((D[i]).2 : Document).map Prod.fst).Nodup := (hWF.2 _ hqmem).1
  have hout : ((nmldiff D "")[i]).2 = diffOutDoc "" D (D[i]).2 := by
    rw [List.getElem_of_eq hmap hi]
    simp
  rw [hout] at hx
  have hql := diffOutDoc_lookup "" D hWF hdocWF g
  unfold dvlookup at hx
  rw [hql] at hx
  cases hsup : alookup (superset D) g with
  | none =>
    rw [hsup] at hx
    exfalso
    have hqg : (alookup (D[i]).2 g).isSome = true := by
      cases hh : alookup (D[i]).2 g with
      | none => rw [hh] at hx; cases hx
      | some grp => simp
    have hkey : g ∈ (superset D).map Prod.fst :=
      superset_mem_keys.mpr ⟨D[i], hqmem, alookup_isSome_iff_mem_keys.mp hqg⟩
    have h2 := alookup_isSome_iff_mem_keys.mpr hkey
    rw [hsup] at h2
    cases h2
  | some supgrp =>
    rw [hsup] at hx
    by_cases hpres : gPresentAll D g = true
    · simp only [hpres, if_true] at hx
      by_cases hdg : diffDelGroupB "" D g supgrp = true
      · rw [if_pos hdg] at hx
        cases hx
      · have hdg' : diffDelGroupB "" D g supgrp = false := Bool.eq_false_iff.mpr hdg
        rw [hdg'] at hx
        simp only [Bool.false_eq_true, if_false] at hx
        obtain ⟨grp, hgrp, hfx⟩ : ∃ grp, alookup (D[i]).2 g = some grp ∧
            alookup (grp.filter (fun e => !(candDel "" D supgrp g e.1))) v = some x := by
          cases hh : alookup (D[i]).2 g with
          | none => rw [hh] at hx; cases hx
          | some grp =>
            rw [hh] at hx
            exact ⟨grp, rfl, hx⟩
        rw [alookup_filter grp (fun w => !(candDel "" D supgrp g w)) v] at hfx
        have hcand : candDel "" D supgrp g v = false := by
          cases hc : candDel "" D supgrp g v
          · rfl
          · rw [hc] at hfx
            simp at hfx
        rw [hcand] at hfx
        simp only [Bool.not_false, if_true] at hfx
        have hqx : dvlookup (D[i]).2 g v = some x := by
          unfold dvlookup
          rw [hgrp]
          exact hfx
        have hc1 : (supgrp.map Prod.fst).contains v = true :=
          contains_sup_of_present hWF hsup hqmem (by rw [hqx]; simp)
        have hc4 : (v == ("" : String)) = false := by
          have := noVar_ne hnov hqmem hqx
          simpa using this
        have hc23 : vPresentAll D g v = false ∨ vEqSup D supgrp g v = false := by
          unfold candDel at hcand
          rw [hc1, hc4] at hcand
          cases h2 : vPresentAll D g v
          · exact Or.inl rfl
          · cases h3 : vEqSup D supgrp g v
            · exact Or.inr rfl
            · rw [h2, h3] at hcand
              cases hcand
        rcases hc23 with hc2 | hc3
        · -- variable missing from some document
          obtain ⟨p, hp, hpnone⟩ : ∃ p ∈ D, dvlookup p.2 g v = none := by
            by_contra hcon
            push_neg at hcon
            have h2 : vPresentAll D g v = true := by
              apply vPresentAll_iff.mpr
              intro p hp
              cases hh : dvlookup p.2 g v with
              | none => exact absurd hh (hcon p hp)
              | some y => simp
            rw [hc2] at h2
            cases h2
          obtain ⟨j, hj, hje⟩ := List.mem_iff_getElem.mp hp
          refine ⟨j, hj, ?_, Or.inr (Or.inl (by rw [hje]; exact hpnone))⟩
          intro hji
          subst hji
          rw [hje] at hqx
          rw [hpnone] at hqx
          cases hqx
        · -- value differs from the superset value in some document
          obtain ⟨p, hp, hpne⟩ : ∃ p ∈ D, dvlookup p.2 g v ≠ alookup supgrp v := by
            by_contra hcon
            push_neg at hcon
            have h2 : vEqSup D supgrp g v = true := vEqSup_iff.mpr hcon
            rw [hc3] at h2
            cases h2
          have hzsome : (lastVal D g v).isSome = true :=
            lastVal_isSome_iff.mpr ⟨D[i], hqmem, by rw [hqx]; simp⟩
          obtain ⟨z, hz⟩ := Option.isSome_iff_exists.mp hzsome
          have hsupv : alookup supgrp v = some z := by
            rw [supgrp_val hWF hsup v, hz]
          rcases lastVal_mem hz with ⟨q, hqm, hdq⟩
          cases hpv : dvlookup p.2 g v with
          | none =>
            obtain ⟨j, hj, hje⟩ := List.mem_iff_getElem.mp hp
            refine ⟨j, hj, ?_, Or.inr (Or.inl (by rw [hje]; exact hpv))⟩
            intro hji
            subst hji
            rw [hje] at hqx
            rw [hpv] at hqx
            cases hqx
          | some y =>
            by_cases hyx : y = x
            · have hzx : z ≠ x := by
                intro hzx2
                apply hpne
                rw [hpv, hsupv, hyx, hzx2]
              obtain ⟨j, hj, hje⟩ := List.mem_iff_getElem.mp hqm
              refine ⟨j, hj, ?_, Or.inr (Or.inr ⟨z, by rw [hje]; exact hdq, hzx⟩)⟩
              intro hji
              subst hji
              rw [hje] at hqx
              rw [hdq] at hqx
              injection hqx with h2
              exact hzx h2
            · obtain ⟨j, hj, hje⟩ := List.mem_iff_getElem.mp hp
              refine ⟨j, hj, ?_, Or.inr (Or.inr ⟨y, by rw [hje]; exact hpv, hyx⟩)⟩
              intro hji
              subst hji
              rw [hje] at hqx
              rw [hpv] at hqx
              injection hqx with h2
              exact hyx h2
    · -- group missing from some document
      have hpres' : gPresentAll D g = false := Bool.eq_false_iff.mpr hpres
      rw [hpres'] at hx
      simp only [Bool.false_eq_true, if_false] at hx
      have hqg : (alookup (D[i]).2 g).isSome = true := by
        cases hh : alookup (D[i]).2 g with
        | none => rw [hh] at hx; cases hx
        | some grp => simp
      obtain ⟨p, hp, hpnone⟩ := gPresentAll_false hpres'
      obtain ⟨j, hj, hje⟩ := List.mem_iff_getElem.mp hp
      refine ⟨j, hj, ?_, Or.inl (by rw [hje]; exact hpnone)⟩
      intro hji
      subst hji
      rw [hje] at hqg
      rw [hpnone] at hqg
      cases hqg

/-- Diff of a one-document DocumentSet with keep="" removes everything. -/
theorem diff_single_doc (D : DocSet) (hWF : DocSetWF D)
    (hnov : noVarNamed D "" = true) (hlen : D.length = 1) :
    ∀ p ∈ nmldiff D "", p.2 = [] := by
  obtain ⟨p0, rfl⟩ : ∃ p0, D = [p0] := by
    cases D with
    | nil => cases hlen
    | cons p0 t =>
      cases t with
      | nil => exact ⟨p0, rfl⟩
      | cons q t2 => simp at hlen
  intro p hp
  rw [nmldiff_eq_map "" [p0] hWF] at hp
  simp only [List.map_cons, List.map_nil, List.mem_singleton] at hp
  subst hp
  show diffOutDoc "" [p0] p0.2 = []
  have hp0 : p0 ∈ [p0] := List.mem_cons_self _ _
  have hdocWF : ((p0.2 : Document).map Prod.fst).Nodup := (hWF.2 p0 hp0).1
  apply eq_nil_of_alookup_eq_none
  intro g
  rw [diffOutDoc_lookup "" [p0] hWF hdocWF g]
  cases hsup : alookup (superset [p0]) g with
  | none =>
    simp only
    cases hg : alookup p0.2 g with
    | none => rfl
    | some grp =>
      exfalso
      have hkey : g ∈ (superset [p0]).map Prod.fst :=
        superset_mem_keys.mpr ⟨p0, hp0, alookup_isSome_iff_mem_keys.mp (by rw [hg]; simp)⟩
      have h2 := alookup_isSome_iff_mem_keys.mpr hkey
      rw [hsup] at h2
      cases h2
  | some supgrp =>
    simp only
    have hgsome : (alookup p0.2 g).isSome = true := by
      have hkey : g ∈ (superset [p0]).map Prod.fst :=
        alookup_isSome_iff_mem_keys.mp (by rw [hsup]; simp)
      rcases superset_mem_keys.mp hkey with ⟨q, hq, hgq⟩
      simp only [List.mem_singleton] at hq
      subst hq
      exact alookup_isSome_iff_mem_keys.mpr hgq
    obtain ⟨grp0, hgrp0⟩ := Option.isSome_iff_exists.mp hgsome
    have hpres : gPresentAll [p0] g = true := by
      apply gPresentAll_iff.mpr
      intro q hq
      simp only [List.mem_singleton] at hq
      subst hq
      exact hgsome
    have hgrpWF : ((grp0 : Group).map Prod.fst).Nodup :=
      (hWF.2 p0 hp0).2 (g, grp0) (alookup_mem hgrp0)
    have hallcand : ∀ e ∈ grp0, candDel "" [p0] supgrp g e.1 = true := by
      intro e he
      have hev : dvlookup p0.2 g e.1 = some e.2 := by
        unfold dvlookup
        rw [hgrp0]
        exact alookup_fst_mem hgrpWF he
      have hall : ∀ q ∈ [p0], dvlookup q.2 g e.1 = some e.2 := by
        intro q hq
        simp only [List.mem_singleton] at hq
        subst hq
        exact hev
      exact candDel_of_common hWF (noVar_ne hnov hp0 hev) hall (by simp) hsup
    have hdg : diffDelGroupB "" [p0] g supgrp = true := by
      unfold diffDelGroupB
      rw [Bool.or_eq_true]
      right
      unfold applyDel
      simp only [List.map_cons, List.map_nil, List.all_cons, List.all_nil, Bool.and_true]
      rw [state_gview, hgrp0]
      simp only [Option.getD_some]
      have : grp0.filter (fun e => !(candDel "" [p0] supgrp g e.1)) = [] := by
        rw [List.filter_eq_nil_iff]
        intro e he
        rw [hallcand e he]
        simp
      rw [this]
      rfl
    rw [hpres, hdg]
    simp

/-- A group missing from some document is retained unexamined in every
document: its entry (or absence) is unchanged by nmldiff. -/
theorem diff_retention (keep : String) (D : DocSet) (hWF : DocSetWF D)
    {g : String} (habs : ∃ p ∈ D, alookup p.2 g = none) :
    ∀ i, ∀ (hi : i < (nmldiff D keep).length) (hi' : i < D.length),
      alookup ((nmldiff D keep)[i]).2 g = alookup (D[i]).2 g := by
  intro i hi hi'
  have hmap := nmldiff_eq_map keep D hWF
  have hqmem : D[i] ∈ D := List.getElem_mem hi'
  have hdocWF : (((D[i]).2 : Document).map Prod.fst).Nodup := (hWF.2 _ hqmem).1
  have hout : ((nmldiff D keep)[i]).2 = diffOutDoc keep D (D[i]).2 := by
    rw [List.getElem_of_eq hmap hi]
    simp
  rw [hout, diffOutDoc_lookup keep D hWF hdocWF g]
  have hpres : gPresentAll D g = false := by
    cases hc : gPresentAll D g
    · rfl
    · exfalso
      obtain ⟨p, hp, hpnone⟩ := habs
      have := gPresentAll_iff.mp hc p hp
      rw [hpnone] at this
      cases this
  cases hsup : alookup (superset D) g with
  | none => rfl
  | some supgrp =>
    simp [hpres]

/-! ## Claim C1 (amended): diff with keep="" removes exactly the common part,
provided no variable is literally named by the empty string -/

/-- C1 (amended): for a well-formed DocumentSet in which no variable is named
by the empty string, after nmldiff(D, keep="") (i) every remaining
(source, group, variable) has another source where the group is absent, the
variable is absent, or the value differs; (ii) every (group, variable)
present with equal values in every source is removed from every document;
(iii) diff of a one-document DocumentSet removes everything; (iv) a group
missing from some document is retained unexamined.  The amendment restricts
the claim to DocumentSets without a variable literally named "" because the
code treats keep='' as an ordinary variable name (see the counterexample). -/
theorem nmldiff_no_keep_exact (D : DocSet) (hWF : DocSetWF D)
    (hnov : noVarNamed D "" = true) :
    (∀ i, ∀ (hi : i < (nmldiff D "").length), ∀ g v x,
      dvlookup ((nmldiff D "")[i]).2 g v = some x →
      ∃ j, ∃ (hj : j < D.length), j ≠ i ∧
        (alookup (D[j]).2 g = none
         ∨ dvlookup (D[j]).2 g v = none
         ∨ (∃ y, dvlookup (D[j]).2 g v = some y ∧ y ≠ x)))
    ∧ (∀ g v x, (∀ p ∈ D, dvlookup p.2 g v = some x) →
        ∀ p ∈ nmldiff D "", dvlookup p.2 g v = none)
    ∧ (D.length = 1 → ∀ p ∈ nmldiff D "", p.2 = [])
    ∧ (∀ g, (∃ p ∈ D, alookup p.2 g = none) →
        ∀ i, ∀ (hi : i < (nmldiff D "").length) (hi' : i < D.length),
          alookup ((nmldiff D "")[i]).2 g = alookup (D[i]).2 g) := by
  refine ⟨?_, ?_, ?_, ?_⟩
  · intro i hi g v x hx
    exact diff_soundness D hWF hnov hi hx
  · intro g v x hall p hp
    by_cases hD0 : D = []
    · subst hD0
      have : nmldiff [] "" = [] := rfl
      rw [this] at hp
      cases hp
    · have hvne : ¬ v = "" := by
        obtain ⟨p0, hp0⟩ : ∃ p0, p0 ∈ D := by
          cases D with
          | nil => exact absurd rfl hD0
          | cons p0 t => exact ⟨p0, List.mem_cons_self _ _⟩
        exact noVar_ne hnov hp0 (hall p0 hp0)
      exact diff_completeness "" D hWF hvne hall p hp
  · intro hlen
    exact diff_single_doc D hWF hnov hlen
  · intro g habs
    exact diff_retention "" D hWF habs

/-- Counterexample to C1 as stated: with keep='' (the "no keep token" case of
the claim), a variable literally named by the empty string that is present
with equal values in every source is NOT removed — the code compares
var == keep and treats '' as a protected keep token.  This DocumentSet
violates the claim's completeness part. -/
def exampleEmptyVar : DocSet :=
  [("a.nml", [("g", [("", .vint 1), ("x", .vint 1)])]),
   ("b.nml", [("g", [("", .vint 1), ("x", .vint 2)])])]

/-- C1 counterexample: ("", vint 1) is present with equal values in both
sources of exampleEmptyVar, yet after nmldiff with keep="" it remains in
both documents. -/
theorem nmldiff_no_keep_exact_counterexample :
    (∀ p ∈ exampleEmptyVar, dvlookup p.2 "g" "" = some (.vint 1))
    ∧ ¬ (∀ p ∈ nmldiff exampleEmptyVar "", dvlookup p.2 "g" "" = none) := by
  constructor
  · decide
  · decide

/-- Witness for the amended C1 at a concrete DocumentSet. -/
theorem nmldiff_no_keep_exact_witness :
    DocSetWF exampleAB
    ∧ noVarNamed exampleAB "" = true
    ∧ (∀ p ∈ exampleAB, dvlookup p.2 "grp" "x" = some (.vint 1))
    ∧ (∀ p ∈ nmldiff exampleAB "", dvlookup p.2 "grp" "x" = none) := by
  refine ⟨by decide, by decide, by decide, ?_⟩
  exact (nmldiff_no_keep_exact exampleAB (by decide) (by decide)).2.1
    "grp" "x" (.vint 1) (by decide)

/-! ## Claim C4: the keep token and the singleton-keep group rule -/

theorem candDel_keep_self (keep : String) (D : DocSet) (supgrp : Group) (g : String) :
    candDel keep D supgrp g keep = false := by
  unfold candDel
  simp

/-- The varkept flag is set when the keep variable is common to all
documents with equal values. -/
theorem keptB_of_common {D : DocSet} (hWF : DocSetWF D) {keep g : String}
    {x : NmlValue} (hall : ∀ p ∈ D, dvlookup p.2 g keep = some x) (hD0 : D ≠ [])
    {supgrp : Group} (hsup : alookup (superset D) g = some supgrp) :
    keptB keep D supgrp g = true := by
  obtain ⟨p0, hp0⟩ : ∃ p0, p0 ∈ D := by
    cases D with
    | nil => exact absurd rfl hD0
    | cons p0 t => exact ⟨p0, List.mem_cons_self _ _⟩
  unfold keptB
  have h1 : (supgrp.map Prod.fst).contains keep = true :=
    contains_sup_of_present hWF hsup hp0 (by rw [hall p0 hp0]; simp)
  have h2 : vPresentAll D g keep = true :=
    vPresentAll_iff.mpr (fun p hp => by rw [hall p hp]; simp)
  have h3 : vEqSup D supgrp g keep = true := by
    apply vEqSup_iff.mpr
    intro p hp
    rw [hall p hp, supgrp_val hWF hsup keep, lastVal_of_all_eq hall hD0]
  rw [h1, h2, h3]
  rfl

theorem ovkDoc_of_all_keep {keep : String} {l : Group}
    (hnd : (l.map Prod.fst).Nodup)
    (hall : l.all (fun e => e.1 == keep) = true) : ovkDoc keep l = true := by
  cases l with
  | nil => rfl
  | cons e t =>
    cases t with
    | nil =>
      simp only [List.all_cons, List.all_nil, Bool.and_true] at hall
      simp [ovkDoc, hall]
    | cons e2 t2 =>
      exfalso
      simp only [List.all_cons, Bool.and_eq_true] at hall
      have h1 : e.1 = keep := by simpa using hall.1
      have h2 : e2.1 = keep := by simpa using hall.2.1
      simp only [List.map_cons, List.nodup_cons, List.mem_cons] at hnd
      exact hnd.1 (Or.inl (h1.trans h2.symm))

theorem two_keys_not_lt_two {l : Group} {e1 e2 : String × NmlValue}
    (h1 : e1 ∈ l) (h2 : e2 ∈ l) (hne : e1.1 ≠ e2.1) : ¬ l.length < 2 := by
  cases l with
  | nil => cases h1
  | cons a t =>
    cases t with
    | nil =>
      simp only [List.mem_singleton] at h1 h2
      exact absurd (h1 ▸ h2 ▸ rfl) hne
    | cons b t2 => simp

theorem all_false_of_mem {β : Type} {l : List β} {f : β → Bool} {b : β}
    (hb : b ∈ l) (hf : f b = false) : l.all f = false := by
  cases hc : l.all f
  · rfl
  · exfalso
    have h1 := List.all_eq_true.mp hc b hb
    rw [hf] at h1
    cases h1

/-- C4: with a keep token, if the keep variable is present with equal values
in every document of a group present in every document, then: (i) if after
the variable phase every document's copy of the group contains at most the
kept variable, the whole group is deleted from every document; (ii)
otherwise the keep variable is retained with its common value in every
document. -/
theorem nmldiff_keep_rule (D : DocSet) (hWF : DocSetWF D) {keep : String}
    (_hkne : ¬ keep = "") {g : String} {x : NmlValue}
    (hall : ∀ p ∈ D, dvlookup p.2 g keep = some x) (hD0 : D ≠ [])
    {supgrp : Group} (hsup : alookup (superset D) g = some supgrp) :
    ((∀ p ∈ D, (((alookup p.2 g).getD []).filter
        (fun e => !(candDel keep D supgrp g e.1))).all (fun e => e.1 == keep) = true) →
      ∀ p ∈ nmldiff D keep, alookup p.2 g = none)
    ∧ ((∃ p ∈ D, ¬ ((((alookup p.2 g).getD []).filter
        (fun e => !(candDel keep D supgrp g e.1))).all (fun e => e.1 == keep) = true)) →
      ∀ p ∈ nmldiff D keep, dvlookup p.2 g keep = some x) := by
  have hpres : gPresentAll D g = true := by
    apply gPresentAll_iff.mpr
    intro r hr
    have h1 := hall r hr
    unfold dvlookup at h1
    cases hh : alookup r.2 g with
    | none => rw [hh] at h1; cases h1
    | some grp => simp
  have hkeepmem : ∀ p ∈ D, (keep, x) ∈ (((alookup p.2 g).getD []).filter
      (fun e => !(candDel keep D supgrp g e.1))) := by
    intro p hp
    have h1 := hall p hp
    unfold dvlookup at h1
    cases hh : alookup p.2 g with
    | none => rw [hh] at h1; cases h1
    | some grp =>
      rw [hh] at h1
      simp only [hh, Option.getD_some]
      apply List.mem_filter.mpr
      refine ⟨alookup_mem h1, ?_⟩
      rw [candDel_keep_self]
      rfl
  have hkept : keptB keep D supgrp g = true := keptB_of_common hWF hall hD0 hsup
  have hgview : ∀ p : String × Document,
      ((alookup (amodify p.2 g (fun grp => grp.filter
        (fun e => !(candDel keep D supgrp g e.1)))) g).getD []) =
      (((alookup p.2 g).getD []).filter (fun e => !(candDel keep D supgrp g e.1))) :=
    fun p => state_gview p.2 g _
  constructor
  · -- (i) singleton-keep: the whole group is deleted
    intro hFall p hp
    have hdg : diffDelGroupB keep D g supgrp = true := by
      unfold diffDelGroupB
      rw [Bool.or_eq_true]
      left
      rw [Bool.and_eq_true]
      refine ⟨hkept, ?_⟩
      unfold applyDel
      rw [List.all_map]
      apply List.all_eq_true.mpr
      intro q hq
      show ovkDoc keep ((alookup (amodify q.2 g _) g).getD []) = true
      rw [hgview q]
      apply ovkDoc_of_all_keep
      · exact ((List.filter_sublist _).map Prod.fst).nodup (docWF_gview (hWF.2 q hq) g)
      · exact hFall q hq
    rw [nmldiff_eq_map keep D hWF] at hp
    rcases List.mem_map.mp hp with ⟨q, hq, rfl⟩
    show alookup (diffOutDoc keep D q.2) g = none
    rw [diffOutDoc_lookup keep D hWF (hWF.2 q hq).1 g, hsup]
    simp [hpres, hdg]
  · -- (ii) otherwise the keep variable survives with its common value
    rintro ⟨p1, hp1, hnall⟩ p hp
    have hex : ∃ e ∈ (((alookup p1.2 g).getD []).filter
        (fun e => !(candDel keep D supgrp g e.1))), ¬ e.1 = keep := by
      by_contra hc
      push_neg at hc
      apply hnall
      apply List.all_eq_true.mpr
      intro e he
      have := hc e he
      simpa using this
    obtain ⟨e1, he1, he1k⟩ := hex
    have hovkfalse : ovkDoc keep (((alookup p1.2 g).getD []).filter
        (fun e => !(candDel keep D supgrp g e.1))) = false := by
      unfold ovkDoc
      have h2 := two_keys_not_lt_two he1 (hkeepmem p1 hp1) he1k
      have : decide ((((alookup p1.2 g).getD []).filter
          (fun e => !(candDel keep D supgrp g e.1))).length < 2) = false := by
        simpa using h2
      rw [this]
      rfl
    have hdg : diffDelGroupB keep D g supgrp = false := by
      unfold diffDelGroupB
      rw [Bool.or_eq_false_iff]
      constructor
      · rw [Bool.and_eq_false_iff]
        right
        refine all_false_of_mem (b := (p1.1, amodify p1.2 g (fun grp => grp.filter
          (fun e => !(candDel keep D supgrp g e.1))))) ?_ ?_
        · exact List.mem_map.mpr ⟨p1, hp1, rfl⟩
        · show ovkDoc keep ((alookup (amodify p1.2 g _) g).getD []) = false
          rw [hgview p1]
          exact hovkfalse
      · refine all_false_of_mem (b := (p1.1, amodify p1.2 g (fun grp => grp.filter
          (fun e => !(candDel keep D supgrp g e.1))))) ?_ ?_
        · exact List.mem_map.mpr ⟨p1, hp1, rfl⟩
        · show (((alookup (amodify p1.2 g _) g).getD []).length == 0) = false
          rw [hgview p1]
          have h4 : (((alookup p1.2 g).getD []).filter
              (fun e => !(candDel keep D supgrp g e.1))).length ≠ 0 := by
            intro h5
            rw [List.length_eq_zero] at h5
            rw [h5] at he1
            cases he1
          simpa using h4
    rw [nmldiff_eq_map keep D hWF] at hp
    rcases List.mem_map.mp hp with ⟨q, hq, rfl⟩
    show dvlookup (diffOutDoc keep D q.2) g keep = some x
    unfold dvlookup
    rw [diffOutDoc_lookup keep D hWF (hWF.2 q hq).1 g, hsup]
    simp only [hpres, if_true, hdg, Bool.false_eq_true, if_false]
    have h1 := hall q hq
    unfold dvlookup at h1
    cases hh : alookup q.2 g with
    | none => rw [hh] at h1; cases h1
    | some grp =>
      rw [hh] at h1
      simp only [Option.map_some']
      rw [alookup_filter grp (fun w => !(candDel keep D supgrp g w)) keep]
      rw [candDel_keep_self]
      simp only [Bool.not_false, if_true]
      exact h1

def exampleKeep : DocSet :=
  [("a", [("g", [("switch", NmlValue.vbool true)])]),
   ("b", [("g", [("switch", NmlValue.vbool true)])])]

theorem nmldiff_keep_rule_witness :
    (("a", ([] : Document)) ∈ nmldiff exampleKeep "switch") ∧
      alookup (("a", ([] : Document)) : String × Document).2 "g" = none :=
  ⟨by decide,
   (@nmldiff_keep_rule exampleKeep (by decide) "switch" (by decide) "g"
    (NmlValue.vbool true) (by decide) (by decide)
    [("switch", NmlValue.vbool true)] (by decide)).1 (by decide)
    ("a", []) (by decide)⟩

theorem pysorted_nil : pysorted [] = [] := rfl

theorem strnmldictMd_nil (nmlall : DocSet) (fnames : List String) (colwidth : Nat) :
    strnmldictMd nmlall [] fnames colwidth = "" := by
  unfold strnmldictMd
  simp

theorem strnmldictLatex_nil (nmlall : DocSet) (nmldss : Document)
    (fnames : List String) (fmt masterswitch : String)
    (hide : List (String × List String)) (heading url : String) :
    strnmldictLatex nmlall [] nmldss fnames fmt masterswitch hide heading url = "" := by
  unfold strnmldictLatex
  simp

theorem strnmldictText_nil (nmlall : DocSet) (nmldss : Document)
    (fnames : List String) (hide : List (String × List String))
    (gwidth vwidth dwidth : Nat) :
    strnmldictText nmlall [] nmldss fnames hide gwidth vwidth dwidth = "" := by
  unfold strnmldictText
  rw [List.map_nil, pysorted_nil]
  rfl

theorem strnmldictDefault_nil (nmlall : DocSet) (fnames : List String)
    (colwidth : Nat) (hide : List (String × List String)) :
    strnmldictDefault nmlall [] fnames colwidth hide = "" := by
  unfold strnmldictDefault
  rw [List.map_nil, pysorted_nil]
  rfl

/-- C10: if the superset of the DocumentSet is empty (no entries, or all
documents empty), strnmldict returns the empty string for every format
string and every choice of options; in particular the latex formats emit
no preamble, header or document skeleton. -/
theorem strnmldict_empty (nmlall : DocSet) (fmt0 masterswitch : String)
    (hide : List (String × List String)) (heading url : String)
    (h : superset nmlall = []) :
    strnmldict nmlall fmt0 masterswitch hide heading url = "" := by
  simp only [strnmldict]
  rw [h]
  split_ifs
  all_goals first
    | exact strnmldictMd_nil ..
    | exact strnmldictLatex_nil ..
    | exact strnmldictText_nil ..
    | exact strnmldictDefault_nil ..

theorem strnmldict_empty_witness :
    superset [("a", []), ("b", [])] = [] ∧
      strnmldict [("a", []), ("b", [])] "LaTeX-Complete" "sw" [] "h" "u" = "" :=
  ⟨by decide, strnmldict_empty [("a", []), ("b", [])] "LaTeX-Complete" "sw" [] "h" "u" (by decide)⟩

def exampleFmt : DocSet := [("f1", [("g", [("a", NmlValue.vint 1)])])]

/-- The default-branch output that the fallback is compared against. -/
def defaultOutput (nmlall : DocSet) (hide : List (String × List String)) : String :=
  strnmldictDefault nmlall (superset nmlall) (nmlall.map Prod.fst)
    (pymax0 ((nmlall.map Prod.fst).map String.length)) hide

/-- C7: format selection is case-insensitive (equal lowercasings give equal
output), and a format string whose lowercasing is not md/markdown and does
not start with latex or text falls back to the plain/default output. -/
theorem strnmldict_fmt_rule (nmlall : DocSet) (masterswitch : String)
    (hide : List (String × List String)) (heading url : String) :
    (∀ fmt1 fmt2 : String, pyLower fmt1 = pyLower fmt2 →
      strnmldict nmlall fmt1 masterswitch hide heading url =
        strnmldict nmlall fmt2 masterswitch hide heading url)
    ∧ (∀ fmt : String, ¬ (pyLower fmt = "md" ∨ pyLower fmt = "markdown") →
        ¬ pyStartsWith (pyLower fmt) "latex" = true →
        ¬ pyStartsWith (pyLower fmt) "text" = true →
        strnmldict nmlall fmt masterswitch hide heading url =
          defaultOutput nmlall hide) := by
  constructor
  · intro fmt1 fmt2 h12
    simp only [strnmldict]
    rw [h12]
  · intro fmt hmd hlatex htext
    simp only [strnmldict]
    rw [if_neg hmd, if_neg hlatex, if_neg htext]
    rfl

theorem strnmldict_fmt_rule_witness :
    (pyLower "MD" = pyLower "md" ∧
      strnmldict exampleFmt "MD" "sw" [] "h" "u" =
        strnmldict exampleFmt "md" "sw" [] "h" "u")
    ∧ strnmldict exampleFmt "json" "sw" [] "h" "u" = defaultOutput exampleFmt [] :=
  ⟨⟨by decide, (strnmldict_fmt_rule exampleFmt "sw" [] "h" "u").1 "MD" "md" (by decide)⟩,
   (strnmldict_fmt_rule exampleFmt "sw" [] "h" "u").2 "json" (by decide) (by decide) (by decide)⟩

theorem strnmldict_fmt_rule_counterexample :
    ¬ strnmldict exampleFmt "latexx" "sw" [] "" "" = defaultOutput exampleFmt [] := by
  decide

/-- Specification of the survivor chain (from the spec text): scanning in
order, drop a path whose content is byte-identical to the most recently
kept path, keep it otherwise. -/
def keepChain (content : String → List Nat) : String → List String → List String
  | _, [] => []
  | last, f :: rest =>
    if content last == content f then keepChain content last rest
    else f :: keepChain content f rest

/-- Specification of prunefilelist (from the spec text): drop non-existent
paths, keep the first remaining path, then chain against the last survivor. -/
def prunefilelistSpec (isfile : String → Bool) (content : String → List Nat)
    (fnames : List String) : List String :=
  match fnames.filter isfile with
  | [] => []
  | f :: rest => f :: keepChain content f rest

theorem keepChain_sublist (content : String → List Nat) (last : String)
    (rest : List String) : (keepChain content last rest).Sublist rest := by
  induction rest generalizing last with
  | nil => exact List.Sublist.refl []
  | cons f t ih =>
    unfold keepChain
    split
    · exact (ih last).cons f
    · exact (ih f).cons₂ f

theorem prunefold_eq_keepChain (content : String → List Nat)
    (rest : List String) : ∀ (out : List String) (l : String),
    out ≠ [] → out.getLastD "" = l →
    rest.foldl (fun out fn =>
        if !(content (out.getLastD "") == content fn) then out ++ [fn] else out) out =
      out ++ keepChain content l rest := by
  induction rest with
  | nil => intro out l _ _; simp [keepChain]
  | cons f t ih =>
    intro out l hne hlast
    rw [List.foldl_cons]
    unfold keepChain
    rw [hlast]
    by_cases hc : content l == content f
    · rw [hc]
      simp only [Bool.not_true, Bool.false_eq_true, if_false]
      exact ih out l hne hlast
    · rw [Bool.eq_false_iff.mpr hc]
      simp only [Bool.not_false, if_true]
      rw [ih (out ++ [f]) f (by simp) (by simp)]
      simp

/-- C8: prunefilelist equals the spec's chain-against-last-survivor
filtering, and its output is a sublist (order-preserving selection) of the
existing-file filtering of the input. -/
theorem prunefilelist_exact (isfile : String → Bool)
    (content : String → List Nat) (fnames : List String) :
    prunefilelist isfile content fnames = prunefilelistSpec isfile content fnames
    ∧ (prunefilelist isfile content fnames).Sublist (fnames.filter isfile) := by
  have hmain : prunefilelist isfile content fnames =
      prunefilelistSpec isfile content fnames := by
    unfold prunefilelist prunefilelistSpec
    cases hf : fnames.filter isfile with
    | nil => simp
    | cons f rest =>
      cases rest with
      | nil => simp [keepChain]
      | cons f2 t =>
        have hlen : ¬ (f :: f2 :: t).length ≤ 1 := by simp
        rw [if_neg hlen]
        exact prunefold_eq_keepChain content (f2 :: t) [f] f (by simp) (by simp)
  refine ⟨hmain, ?_⟩
  rw [hmain]
  unfold prunefilelistSpec
  cases hf : fnames.filter isfile with
  | nil => exact List.Sublist.refl []
  | cons f rest => exact (keepChain_sublist content f rest).cons₂ f

/-! ## Idempotence of nmldiff -/

theorem diffSteps_keys_nodup (keep : String) (D : DocSet) :
    ∀ (es : List (String × Group)) (doc : Document),
      (doc.map Prod.fst).Nodup →
      ((es.foldl (fun d ge => diffActStep keep D ge d) doc).map Prod.fst).Nodup := by
  intro es
  induction es with
  | nil => intro doc h; simpa using h
  | cons ge rest ih =>
    intro doc h
    rw [List.foldl_cons]
    exact ih _ (diffActStep_keys_nodup keep D ge h)

theorem diffOutDoc_keys_nodup (keep : String) (D : DocSet) {doc : Document}
    (h : (doc.map Prod.fst).Nodup) :
    ((diffOutDoc keep D doc).map Prod.fst).Nodup :=
  diffSteps_keys_nodup keep D (superset D) doc h

theorem diffOutDoc_DocWF (keep : String) (D : DocSet) (hWF : DocSetWF D)
    {doc : Document} (hdoc : DocWF doc) : DocWF (diffOutDoc keep D doc) := by
  refine ⟨diffOutDoc_keys_nodup keep D hdoc.1, ?_⟩
  intro ge hge
  have hl : alookup (diffOutDoc keep D doc) ge.1 = some ge.2 :=
    alookup_fst_mem (diffOutDoc_keys_nodup keep D hdoc.1) hge
  rw [diffOutDoc_lookup keep D hWF hdoc.1 ge.1] at hl
  cases hs : alookup (superset D) ge.1 with
  | none =>
    rw [hs] at hl
    exact hdoc.2 (ge.1, ge.2) (alookup_mem hl)
  | some supgrp =>
    rw [hs] at hl
    by_cases h1 : gPresentAll D ge.1 = true
    · simp only [h1, if_true] at hl
      by_cases h2 : diffDelGroupB keep D ge.1 supgrp = true
      · simp only [h2, if_true] at hl
        cases hl
      · have h2' : diffDelGroupB keep D ge.1 supgrp = false := Bool.eq_false_iff.mpr h2
        simp only [h2', Bool.false_eq_true, if_false] at hl
        cases hd : alookup doc ge.1 with
        | none => rw [hd] at hl; cases hl
        | some grp =>
          rw [hd] at hl
          simp only [Option.map_some'] at hl
          have hgw : (grp.map Prod.fst).Nodup := hdoc.2 (ge.1, grp) (alookup_mem hd)
          show (ge.2.map Prod.fst).Nodup
          have hl2 : grp.filter (fun e => !(candDel keep D supgrp ge.1 e.1)) = ge.2 :=
            Option.some.inj hl
          rw [← hl2]
          exact ((List.filter_sublist _).map Prod.fst).nodup hgw
    · have h1' : gPresentAll D ge.1 = false := Bool.eq_false_iff.mpr h1
      simp only [h1', Bool.false_eq_true, if_false] at hl
      exact hdoc.2 (ge.1, ge.2) (alookup_mem hl)

theorem nmldiff_WF (keep : String) {D : DocSet} (hWF : DocSetWF D) :
    DocSetWF (nmldiff D keep) := by
  rw [nmldiff_eq_map keep D hWF]
  constructor
  · rw [List.map_map]
    have h0 : (Prod.fst ∘ fun p : String × Document =>
        (p.1, diffOutDoc keep D p.2)) = Prod.fst := rfl
    rw [h0]
    exact hWF.1
  · intro p hp
    rcases List.mem_map.mp hp with ⟨q, hq, rfl⟩
    exact diffOutDoc_DocWF keep D hWF (hWF.2 q hq)

theorem diffFold_id (keep : String) (E : DocSet) :
    ∀ (es : List (String × Group)) (doc : Document),
      (∀ ge ∈ es, ∀ d : Document, diffActStep keep E ge d = d) →
      es.foldl (fun d ge => diffActStep keep E ge d) doc = doc := by
  intro es
  induction es with
  | nil => intro doc _; rfl
  | cons ge rest ih =>
    intro doc hid
    rw [List.foldl_cons, hid ge (List.mem_cons_self _ _) doc]
    exact ih doc (fun ge2 h2 d => hid ge2 (List.mem_cons_of_mem _ h2) d)

theorem diffOutDoc_dvlookup (keep : String) (D : DocSet) (hWF : DocSetWF D)
    {p : String × Document} (hp : p ∈ D) {g : String} {supgrp : Group}
    (hsup : alookup (superset D) g = some supgrp)
    (hpres : gPresentAll D g = true)
    (hdg : diffDelGroupB keep D g supgrp = false) (v : String) :
    dvlookup (diffOutDoc keep D p.2) g v =
      if candDel keep D supgrp g v then none else dvlookup p.2 g v := by
  unfold dvlookup
  rw [diffOutDoc_lookup keep D hWF (hWF.2 p hp).1 g, hsup]
  simp only [hpres, if_true, hdg, Bool.false_eq_true, if_false]
  cases hd : alookup p.2 g with
  | none =>
    exfalso
    have h1 := gPresentAll_iff.mp hpres p hp
    rw [hd] at h1
    cases h1
  | some grp =>
    simp only [Option.map_some', Option.getD_some]
    rw [alookup_filter grp (fun w => !(candDel keep D supgrp g w)) v]
    by_cases hc : candDel keep D supgrp g v = true
    · simp [hc]
    · have hc' : candDel keep D supgrp g v = false := Bool.eq_false_iff.mpr hc
      simp [hc']

theorem idem_pass1_facts (keep : String) (D : DocSet) (hWF : DocSetWF D)
    (hD0 : D ≠ []) {g : String}
    (hpres2 : gPresentAll (nmldiff D keep) g = true) :
    ∃ supgrp, alookup (superset D) g = some supgrp ∧ gPresentAll D g = true ∧
      diffDelGroupB keep D g supgrp = false := by
  obtain ⟨p0, hp0⟩ : ∃ p0, p0 ∈ D := by
    cases D with
    | nil => exact absurd rfl hD0
    | cons p0 t => exact ⟨p0, List.mem_cons_self _ _⟩
  have hm : ∀ p ∈ D, (p.1, diffOutDoc keep D p.2) ∈ nmldiff D keep := by
    intro p hp
    rw [nmldiff_eq_map keep D hWF]
    exact List.mem_map.mpr ⟨p, hp, rfl⟩
  have hout : ∀ p ∈ D, (alookup (diffOutDoc keep D p.2) g).isSome = true := by
    intro p hp
    exact gPresentAll_iff.mp hpres2 _ (hm p hp)
  cases hs : alookup (superset D) g with
  | none =>
    exfalso
    have h1 := hout p0 hp0
    rw [diffOutDoc_lookup keep D hWF (hWF.2 p0 hp0).1 g, hs] at h1
    have h2 : g ∈ (superset D).map Prod.fst :=
      superset_mem_keys.mpr ⟨p0, hp0, alookup_isSome_iff_mem_keys.mp h1⟩
    exact (alookup_eq_none_iff_not_mem_keys.mp hs) h2
  | some supgrp =>
    have hpresD : gPresentAll D g = true := by
      by_contra hpD
      have hpD' : gPresentAll D g = false := Bool.eq_false_iff.mpr hpD
      obtain ⟨p1, hp1, hnone⟩ := gPresentAll_false hpD'
      have h1 := hout p1 hp1
      rw [diffOutDoc_lookup keep D hWF (hWF.2 p1 hp1).1 g, hs] at h1
      simp only [hpD', Bool.false_eq_true, if_false] at h1
      rw [hnone] at h1
      cases h1
    refine ⟨supgrp, rfl, hpresD, ?_⟩
    by_contra hdg
    have hdg' : diffDelGroupB keep D g supgrp = true := by
      cases h : diffDelGroupB keep D g supgrp
      · exact absurd h (by rw [← Bool.not_eq_true] at hdg ⊢; exact fun hh => hdg hh)
      · rfl
    have h1 := hout p0 hp0
    rw [diffOutDoc_lookup keep D hWF (hWF.2 p0 hp0).1 g, hs] at h1
    simp only [hpresD, if_true, hdg', Bool.false_eq_true] at h1
    cases h1

theorem bool_true_of_ne_false {b : Bool} (h : ¬ b = false) : b = true := by
  cases hb : b
  · exact absurd hb h
  · rfl

theorem idem_presence (keep : String) (D : DocSet) (hWF : DocSetWF D)
    (hD0 : D ≠ []) {g : String} {supgrp : Group}
    (hsup : alookup (superset D) g = some supgrp)
    (hpres : gPresentAll D g = true)
    (hdg : diffDelGroupB keep D g supgrp = false) {v : String}
    (hvp : vPresentAll (nmldiff D keep) g v = true) :
    candDel keep D supgrp g v = false ∧
      (∀ p ∈ D, dvlookup (diffOutDoc keep D p.2) g v = dvlookup p.2 g v) ∧
      vPresentAll D g v = true := by
  obtain ⟨p0, hp0⟩ : ∃ p0, p0 ∈ D := by
    cases D with
    | nil => exact absurd rfl hD0
    | cons p0 t => exact ⟨p0, List.mem_cons_self _ _⟩
  have hm : ∀ p ∈ D, (p.1, diffOutDoc keep D p.2) ∈ nmldiff D keep := by
    intro p hp
    rw [nmldiff_eq_map keep D hWF]
    exact List.mem_map.mpr ⟨p, hp, rfl⟩
  have hvp' := vPresentAll_iff.mp hvp
  have hcd : candDel keep D supgrp g v = false := by
    by_contra hc
    have hc' : candDel keep D supgrp g v = true := bool_true_of_ne_false hc
    have h1 := hvp' _ (hm p0 hp0)
    have h2 : dvlookup (diffOutDoc keep D p0.2) g v = none := by
      rw [diffOutDoc_dvlookup keep D hWF hp0 hsup hpres hdg v, hc']
      rfl
    rw [h2] at h1
    cases h1
  have htrans : ∀ p ∈ D, dvlookup (diffOutDoc keep D p.2) g v = dvlookup p.2 g v := by
    intro p hp
    rw [diffOutDoc_dvlookup keep D hWF hp hsup hpres hdg v, hcd]
    simp
  refine ⟨hcd, htrans, vPresentAll_iff.mpr ?_⟩
  intro p hp
  have h1 := hvp' _ (hm p hp)
  rw [show ((p.1, diffOutDoc keep D p.2) : String × Document).2 =
      diffOutDoc keep D p.2 from rfl] at h1
  rw [htrans p hp] at h1
  exact h1

theorem idem_common_from_pass2 (keep : String) (D : DocSet) (hWF : DocSetWF D)
    (hD0 : D ≠ []) {g : String} {supgrp supgrp2 : Group}
    (hsup : alookup (superset D) g = some supgrp)
    (hpres : gPresentAll D g = true)
    (hdg : diffDelGroupB keep D g supgrp = false) {v : String}
    (hvp2 : vPresentAll (nmldiff D keep) g v = true)
    (hve2 : vEqSup (nmldiff D keep) supgrp2 g v = true) :
    ∃ x, ∀ p ∈ D, dvlookup p.2 g v = some x := by
  obtain ⟨p0, hp0⟩ : ∃ p0, p0 ∈ D := by
    cases D with
    | nil => exact absurd rfl hD0
    | cons p0 t => exact ⟨p0, List.mem_cons_self _ _⟩
  have hm : ∀ p ∈ D, (p.1, diffOutDoc keep D p.2) ∈ nmldiff D keep := by
    intro p hp
    rw [nmldiff_eq_map keep D hWF]
    exact List.mem_map.mpr ⟨p, hp, rfl⟩
  obtain ⟨hcd, htrans, hvpD⟩ :=
    idem_presence keep D hWF hD0 hsup hpres hdg hvp2
  have hall2 := vEqSup_iff.mp hve2
  have hx : (alookup supgrp2 v).isSome = true := by
    rw [← hall2 _ (hm p0 hp0)]
    exact vPresentAll_iff.mp hvp2 _ (hm p0 hp0)
  obtain ⟨x, hxv⟩ := Option.isSome_iff_exists.mp hx
  refine ⟨x, ?_⟩
  intro p hp
  have h1 := hall2 _ (hm p hp)
  rw [show ((p.1, diffOutDoc keep D p.2) : String × Document).2 =
      diffOutDoc keep D p.2 from rfl] at h1
  rw [htrans p hp] at h1
  rw [h1, hxv]

theorem idem_no_candDel (keep : String) (D : DocSet) (hWF : DocSetWF D)
    (hD0 : D ≠ []) {g : String} {supgrp supgrp2 : Group}
    (hsup : alookup (superset D) g = some supgrp)
    (hpres : gPresentAll D g = true)
    (hdg : diffDelGroupB keep D g supgrp = false)
    (v : String) : candDel keep (nmldiff D keep) supgrp2 g v = false := by
  by_contra hcc
  have hc : candDel keep (nmldiff D keep) supgrp2 g v = true := bool_true_of_ne_false hcc
  unfold candDel at hc
  simp only [Bool.and_eq_true] at hc
  obtain ⟨⟨⟨_hct, hvp2⟩, hve2⟩, hnk⟩ := hc
  obtain ⟨x, hallD⟩ :=
    idem_common_from_pass2 keep D hWF hD0 hsup hpres hdg hvp2 hve2
  have hvk : ¬ v = keep := by simpa using hnk
  have h2 := candDel_of_common hWF hvk hallD hD0 hsup
  obtain ⟨hcd, _, _⟩ := idem_presence keep D hWF hD0 hsup hpres hdg hvp2
  rw [hcd] at h2
  cases h2

theorem idem_keptB_false (keep : String) (D : DocSet) (hWF : DocSetWF D)
    (hD0 : D ≠ []) {g : String} {supgrp supgrp2 : Group}
    (hsup : alookup (superset D) g = some supgrp)
    (hpres : gPresentAll D g = true)
    (hdg : diffDelGroupB keep D g supgrp = false)
    (hkB : keptB keep D supgrp g = false) :
    keptB keep (nmldiff D keep) supgrp2 g = false := by
  by_contra hcc
  have hc : keptB keep (nmldiff D keep) supgrp2 g = true := bool_true_of_ne_false hcc
  unfold keptB at hc
  simp only [Bool.and_eq_true] at hc
  obtain ⟨⟨_hct, hvp2⟩, hve2⟩ := hc
  obtain ⟨x, hallD⟩ :=
    idem_common_from_pass2 keep D hWF hD0 hsup hpres hdg hvp2 hve2
  have h2 := keptB_of_common hWF hallD hD0 hsup
  rw [hkB] at h2
  cases h2

theorem idem_delGroup_false (keep : String) (D : DocSet) (hWF : DocSetWF D)
    (hD0 : D ≠ []) {g : String} {supgrp : Group} (supgrp2 : Group)
    (hsup : alookup (superset D) g = some supgrp)
    (hpres : gPresentAll D g = true)
    (hdg : diffDelGroupB keep D g supgrp = false) :
    diffDelGroupB keep (nmldiff D keep) g supgrp2 = false := by
  have hmap := nmldiff_eq_map keep D hWF
  have hgv : ∀ p ∈ D, alookup (diffOutDoc keep D p.2) g =
      alookup (amodify p.2 g (fun grp => grp.filter
        (fun e => !(candDel keep D supgrp g e.1)))) g := by
    intro p hp
    rw [diffOutDoc_lookup keep D hWF (hWF.2 p hp).1 g, hsup]
    simp only [hpres, if_true, hdg, Bool.false_eq_true, if_false]
    rw [alookup_amodify_self]
  have hA1 : applyDel (nmldiff D keep) g
      (candDel keep (nmldiff D keep) supgrp2 g) = nmldiff D keep := by
    have h1 : applyDel (nmldiff D keep) g
        (candDel keep (nmldiff D keep) supgrp2 g) =
        applyDel (nmldiff D keep) g (fun _ => false) :=
      applyDel_congr (fun w => idem_no_candDel keep D hWF hD0 hsup hpres hdg w)
    rw [h1, applyDel_false]
  have htr1 : (nmldiff D keep).all
      (fun p => ovkDoc keep ((alookup p.2 g).getD [])) =
      (applyDel D g (candDel keep D supgrp g)).all
      (fun p => ovkDoc keep ((alookup p.2 g).getD [])) := by
    rw [hmap]
    unfold applyDel
    rw [all_map', all_map']
    apply all_congr
    intro p hp
    show ovkDoc keep ((alookup (diffOutDoc keep D p.2) g).getD []) =
      ovkDoc keep ((alookup (amodify p.2 g _) g).getD [])
    rw [hgv p hp]
  have htr2 : (nmldiff D keep).all
      (fun p => ((alookup p.2 g).getD ([] : Group)).length == 0) =
      (applyDel D g (candDel keep D supgrp g)).all
      (fun p => ((alookup p.2 g).getD ([] : Group)).length == 0) := by
    rw [hmap]
    unfold applyDel
    rw [all_map', all_map']
    apply all_congr
    intro p hp
    show (((alookup (diffOutDoc keep D p.2) g).getD ([] : Group)).length == 0) =
      (((alookup (amodify p.2 g _) g).getD ([] : Group)).length == 0)
    rw [hgv p hp]
  have hdg2 := hdg
  unfold diffDelGroupB at hdg2
  rw [Bool.or_eq_false_iff] at hdg2
  obtain ⟨hd1, hd2⟩ := hdg2
  unfold diffDelGroupB
  rw [hA1, Bool.or_eq_false_iff]
  constructor
  · cases hkB : keptB keep D supgrp g
    · rw [idem_keptB_false keep D hWF hD0 hsup hpres hdg hkB]
      rw [Bool.false_and]
    · rw [hkB, Bool.true_and] at hd1
      rw [htr1, hd1, Bool.and_false]
  · rw [htr2]
    exact hd2

/-- C3: nmldiff is idempotent on well-formed DocumentSets: running diff a
second time (with the same keep token) changes nothing. -/
theorem nmldiff_idempotent (D : DocSet) (hWF : DocSetWF D) (keep : String) :
    nmldiff (nmldiff D keep) keep = nmldiff D keep := by
  by_cases hD0 : D = []
  · subst hD0
    rfl
  · have hWF2 : DocSetWF (nmldiff D keep) := nmldiff_WF keep hWF
    have hstep : ∀ ge ∈ superset (nmldiff D keep), ∀ doc : Document,
        diffActStep keep (nmldiff D keep) ge doc = doc := by
      intro ge hge doc
      unfold diffActStep
      by_cases hpres2 : gPresentAll (nmldiff D keep) ge.1 = true
      · simp only [hpres2, if_true]
        obtain ⟨supgrp, hsup, hpresD, hdgD⟩ := idem_pass1_facts keep D hWF hD0 hpres2
        have hdg2 : diffDelGroupB keep (nmldiff D keep) ge.1 ge.2 = false :=
          idem_delGroup_false keep D hWF hD0 ge.2 hsup hpresD hdgD
        simp only [hdg2, Bool.false_eq_true, if_false]
        have hfid : ∀ grp : Group, grp.filter
            (fun e => !(candDel keep (nmldiff D keep) ge.2 ge.1 e.1)) = grp := by
          intro grp
          apply List.filter_eq_self.mpr
          intro a _
          rw [idem_no_candDel keep D hWF hD0 hsup hpresD hdgD a.1]
          rfl
        rw [amodify_congr (fun x _ => hfid x), amodify_id]
      · have h2 : gPresentAll (nmldiff D keep) ge.1 = false :=
          Bool.eq_false_iff.mpr hpres2
        simp [h2]
    rw [nmldiff_eq_map keep (nmldiff D keep) hWF2]
    have hid : ∀ p ∈ nmldiff D keep,
        ((p.1, diffOutDoc keep (nmldiff D keep) p.2) : String × Document) = p := by
      intro p hp
      have h1 : diffOutDoc keep (nmldiff D keep) p.2 = p.2 := by
        unfold diffOutDoc
        exact diffFold_id keep (nmldiff D keep) (superset (nmldiff D keep)) p.2
          (fun ge hge d => hstep ge hge d)
      rw [h1]
    rw [List.map_congr_left hid]
    simp

def exampleIdem : DocSet :=
  [("a", [("g", [("x", NmlValue.vint 1), ("y", NmlValue.vint 3)])]),
   ("b", [("g", [("x", NmlValue.vint 2), ("y", NmlValue.vint 3)])])]

theorem nmldiff_idempotent_witness :
    nmldiff (nmldiff exampleIdem "k") "k" = nmldiff exampleIdem "k" :=
  nmldiff_idempotent exampleIdem (by decide) "k"

/-! ## Refinement of nmlprune to a greedy chain -/

theorem keys_delvarFromAll (D : DocSet) (g v : String) :
    (delvarFromAll D g v).map Prod.fst = D.map Prod.fst := by
  unfold delvarFromAll
  rw [List.map_map]
  rfl

theorem keys_delgroupFromAll (D : DocSet) (g : String) :
    (delgroupFromAll D g).map Prod.fst = D.map Prod.fst := by
  unfold delgroupFromAll
  rw [List.map_map]
  rfl

theorem keys_diffVarStep (keep g : String) (supgrp : Group) (st : DocSet × Bool)
    (v : String) :
    ((diffVarStep keep g supgrp st v).1).map Prod.fst = st.1.map Prod.fst := by
  simp only [diffVarStep]
  split_ifs <;> simp [keys_delvarFromAll]

theorem keys_varFold (keep g : String) (supgrp : Group) :
    ∀ (vs : List String) (st : DocSet × Bool),
      ((vs.foldl (diffVarStep keep g supgrp) st).1).map Prod.fst =
        st.1.map Prod.fst := by
  intro vs
  induction vs with
  | nil => intro st; rfl
  | cons v t ih =>
    intro st
    rw [List.foldl_cons, ih (diffVarStep keep g supgrp st v), keys_diffVarStep]

theorem keys_diffGroup (keep : String) (st : DocSet) (ge : String × Group) :
    (diffGroup keep st ge).map Prod.fst = st.map Prod.fst := by
  simp only [diffGroup]
  split_ifs <;>
    simp [keys_delgroupFromAll, keys_varFold keep ge.1 ge.2 (ge.2.map Prod.fst) (st, false)]

theorem nmldiff_keys (D : DocSet) (keep : String) :
    (nmldiff D keep).map Prod.fst = D.map Prod.fst := by
  unfold nmldiff
  generalize superset D = es
  induction es generalizing D with
  | nil => rfl
  | cons ge t ih =>
    rw [List.foldl_cons]
    rw [ih (diffGroup keep D ge)]
    exact keys_diffGroup keep D ge

theorem applyIgnore_keys (ignore : List (String × List String)) (P : DocSet) :
    (applyIgnore ignore P).map Prod.fst = P.map Prod.fst := by
  have inner : ∀ (vs : List String) (g : String) (Q : DocSet),
      ((vs.foldl (fun pair v => pair.map (fun p =>
        (p.1, amodify p.2 g (fun grp => adel grp v)))) Q).map Prod.fst) =
      Q.map Prod.fst := by
    intro vs
    induction vs with
    | nil => intro g Q; rfl
    | cons v t ih =>
      intro g Q
      rw [List.foldl_cons, ih g, List.map_map]
      rfl
  unfold applyIgnore
  induction ignore generalizing P with
  | nil => rfl
  | cons gv t ih =>
    rw [List.foldl_cons, ih]
    exact inner gv.2 gv.1 P

theorem adel_append {α : Type} (xs ys : List (String × α)) (q : String × α)
    (h : ¬ q.1 ∈ xs.map Prod.fst) : adel (xs ++ q :: ys) q.1 = xs ++ ys := by
  induction xs with
  | nil =>
    show adel (q :: ys) q.1 = ys
    obtain ⟨k, v⟩ := q
    simp [adel]
  | cons x t ih =>
    have hx : ¬ x.1 = q.1 := by
      intro hc
      exact h (by simp [← hc])
    obtain ⟨k1, v1⟩ := x
    show adel ((k1, v1) :: (t ++ q :: ys)) q.1 = (k1, v1) :: (t ++ ys)
    unfold adel
    rw [if_neg hx]
    rw [ih (fun hc => h (List.mem_cons_of_mem _ hc))]

/-- The comparison nmlprune makes for one adjacent pair (from the spec text:
the pair is diff-equivalent after deleting the ignore-listed entries from
the comparison copies). -/
def pairEquiv (ignore : List (String × List String))
    (p q : String × Document) : Bool :=
  pymax0 ((nmldiff (applyIgnore ignore [p, q]) "").map (fun r => r.2.length)) == 0

/-- Specification of the pruning chain (from the spec text): drop a document
diff-equivalent to the nearest preceding surviving document, keep it (and
chain from it) otherwise. -/
def pruneGreedy (ignore : List (String × List String)) :
    (String × Document) → List (String × Document) → List (String × Document)
  | _, [] => []
  | last, q :: rest =>
    if pairEquiv ignore last q then pruneGreedy ignore last rest
    else q :: pruneGreedy ignore q rest

/-- Specification of nmlprune (from the spec text). -/
def nmlpruneSpec (D : DocSet) (ignore : List (String × List String)) : DocSet :=
  match D with
  | [] => []
  | [p] => [p]
  | p :: rest => p :: pruneGreedy ignore p rest

theorem not_mem_of_nodup_append_cons {α : Type} {xs ys : List α} {y z : α}
    (h : (xs ++ y :: z :: ys).Nodup) : ¬ z ∈ xs ++ [y] := by
  have h2 : (xs ++ y :: z :: ys) = (xs ++ [y]) ++ z :: ys := by simp
  rw [h2] at h
  intro hz
  exact (List.disjoint_of_nodup_append h) hz (List.mem_cons_self _ _)

theorem pruneLoop_char (ignore : List (String × List String)) :
    ∀ (t : List (String × Document)) (done : DocSet) (last q : String × Document)
      (fuel : Nat),
      t.length + 1 ≤ fuel →
      ((done ++ last :: q :: t).map Prod.fst).Nodup →
      pruneLoopF ignore fuel (done ++ last :: q :: t) done.length =
        done ++ last :: pruneGreedy ignore last (q :: t) := by
  intro t
  induction t with
  | nil =>
    intro done last q fuel hfuel hnd
    cases fuel with
    | zero => omega
    | succ f =>
      simp only [pruneLoopF]
      rw [List.drop_left]
      have htake : ((last :: q :: [] : DocSet).take 2) = [last, q] := rfl
      rw [htake]
      have hkeys : (nmldiff (applyIgnore ignore [last, q]) "").map Prod.fst =
          [last.1, q.1] := by
        rw [nmldiff_keys, applyIgnore_keys]
        rfl
      have hkeysnd : ((done ++ last :: q :: ([] : List (String × Document))).map
          Prod.fst) = done.map Prod.fst ++ last.1 :: q.1 :: [] := by simp
      rw [hkeysnd] at hnd
      have hqn : ¬ q.1 ∈ done.map Prod.fst ++ [last.1] :=
        not_mem_of_nodup_append_cons hnd
      cases hEq : pairEquiv ignore last q with
      | true =>
        have hEq2 := hEq
        unfold pairEquiv at hEq2
        rw [hEq2]
        simp only [if_true]
        rw [hkeys]
        have hgd : ([last.1, q.1].getD 1 "") = q.1 := rfl
        rw [hgd]
        have hsplit : done ++ last :: q :: ([] : List (String × Document)) =
            (done ++ [last]) ++ q :: [] := by simp
        rw [hsplit]
        rw [adel_append (done ++ [last]) [] q (by simpa using hqn)]
        have hc : (done.length : Int) > (((done ++ [last]) ++
            ([] : List (String × Document))).length : Int) - 2 := by
          simp only [List.length_append, List.length_cons, List.length_nil,
            List.append_nil]
          omega
        rw [if_pos hc]
        simp [pruneGreedy, hEq]
      | false =>
        have hEq2 := hEq
        unfold pairEquiv at hEq2
        rw [hEq2]
        simp only [Bool.false_eq_true, if_false]
        have hc : ((done.length : Int) + 1) > (((done ++ last :: q ::
            ([] : List (String × Document))).length : Int)) - 2 := by
          simp only [List.length_append, List.length_cons, List.length_nil]
          omega
        rw [if_pos hc]
        simp [pruneGreedy, hEq]
  | cons q2 t' ih =>
    intro done last q fuel hfuel hnd
    cases fuel with
    | zero => omega
    | succ f =>
      simp only [pruneLoopF]
      rw [List.drop_left]
      have htake : ((last :: q :: q2 :: t' : DocSet).take 2) = [last, q] := rfl
      rw [htake]
      have hkeys : (nmldiff (applyIgnore ignore [last, q]) "").map Prod.fst =
          [last.1, q.1] := by
        rw [nmldiff_keys, applyIgnore_keys]
        rfl
      have hkeysnd : ((done ++ last :: q :: q2 :: t').map Prod.fst) =
          done.map Prod.fst ++ last.1 :: q.1 :: (q2 :: t').map Prod.fst := by simp
      have hnd2 := hnd
      rw [hkeysnd] at hnd2
      have hqn : ¬ q.1 ∈ done.map Prod.fst ++ [last.1] :=
        not_mem_of_nodup_append_cons hnd2
      cases hEq : pairEquiv ignore last q with
      | true =>
        have hEq2 := hEq
        unfold pairEquiv at hEq2
        rw [hEq2]
        simp only [if_true]
        rw [hkeys]
        have hgd : ([last.1, q.1].getD 1 "") = q.1 := rfl
        rw [hgd]
        have hsplit : done ++ last :: q :: q2 :: t' =
            (done ++ [last]) ++ q :: q2 :: t' := by simp
        rw [hsplit]
        rw [adel_append (done ++ [last]) (q2 :: t') q (by simpa using hqn)]
        have hc : ¬ ((done.length : Int) > (((done ++ [last]) ++
            q2 :: t').length : Int) - 2) := by
          simp only [List.length_append, List.length_cons, List.length_nil]
          omega
        rw [if_neg hc]
        have hre : (done ++ [last]) ++ q2 :: t' = done ++ last :: q2 :: t' := by simp
        rw [hre]
        have hndnew : ((done ++ last :: q2 :: t').map Prod.fst).Nodup := by
          have hsub : List.Sublist (done ++ last :: q2 :: t')
              (done ++ last :: q :: q2 :: t') :=
            List.Sublist.append_left
              (((List.Sublist.refl (q2 :: t')).cons q).cons₂ last) done
          exact (hsub.map Prod.fst).nodup hnd
        rw [ih done last q2 f
          (by simp only [List.length_cons] at hfuel ⊢; omega) hndnew]
        have hpg : pruneGreedy ignore last (q :: q2 :: t') =
            pruneGreedy ignore last (q2 :: t') := by
          show (if pairEquiv ignore last q then pruneGreedy ignore last (q2 :: t')
            else q :: pruneGreedy ignore q (q2 :: t')) = _
          rw [hEq]
          simp
        rw [hpg]
      | false =>
        have hEq2 := hEq
        unfold pairEquiv at hEq2
        rw [hEq2]
        simp only [Bool.false_eq_true, if_false]
        have hc : ¬ (((done.length : Int) + 1) > (((done ++ last :: q ::
            q2 :: t').length : Int)) - 2) := by
          simp only [List.length_append, List.length_cons, List.length_nil]
          omega
        rw [if_neg hc]
        have hre : done ++ last :: q :: q2 :: t' =
            (done ++ [last]) ++ q :: q2 :: t' := by simp
        have hlen : done.length + 1 = (done ++ [last]).length := by simp
        rw [hre, hlen]
        have hndnew : (((done ++ [last]) ++ q :: q2 :: t').map Prod.fst).Nodup := by
          rw [← hre]
          exact hnd
        rw [ih (done ++ [last]) q q2 f
          (by simp only [List.length_cons] at hfuel ⊢; omega) hndnew]
        have hpg : pruneGreedy ignore last (q :: q2 :: t') =
            q :: pruneGreedy ignore q (q2 :: t') := by
          show (if pairEquiv ignore last q then pruneGreedy ignore last (q2 :: t')
            else q :: pruneGreedy ignore q (q2 :: t')) = _
          rw [hEq]
          simp
        rw [hpg]
        simp

/-- C5: on a DocumentSet with distinct source names, nmlprune equals the
spec's greedy left-to-right chain: scanning in order, a document that is
diff-equivalent (after deleting the ignore-listed entries from comparison
copies only) to the nearest preceding surviving document is dropped and the
survivor is kept unchanged; otherwise the document survives and later
comparisons chain from it; DocumentSets of size at most 1 are untouched. -/
theorem nmlprune_exact (D : DocSet) (ignore : List (String × List String))
    (hnd : (D.map Prod.fst).Nodup) :
    nmlprune D ignore = nmlpruneSpec D ignore := by
  unfold nmlprune
  cases D with
  | nil => simp [nmlpruneSpec]
  | cons p rest =>
    cases rest with
    | nil => simp [nmlpruneSpec]
    | cons q t =>
      have hlen : (p :: q :: t : DocSet).length > 1 := by simp
      rw [if_pos hlen]
      have h1 := pruneLoop_char ignore t [] p q (2 * (p :: q :: t).length)
        (by simp only [List.length_cons]; omega) (by simpa using hnd)
      simpa [nmlpruneSpec] using h1

def examplePrune : DocSet :=
  [("a", [("g", [("x", NmlValue.vint 1)])]),
   ("b", [("g", [("x", NmlValue.vint 1)])]),
   ("c", [("g", [("x", NmlValue.vint 2)])])]

theorem nmlprune_exact_witness :
    nmlprune examplePrune [] = nmlpruneSpec examplePrune [] :=
  nmlprune_exact examplePrune [] (by decide)

/-! ## Determinism and ordering of strnmldict -/

/-- Order-insensitive equality of two documents (same groups present, same
value for every group variable), as a decidable test over the entries. -/
def docEquivB (d1 d2 : Document) : Bool :=
  d1.all (fun ge => amem d2 ge.1) && d2.all (fun ge => amem d1 ge.1) &&
  d1.all (fun ge => ge.2.all (fun e => dvlookup d2 ge.1 e.1 == some e.2)) &&
  d2.all (fun ge => ge.2.all (fun e => dvlookup d1 ge.1 e.1 == some e.2))

/-- Same source names in the same order, and positionally order-insensitively
equal documents. -/
def dsEquivB (D1 D2 : DocSet) : Bool :=
  (D1.map Prod.fst == D2.map Prod.fst) && (D1.length == D2.length) &&
  (D1.zip D2).all (fun pq => docEquivB pq.1.2 pq.2.2)

/-- The document-level consequences used throughout: equal group presence
and equal variable values. -/
def DocEq (d1 d2 : Document) : Prop :=
  (∀ g, (alookup d1 g).isSome = (alookup d2 g).isSome) ∧
  (∀ g v, dvlookup d1 g v = dvlookup d2 g v)

/-- DocumentSet-level equivalence: equal source lists and positionally
equivalent documents. -/
def DsEq (D1 D2 : DocSet) : Prop :=
  D1.map Prod.fst = D2.map Prod.fst ∧
    List.Forall₂ (fun p q => DocEq p.2 q.2) D1 D2

theorem docEquivB_DocEq {d1 d2 : Document} (h : docEquivB d1 d2 = true) :
    DocEq d1 d2 := by
  unfold docEquivB at h
  rw [Bool.and_eq_true, Bool.and_eq_true, Bool.and_eq_true] at h
  obtain ⟨⟨⟨h1, h2⟩, h3⟩, h4⟩ := h
  rw [List.all_eq_true] at h1 h2 h3 h4
  constructor
  · intro g
    cases hg1 : alookup d1 g with
    | some grp =>
      have ha := h1 (g, grp) (alookup_mem hg1)
      unfold amem at ha
      rw [ha]
      rfl
    | none =>
      cases hg2 : alookup d2 g with
      | some grp2 =>
        exfalso
        have ha := h2 (g, grp2) (alookup_mem hg2)
        unfold amem at ha
        rw [hg1] at ha
        cases ha
      | none => rfl
  · intro g v
    cases hv1 : dvlookup d1 g v with
    | some x =>
      have hg : ∃ grp, alookup d1 g = some grp ∧ alookup grp v = some x := by
        rw [dvlookup_eq_getD] at hv1
        cases hG : alookup d1 g with
        | none =>
          rw [hG] at hv1
          cases hv1
        | some grp =>
          rw [hG] at hv1
          exact ⟨grp, rfl, by simpa using hv1⟩
      obtain ⟨grp, hG, hGv⟩ := hg
      have h3a := h3 (g, grp) (alookup_mem hG)
      rw [List.all_eq_true] at h3a
      have h3b := h3a (v, x) (alookup_mem hGv)
      have h5 : dvlookup d2 g v = some x := eq_of_beq h3b
      rw [h5]
    | none =>
      cases hv2 : dvlookup d2 g v with
      | some y =>
        exfalso
        have hg : ∃ grp, alookup d2 g = some grp ∧ alookup grp v = some y := by
          rw [dvlookup_eq_getD] at hv2
          cases hG : alookup d2 g with
          | none =>
            rw [hG] at hv2
            cases hv2
          | some grp =>
            rw [hG] at hv2
            exact ⟨grp, rfl, by simpa using hv2⟩
        obtain ⟨grp, hG, hGv⟩ := hg
        have h4a := h4 (g, grp) (alookup_mem hG)
        rw [List.all_eq_true] at h4a
        have h4b := h4a (v, y) (alookup_mem hGv)
        have h5 : dvlookup d1 g v = some y := eq_of_beq h4b
        rw [h5] at hv1
        cases hv1
      | none => rfl

theorem dsEquivB_DsEq {D1 D2 : DocSet} (h : dsEquivB D1 D2 = true) :
    DsEq D1 D2 := by
  unfold dsEquivB at h
  rw [Bool.and_eq_true, Bool.and_eq_true] at h
  obtain ⟨⟨hk, hl⟩, hz⟩ := h
  refine ⟨eq_of_beq hk, ?_⟩
  rw [List.forall₂_iff_zip]
  refine ⟨by simpa using hl, ?_⟩
  intro a b hab
  exact docEquivB_DocEq (List.all_eq_true.mp hz (a, b) hab)

theorem DsEq_len {D1 D2 : DocSet} (hE : DsEq D1 D2) : D1.length = D2.length :=
  hE.2.length_eq

theorem DsEq_zip {D1 D2 : DocSet} (hE : DsEq D1 D2) :
    ∀ a b, (a, b) ∈ D1.zip D2 → DocEq a.2 b.2 :=
  fun _ _ hab => (List.forall₂_iff_zip.mp hE.2).2 hab

theorem bool_eq_of_iff {a b : Bool} (h : a = true ↔ b = true) : a = b := by
  cases a <;> cases b <;> simp_all

theorem all_eq_of_zip {β : Type} :
    ∀ (l1 l2 : List β) (f1 f2 : β → Bool), l1.length = l2.length →
      (∀ a b, (a, b) ∈ l1.zip l2 → f1 a = f2 b) → l1.all f1 = l2.all f2 := by
  intro l1
  induction l1 with
  | nil =>
    intro l2 f1 f2 hl _
    cases l2 with
    | nil => rfl
    | cons b t2 => simp at hl
  | cons a t ih =>
    intro l2 f1 f2 hl hp
    cases l2 with
    | nil => simp at hl
    | cons b t2 =>
      simp only [List.all_cons]
      rw [hp a b (by rw [List.zip_cons_cons]; exact List.mem_cons_self _ _),
        ih t2 f1 f2 (by simpa using hl)
          (fun x y hxy => hp x y
            (by rw [List.zip_cons_cons]; exact List.mem_cons_of_mem _ hxy))]

theorem any_eq_of_zip {β : Type} :
    ∀ (l1 l2 : List β) (f1 f2 : β → Bool), l1.length = l2.length →
      (∀ a b, (a, b) ∈ l1.zip l2 → f1 a = f2 b) → l1.any f1 = l2.any f2 := by
  intro l1
  induction l1 with
  | nil =>
    intro l2 f1 f2 hl _
    cases l2 with
    | nil => rfl
    | cons b t2 => simp at hl
  | cons a t ih =>
    intro l2 f1 f2 hl hp
    cases l2 with
    | nil => simp at hl
    | cons b t2 =>
      simp only [List.any_cons]
      rw [hp a b (by rw [List.zip_cons_cons]; exact List.mem_cons_self _ _),
        ih t2 f1 f2 (by simpa using hl)
          (fun x y hxy => hp x y
            (by rw [List.zip_cons_cons]; exact List.mem_cons_of_mem _ hxy))]

theorem lastVal_eq_of_zip :
    ∀ (D1 D2 : DocSet), D1.length = D2.length →
      (∀ a b, (a, b) ∈ D1.zip D2 → DocEq a.2 b.2) →
      ∀ g v, lastVal D1 g v = lastVal D2 g v := by
  intro D1
  induction D1 with
  | nil =>
    intro D2 hl _ g v
    cases D2 with
    | nil => rfl
    | cons q t2 => simp at hl
  | cons p t ih =>
    intro D2 hl hz g v
    cases D2 with
    | nil => simp at hl
    | cons q t2 =>
      show (match lastVal t g v with
        | some x => some x
        | none => dvlookup p.2 g v) = (match lastVal t2 g v with
        | some x => some x
        | none => dvlookup q.2 g v)
      rw [ih t2 (by simpa using hl)
        (fun a b hab => hz a b
          (by rw [List.zip_cons_cons]; exact List.mem_cons_of_mem _ hab)) g v]
      cases lastVal t2 g v with
      | some x => rfl
      | none =>
        show dvlookup p.2 g v = dvlookup q.2 g v
        exact (hz p q (by rw [List.zip_cons_cons]; exact List.mem_cons_self _ _)).2 g v

theorem gPresentAll_eq {D1 D2 : DocSet} (hE : DsEq D1 D2) (g : String) :
    gPresentAll D1 g = gPresentAll D2 g := by
  unfold gPresentAll
  apply all_eq_of_zip D1 D2 _ _ (DsEq_len hE)
  intro a b hab
  unfold amem
  rw [(DsEq_zip hE a b hab).1 g]

theorem sup_pres {D1 D2 : DocSet} (hE : DsEq D1 D2) (g : String) :
    (alookup (superset D1) g).isSome = (alookup (superset D2) g).isSome := by
  apply bool_eq_of_iff
  rw [alookup_isSome_iff_mem_keys, alookup_isSome_iff_mem_keys,
    superset_mem_keys, superset_mem_keys]
  have hany : D1.any (fun p => amem p.2 g) = D2.any (fun p => amem p.2 g) := by
    apply any_eq_of_zip D1 D2 _ _ (DsEq_len hE)
    intro a b hab
    unfold amem
    rw [(DsEq_zip hE a b hab).1 g]
  constructor
  · rintro ⟨p, hp, hgp⟩
    have h1 : D1.any (fun p => amem p.2 g) = true :=
      List.any_eq_true.mpr ⟨p, hp, amem_keys.mpr hgp⟩
    rw [hany] at h1
    obtain ⟨q, hq, hgq⟩ := List.any_eq_true.mp h1
    exact ⟨q, hq, amem_keys.mp hgq⟩
  · rintro ⟨q, hq, hgq⟩
    have h1 : D2.any (fun p => amem p.2 g) = true :=
      List.any_eq_true.mpr ⟨q, hq, amem_keys.mpr hgq⟩
    rw [← hany] at h1
    obtain ⟨p, hp, hgp⟩ := List.any_eq_true.mp h1
    exact ⟨p, hp, amem_keys.mp hgp⟩

theorem sup_val {D1 D2 : DocSet} (hWF1 : DocSetWF D1) (hWF2 : DocSetWF D2)
    (hE : DsEq D1 D2) (g v : String) :
    alookup ((alookup (superset D1) g).getD []) v =
      alookup ((alookup (superset D2) g).getD []) v := by
  cases h1 : alookup (superset D1) g with
  | none =>
    have hp := sup_pres hE g
    rw [h1] at hp
    cases h2 : alookup (superset D2) g with
    | none => rfl
    | some s2 =>
      rw [h2] at hp
      cases hp
  | some s1 =>
    have hp := sup_pres hE g
    rw [h1] at hp
    cases h2 : alookup (superset D2) g with
    | none =>
      rw [h2] at hp
      cases hp
    | some s2 =>
      simp only [Option.getD_some]
      rw [svlookup_via_keys h1, svlookup_via_keys h2,
        svlookup_eq_lastVal hWF1, svlookup_eq_lastVal hWF2]
      exact lastVal_eq_of_zip D1 D2 (DsEq_len hE) (DsEq_zip hE) g v

theorem sup_keys_perm {D1 D2 : DocSet} (hWF1 : DocSetWF D1) (hWF2 : DocSetWF D2)
    (hE : DsEq D1 D2) {g : String} {s1 s2 : Group}
    (h1 : alookup (superset D1) g = some s1)
    (h2 : alookup (superset D2) g = some s2) :
    (s1.map Prod.fst).Perm (s2.map Prod.fst) := by
  have nd1 : (s1.map Prod.fst).Nodup :=
    (superset_DocWF hWF1).2 (g, s1) (alookup_mem h1)
  have nd2 : (s2.map Prod.fst).Nodup :=
    (superset_DocWF hWF2).2 (g, s2) (alookup_mem h2)
  apply (List.perm_ext_iff_of_nodup nd1 nd2).mpr
  intro v
  rw [← alookup_isSome_iff_mem_keys, ← alookup_isSome_iff_mem_keys]
  have hv := sup_val hWF1 hWF2 hE g v
  rw [h1, h2] at hv
  simp only [Option.getD_some] at hv
  rw [hv]

theorem pysorted_perm_eq {l1 l2 : List String} (h : l1.Perm l2) :
    pysorted l1 = pysorted l2 := by
  unfold pysorted
  exact List.eq_of_perm_of_sorted
    (((List.perm_insertionSort _ l1).trans h).trans
      (List.perm_insertionSort _ l2).symm)
    (List.sorted_insertionSort _ l1)
    (List.sorted_insertionSort _ l2)

theorem pymax0_perm {l1 l2 : List Nat} (h : l1.Perm l2) :
    pymax0 l1 = pymax0 l2 := by
  unfold pymax0
  exact h.foldl_op_eq

theorem doc_grp_keys_perm {d1 d2 : Document} (hd1 : DocWF d1) (hd2 : DocWF d2)
    (hq : DocEq d1 d2) (g : String) :
    (((alookup d1 g).getD []).map Prod.fst).Perm
      (((alookup d2 g).getD []).map Prod.fst) := by
  apply (List.perm_ext_iff_of_nodup (docWF_gview hd1 g) (docWF_gview hd2 g)).mpr
  intro v
  rw [← alookup_isSome_iff_mem_keys, ← alookup_isSome_iff_mem_keys]
  have hv := hq.2 g v
  rw [dvlookup_eq_getD, dvlookup_eq_getD] at hv
  rw [hv]

theorem keys_filter_not {α : Type} (m : List (String × α)) (P : String → Bool) :
    (m.filter (fun e => !(P e.1))).map Prod.fst =
      (m.map Prod.fst).filter (fun w => !(P w)) := by
  induction m with
  | nil => rfl
  | cons e t ih => cases hR : P e.1 <;> simp [List.filter_cons, hR, ih]

theorem filt_keys_perm {d1 d2 : Document} (hd1 : DocWF d1) (hd2 : DocWF d2)
    (hq : DocEq d1 d2) {P1 P2 : String → Bool} (hP : ∀ w, P1 w = P2 w)
    (g : String) :
    ((((alookup d1 g).getD []).filter (fun e => !(P1 e.1))).map Prod.fst).Perm
      ((((alookup d2 g).getD []).filter (fun e => !(P2 e.1))).map Prod.fst) := by
  rw [keys_filter_not ((alookup d1 g).getD []) P1,
    keys_filter_not ((alookup d2 g).getD []) P2]
  have hcongr : (((alookup d2 g).getD []).map Prod.fst).filter (fun w => !(P1 w)) =
      (((alookup d2 g).getD []).map Prod.fst).filter (fun w => !(P2 w)) :=
    List.filter_congr (fun w _ => by rw [hP w])
  rw [← hcongr]
  exact (doc_grp_keys_perm hd1 hd2 hq g).filter _

theorem contains_eq_isSome {α : Type} (m : List (String × α)) (k : String) :
    ((m.map Prod.fst).contains k) = (alookup m k).isSome := by
  induction m with
  | nil => rfl
  | cons e t ih =>
    obtain ⟨k1, v1⟩ := e
    rw [List.map_cons, List.contains_cons]
    by_cases h : k1 = k
    · subst h
      simp [alookup]
    · have hbk : (k == k1) = false := beq_eq_false_iff_ne.mpr (Ne.symm h)
      rw [hbk, Bool.false_or, ih]
      show _ = (alookup ((k1, v1) :: t) k).isSome
      simp [alookup, h]

theorem vPresentAll_eq {D1 D2 : DocSet} (hE : DsEq D1 D2) (g v : String) :
    vPresentAll D1 g v = vPresentAll D2 g v := by
  unfold vPresentAll
  apply all_eq_of_zip D1 D2 _ _ (DsEq_len hE)
  intro a b hab
  have hv := (DsEq_zip hE a b hab).2 g v
  rw [dvlookup_eq_getD, dvlookup_eq_getD] at hv
  rw [hv]

theorem vEqSup_eq {D1 D2 : DocSet} (hWF1 : DocSetWF D1) (hWF2 : DocSetWF D2)
    (hE : DsEq D1 D2) {g : String} {s1 s2 : Group}
    (h1 : alookup (superset D1) g = some s1)
    (h2 : alookup (superset D2) g = some s2) (v : String) :
    vEqSup D1 s1 g v = vEqSup D2 s2 g v := by
  have hsv : alookup s1 v = alookup s2 v := by
    have hh := sup_val hWF1 hWF2 hE g v
    rw [h1, h2] at hh
    simpa using hh
  unfold vEqSup
  apply all_eq_of_zip D1 D2 _ _ (DsEq_len hE)
  intro a b hab
  have hv := (DsEq_zip hE a b hab).2 g v
  rw [dvlookup_eq_getD, dvlookup_eq_getD] at hv
  rw [hv, hsv]

theorem candDel_eq {D1 D2 : DocSet} (hWF1 : DocSetWF D1) (hWF2 : DocSetWF D2)
    (hE : DsEq D1 D2) {keep g : String} {s1 s2 : Group}
    (h1 : alookup (superset D1) g = some s1)
    (h2 : alookup (superset D2) g = some s2) (v : String) :
    candDel keep D1 s1 g v = candDel keep D2 s2 g v := by
  have hsv : alookup s1 v = alookup s2 v := by
    have hh := sup_val hWF1 hWF2 hE g v
    rw [h1, h2] at hh
    simpa using hh
  unfold candDel
  rw [contains_eq_isSome, contains_eq_isSome, hsv,
    vPresentAll_eq hE g v, vEqSup_eq hWF1 hWF2 hE h1 h2 v]

theorem keptB_eq {D1 D2 : DocSet} (hWF1 : DocSetWF D1) (hWF2 : DocSetWF D2)
    (hE : DsEq D1 D2) {keep g : String} {s1 s2 : Group}
    (h1 : alookup (superset D1) g = some s1)
    (h2 : alookup (superset D2) g = some s2) :
    keptB keep D1 s1 g = keptB keep D2 s2 g := by
  have hsv : alookup s1 keep = alookup s2 keep := by
    have hh := sup_val hWF1 hWF2 hE g keep
    rw [h1, h2] at hh
    simpa using hh
  unfold keptB
  rw [contains_eq_isSome, contains_eq_isSome, hsv,
    vPresentAll_eq hE g keep, vEqSup_eq hWF1 hWF2 hE h1 h2 keep]

theorem ovkDoc_eq_of_keys_perm {keep : String} {l1 l2 : Group}
    (h : (l1.map Prod.fst).Perm (l2.map Prod.fst)) :
    ovkDoc keep l1 = ovkDoc keep l2 := by
  have hlen : l1.length = l2.length := by
    have hh := h.length_eq
    simpa using hh
  by_cases hone : l2.length = 1
  · have hone1 : l1.length = 1 := by rw [hlen, hone]
    obtain ⟨e1, he1⟩ : ∃ e1, l1 = [e1] := by
      cases l1 with
      | nil => simp at hone1
      | cons e t =>
        cases t with
        | nil => exact ⟨e, rfl⟩
        | cons e2 t2 => simp at hone1
    obtain ⟨e2, he2⟩ : ∃ e2, l2 = [e2] := by
      cases l2 with
      | nil => simp at hone
      | cons e t =>
        cases t with
        | nil => exact ⟨e, rfl⟩
        | cons e2 t2 => simp at hone
    subst he1
    subst he2
    have hk : e1.1 = e2.1 := by simpa using h
    have r : ∀ (e : String × NmlValue), ovkDoc keep [e] = (e.1 == keep) := by
      intro e
      simp [ovkDoc]
    rw [r e1, r e2, hk]
  · have h2f : (l2.length == 1) = false := by simpa using hone
    unfold ovkDoc
    rw [hlen, h2f]
    simp

theorem diffDelGroupB_eq {D1 D2 : DocSet} (hWF1 : DocSetWF D1)
    (hWF2 : DocSetWF D2) (hE : DsEq D1 D2) {keep g : String} {s1 s2 : Group}
    (h1 : alookup (superset D1) g = some s1)
    (h2 : alookup (superset D2) g = some s2) :
    diffDelGroupB keep D1 g s1 = diffDelGroupB keep D2 g s2 := by
  have hfp : ∀ a b, (a, b) ∈ D1.zip D2 →
      ((((alookup a.2 g).getD []).filter
        (fun e => !(candDel keep D1 s1 g e.1))).map Prod.fst).Perm
      ((((alookup b.2 g).getD []).filter
        (fun e => !(candDel keep D2 s2 g e.1))).map Prod.fst) := by
    intro a b hab
    obtain ⟨ha, hb⟩ := List.of_mem_zip hab
    exact filt_keys_perm (hWF1.2 a ha) (hWF2.2 b hb) (DsEq_zip hE a b hab)
      (candDel_eq hWF1 hWF2 hE h1 h2) g
  have hovk : (applyDel D1 g (candDel keep D1 s1 g)).all
      (fun p => ovkDoc keep ((alookup p.2 g).getD [])) =
      (applyDel D2 g (candDel keep D2 s2 g)).all
      (fun p => ovkDoc keep ((alookup p.2 g).getD [])) := by
    unfold applyDel
    rw [all_map', all_map']
    apply all_eq_of_zip D1 D2 _ _ (DsEq_len hE)
    intro a b hab
    show ovkDoc keep ((alookup (amodify a.2 g _) g).getD []) =
      ovkDoc keep ((alookup (amodify b.2 g _) g).getD [])
    rw [state_gview, state_gview]
    exact ovkDoc_eq_of_keys_perm (hfp a b hab)
  have hlen0 : (applyDel D1 g (candDel keep D1 s1 g)).all
      (fun p => ((alookup p.2 g).getD ([] : Group)).length == 0) =
      (applyDel D2 g (candDel keep D2 s2 g)).all
      (fun p => ((alookup p.2 g).getD ([] : Group)).length == 0) := by
    unfold applyDel
    rw [all_map', all_map']
    apply all_eq_of_zip D1 D2 _ _ (DsEq_len hE)
    intro a b hab
    show (((alookup (amodify a.2 g _) g).getD ([] : Group)).length == 0) =
      (((alookup (amodify b.2 g _) g).getD ([] : Group)).length == 0)
    rw [state_gview, state_gview]
    have hl : ((((alookup a.2 g).getD []).filter
        (fun e => !(candDel keep D1 s1 g e.1))).length) =
        ((((alookup b.2 g).getD []).filter
        (fun e => !(candDel keep D2 s2 g e.1))).length) := by
      have hh := (hfp a b hab).length_eq
      simpa using hh
    rw [hl]
  unfold diffDelGroupB
  rw [keptB_eq hWF1 hWF2 hE h1 h2]
  simp only [hovk, hlen0]

theorem diffOut_DocEq {D1 D2 : DocSet} (hWF1 : DocSetWF D1) (hWF2 : DocSetWF D2)
    (hE : DsEq D1 D2) (keep : String) {p q : String × Document}
    (hp : p ∈ D1) (hq : q ∈ D2) (hpq : DocEq p.2 q.2) :
    DocEq (diffOutDoc keep D1 p.2) (diffOutDoc keep D2 q.2) := by
  have hchar1 := fun g => diffOutDoc_lookup keep D1 hWF1 (hWF1.2 p hp).1 g
  have hchar2 := fun g => diffOutDoc_lookup keep D2 hWF2 (hWF2.2 q hq).1 g
  constructor
  · intro g
    rw [hchar1 g, hchar2 g]
    cases hs1 : alookup (superset D1) g with
    | none =>
      have hsp := sup_pres hE g
      rw [hs1] at hsp
      cases hs2 : alookup (superset D2) g with
      | none => exact hpq.1 g
      | some s2 =>
        rw [hs2] at hsp
        cases hsp
    | some s1 =>
      have hsp := sup_pres hE g
      rw [hs1] at hsp
      cases hs2 : alookup (superset D2) g with
      | none =>
        rw [hs2] at hsp
        cases hsp
      | some s2 =>
        simp only
        rw [← gPresentAll_eq hE g]
        by_cases hgp : gPresentAll D1 g = true
        · simp only [hgp, if_true]
          rw [diffDelGroupB_eq hWF1 hWF2 hE hs1 hs2]
          by_cases hdel : diffDelGroupB keep D2 g s2 = true
          · simp only [hdel, if_true]
          · have hdel' : diffDelGroupB keep D2 g s2 = false :=
              Bool.eq_false_iff.mpr hdel
            simp only [hdel', Bool.false_eq_true, if_false]
            rw [Option.isSome_map', Option.isSome_map']
            exact hpq.1 g
        · have hgp' : gPresentAll D1 g = false := Bool.eq_false_iff.mpr hgp
          simp only [hgp', Bool.false_eq_true, if_false]
          exact hpq.1 g
  · intro g v
    rw [dvlookup_eq_getD, dvlookup_eq_getD, hchar1 g, hchar2 g]
    have hbase : alookup ((alookup p.2 g).getD []) v =
        alookup ((alookup q.2 g).getD []) v := by
      have hv := hpq.2 g v
      rw [dvlookup_eq_getD, dvlookup_eq_getD] at hv
      exact hv
    cases hs1 : alookup (superset D1) g with
    | none =>
      have hsp := sup_pres hE g
      rw [hs1] at hsp
      cases hs2 : alookup (superset D2) g with
      | none => exact hbase
      | some s2 =>
        rw [hs2] at hsp
        cases hsp
    | some s1 =>
      have hsp := sup_pres hE g
      rw [hs1] at hsp
      cases hs2 : alookup (superset D2) g with
      | none =>
        rw [hs2] at hsp
        cases hsp
      | some s2 =>
        simp only
        rw [← gPresentAll_eq hE g]
        by_cases hgp : gPresentAll D1 g = true
        · simp only [hgp, if_true]
          rw [diffDelGroupB_eq hWF1 hWF2 hE hs1 hs2]
          by_cases hdel : diffDelGroupB keep D2 g s2 = true
          · simp only [hdel, if_true]
          · have hdel' : diffDelGroupB keep D2 g s2 = false :=
              Bool.eq_false_iff.mpr hdel
            simp only [hdel', Bool.false_eq_true, if_false]
            cases ha1 : alookup p.2 g with
            | none =>
              have hb1 := hpq.1 g
              rw [ha1] at hb1
              cases ha2 : alookup q.2 g with
              | none => rfl
              | some grp2 =>
                rw [ha2] at hb1
                cases hb1
            | some grp1 =>
              have hb1 := hpq.1 g
              rw [ha1] at hb1
              cases ha2 : alookup q.2 g with
              | none =>
                rw [ha2] at hb1
                cases hb1
              | some grp2 =>
                simp only [Option.map_some', Option.getD_some]
                rw [alookup_filter grp1 (fun w => !(candDel keep D1 s1 g w)) v,
                  alookup_filter grp2 (fun w => !(candDel keep D2 s2 g w)) v]
                rw [candDel_eq hWF1 hWF2 hE hs1 hs2 v]
                by_cases hc : candDel keep D2 s2 g v = true
                · simp [hc]
                · have hc' : candDel keep D2 s2 g v = false :=
                    Bool.eq_false_iff.mpr hc
                  simp only [hc', Bool.not_false, if_true]
                  rw [ha1, ha2] at hbase
                  simpa using hbase
        · have hgp' : gPresentAll D1 g = false := Bool.eq_false_iff.mpr hgp
          simp only [hgp', Bool.false_eq_true, if_false]
          exact hbase

theorem nmldiff_DsEq {D1 D2 : DocSet} (hWF1 : DocSetWF D1) (hWF2 : DocSetWF D2)
    (hE : DsEq D1 D2) (keep : String) :
    DsEq (nmldiff D1 keep) (nmldiff D2 keep) := by
  constructor
  · rw [nmldiff_keys, nmldiff_keys]
    exact hE.1
  · rw [nmldiff_eq_map keep D1 hWF1, nmldiff_eq_map keep D2 hWF2]
    rw [List.forall₂_iff_zip]
    constructor
    · simp [DsEq_len hE]
    · intro a b hab
      rw [List.zip_map] at hab
      obtain ⟨⟨p, q⟩, hpq, heq⟩ := List.mem_map.mp hab
      obtain ⟨hp, hq⟩ := List.of_mem_zip hpq
      have heq2 : ((p.1, diffOutDoc keep D1 p.2),
          (q.1, diffOutDoc keep D2 q.2)) = (a, b) := heq
      injection heq2 with ha hb
      subst ha
      subst hb
      exact diffOut_DocEq hWF1 hWF2 hE keep hp hq (DsEq_zip hE p q hpq)

theorem foldl_congr' {β γ : Type} (l : List γ) (f1 f2 : β → γ → β) (b : β)
    (h : ∀ acc x, f1 acc x = f2 acc x) : l.foldl f1 b = l.foldl f2 b := by
  induction l generalizing b with
  | nil => rfl
  | cons x t ih =>
    rw [List.foldl_cons, List.foldl_cons, h b x]
    exact ih (f2 b x)

theorem sup_keys_perm' {D1 D2 : DocSet} (hE : DsEq D1 D2) :
    ((superset D1).map Prod.fst).Perm ((superset D2).map Prod.fst) := by
  apply (List.perm_ext_iff_of_nodup (superset_nodup_keys D1)
    (superset_nodup_keys D2)).mpr
  intro g
  rw [← alookup_isSome_iff_mem_keys, ← alookup_isSome_iff_mem_keys, sup_pres hE g]

theorem sup_gkeys_sorted_eq {D1 D2 : DocSet} (hWF1 : DocSetWF D1)
    (hWF2 : DocSetWF D2) (hE : DsEq D1 D2) (g : String) :
    pysorted (((alookup (superset D1) g).getD []).map Prod.fst) =
      pysorted (((alookup (superset D2) g).getD []).map Prod.fst) := by
  cases h1 : alookup (superset D1) g with
  | none =>
    have hsp := sup_pres hE g
    rw [h1] at hsp
    cases h2 : alookup (superset D2) g with
    | none => rfl
    | some s2 =>
      rw [h2] at hsp
      cases hsp
  | some s1 =>
    have hsp := sup_pres hE g
    rw [h1] at hsp
    cases h2 : alookup (superset D2) g with
    | none =>
      rw [h2] at hsp
      cases hsp
    | some s2 =>
      simp only [Option.getD_some]
      exact pysorted_perm_eq (sup_keys_perm hWF1 hWF2 hE h1 h2)

theorem sortedPairs_eq {D1 D2 : DocSet} (hWF1 : DocSetWF D1)
    (hWF2 : DocSetWF D2) (hE : DsEq D1 D2) :
    sortedPairs (superset D1) = sortedPairs (superset D2) := by
  unfold sortedPairs
  rw [pysorted_perm_eq (sup_keys_perm' hE)]
  have hF : (fun g => (pysorted (((alookup (superset D1) g).getD []).map
      Prod.fst)).map (fun v => (g, v))) =
      (fun g => (pysorted (((alookup (superset D2) g).getD []).map
      Prod.fst)).map (fun v => (g, v))) := by
    funext g
    rw [sup_gkeys_sorted_eq hWF1 hWF2 hE g]
  rw [hF]

theorem byname_DocEq :
    ∀ (D1 D2 : DocSet), D1.map Prod.fst = D2.map Prod.fst →
      (∀ a b, (a, b) ∈ D1.zip D2 → DocEq a.2 b.2) →
      ∀ fn, DocEq ((alookup D1 fn).getD []) ((alookup D2 fn).getD []) := by
  intro D1
  induction D1 with
  | nil =>
    intro D2 hk _ fn
    cases D2 with
    | nil => exact ⟨fun g => rfl, fun g v => rfl⟩
    | cons q t2 => simp at hk
  | cons p t ih =>
    intro D2 hk hz fn
    cases D2 with
    | nil => simp at hk
    | cons q t2 =>
      simp only [List.map_cons, List.cons.injEq] at hk
      obtain ⟨hk1, hk2⟩ := hk
      obtain ⟨k1, d1⟩ := p
      obtain ⟨k2, d2⟩ := q
      have hk1' : k1 = k2 := hk1
      by_cases hfn : k1 = fn
      · have hfn2 : k2 = fn := by
          rw [← hk1']
          exact hfn
        show DocEq ((alookup ((k1, d1) :: t) fn).getD [])
          ((alookup ((k2, d2) :: t2) fn).getD [])
        unfold alookup
        rw [if_pos hfn, if_pos hfn2]
        exact hz (k1, d1) (k2, d2)
          (by rw [List.zip_cons_cons]; exact List.mem_cons_self _ _)
      · have hfn2 : ¬ k2 = fn := by
          rw [← hk1']
          exact hfn
        show DocEq ((alookup ((k1, d1) :: t) fn).getD [])
          ((alookup ((k2, d2) :: t2) fn).getD [])
        unfold alookup
        rw [if_neg hfn, if_neg hfn2]
        exact ih t2 hk2 (fun a b hab => hz a b
          (by rw [List.zip_cons_cons]; exact List.mem_cons_of_mem _ hab)) fn

theorem docOf_WF {D : DocSet} (hWF : DocSetWF D) (fn : String) :
    DocWF ((alookup D fn).getD []) := by
  cases h : alookup D fn with
  | none => exact ⟨List.nodup_nil, fun e he => by cases he⟩
  | some d =>
    simp only [Option.getD_some]
    have hm : (fn, d) ∈ D := alookup_mem h
    exact hWF.2 (fn, d) hm

theorem dssHas_eq {E1 E2 : DocSet} (hWF1 : DocSetWF E1) (hWF2 : DocSetWF E2)
    (hE : DsEq E1 E2) (g v : String) :
    dssHas (superset E1) g v = dssHas (superset E2) g v := by
  unfold dssHas
  have hsv := sup_val hWF1 hWF2 hE g v
  cases h1 : alookup (superset E1) g with
  | none =>
    have hsp := sup_pres hE g
    rw [h1] at hsp
    cases h2 : alookup (superset E2) g with
    | none => rfl
    | some s2 =>
      rw [h2] at hsp
      cases hsp
  | some s1 =>
    have hsp := sup_pres hE g
    rw [h1] at hsp
    cases h2 : alookup (superset E2) g with
    | none =>
      rw [h2] at hsp
      cases hsp
    | some s2 =>
      rw [h1, h2] at hsv
      simp only [Option.getD_some] at hsv
      unfold amem
      show (alookup s1 v).isSome = (alookup s2 v).isSome
      rw [hsv]

theorem pymax0_map_snd_eq {α : Type} (m1 m2 : List (String × α))
    (h1 : (m1.map Prod.fst).Nodup) (h2 : (m2.map Prod.fst).Nodup)
    (hperm : (m1.map Prod.fst).Perm (m2.map Prod.fst))
    (f1 f2 : α → Nat)
    (hFv : ∀ w, (match alookup m1 w with | some a => f1 a | none => 0) =
                (match alookup m2 w with | some a => f2 a | none => 0)) :
    pymax0 ((m1.map Prod.snd).map f1) = pymax0 ((m2.map Prod.snd).map f2) := by
  have e1 : (m1.map Prod.snd).map f1 = (m1.map Prod.fst).map
      (fun w => match alookup m1 w with | some a => f1 a | none => 0) := by
    rw [List.map_map, List.map_map]
    apply List.map_congr_left
    intro e he
    show f1 e.2 = (match alookup m1 e.1 with | some a => f1 a | none => 0)
    rw [alookup_fst_mem h1 he]
  have e2 : (m2.map Prod.snd).map f2 = (m2.map Prod.fst).map
      (fun w => match alookup m2 w with | some a => f2 a | none => 0) := by
    rw [List.map_map, List.map_map]
    apply List.map_congr_left
    intro e he
    show f2 e.2 = (match alookup m2 e.1 with | some a => f2 a | none => 0)
    rw [alookup_fst_mem h2 he]
  rw [e1, e2]
  have hFF : (fun w => match alookup m1 w with | some a => f1 a | none => 0) =
      (fun w => match alookup m2 w with | some a => f2 a | none => 0) :=
    funext hFv
  rw [hFF]
  exact pymax0_perm (hperm.map _)

theorem doc_keys_perm {d1 d2 : Document} (hd1 : DocWF d1) (hd2 : DocWF d2)
    (hq : DocEq d1 d2) : (d1.map Prod.fst).Perm (d2.map Prod.fst) := by
  apply (List.perm_ext_iff_of_nodup hd1.1 hd2.1).mpr
  intro g
  rw [← alookup_isSome_iff_mem_keys, ← alookup_isSome_iff_mem_keys, hq.1 g]

theorem grp_pymax0_vals_eq {grp1 grp2 : Group}
    (h1 : (grp1.map Prod.fst).Nodup) (h2 : (grp2.map Prod.fst).Nodup)
    (hperm : (grp1.map Prod.fst).Perm (grp2.map Prod.fst))
    (hlook : ∀ w, alookup grp1 w = alookup grp2 w) (f : NmlValue → Nat) :
    pymax0 ((grp1.map Prod.snd).map f) = pymax0 ((grp2.map Prod.snd).map f) := by
  apply pymax0_map_snd_eq grp1 grp2 h1 h2 hperm
  intro w
  rw [hlook w]

theorem perdoc_dwidth_eq {d1 d2 : Document} (hd1 : DocWF d1) (hd2 : DocWF d2)
    (hq : DocEq d1 d2) :
    pymax0 ((d1.map Prod.snd).map (fun g =>
      pymax0 ((g.map Prod.snd).map (fun x => (pyrepr x).length)))) =
    pymax0 ((d2.map Prod.snd).map (fun g =>
      pymax0 ((g.map Prod.snd).map (fun x => (pyrepr x).length)))) := by
  apply pymax0_map_snd_eq d1 d2 hd1.1 hd2.1 (doc_keys_perm hd1 hd2 hq)
  intro g
  have hgp := doc_grp_keys_perm hd1 hd2 hq g
  have hgl : ∀ w, alookup ((alookup d1 g).getD []) w =
      alookup ((alookup d2 g).getD []) w := by
    intro w
    have hv := hq.2 g w
    rw [dvlookup_eq_getD, dvlookup_eq_getD] at hv
    exact hv
  cases h1 : alookup d1 g with
  | none =>
    have hp := hq.1 g
    rw [h1] at hp
    cases h2 : alookup d2 g with
    | none => rfl
    | some grp2 =>
      rw [h2] at hp
      cases hp
  | some grp1 =>
    have hp := hq.1 g
    rw [h1] at hp
    cases h2 : alookup d2 g with
    | none =>
      rw [h2] at hp
      cases hp
    | some grp2 =>
      rw [h1, h2] at hgp hgl
      simp only [Option.getD_some] at hgp hgl
      show pymax0 ((grp1.map Prod.snd).map (fun x => (pyrepr x).length)) =
        pymax0 ((grp2.map Prod.snd).map (fun x => (pyrepr x).length))
      exact grp_pymax0_vals_eq
        (hd1.2 (g, grp1) (alookup_mem h1)) (hd2.2 (g, grp2) (alookup_mem h2))
        hgp hgl _

theorem gwidth_eq {D1 D2 : DocSet} (hE : DsEq D1 D2) :
    pymax0 (((superset D1).map Prod.fst).map String.length) =
      pymax0 (((superset D2).map Prod.fst).map String.length) :=
  pymax0_perm ((sup_keys_perm' hE).map String.length)

theorem vwidth_eq {D1 D2 : DocSet} (hWF1 : DocSetWF D1) (hWF2 : DocSetWF D2)
    (hE : DsEq D1 D2) :
    pymax0 (((superset D1).map Prod.snd).map (fun g =>
      pymax0 ((g.map Prod.fst).map String.length))) =
    pymax0 (((superset D2).map Prod.snd).map (fun g =>
      pymax0 ((g.map Prod.fst).map String.length))) := by
  apply pymax0_map_snd_eq _ _ (superset_nodup_keys D1) (superset_nodup_keys D2)
    (sup_keys_perm' hE)
  intro w
  cases h1 : alookup (superset D1) w with
  | none =>
    have hsp := sup_pres hE w
    rw [h1] at hsp
    cases h2 : alookup (superset D2) w with
    | none => rfl
    | some s2 =>
      rw [h2] at hsp
      cases hsp
  | some s1 =>
    have hsp := sup_pres hE w
    rw [h1] at hsp
    cases h2 : alookup (superset D2) w with
    | none =>
      rw [h2] at hsp
      cases hsp
    | some s2 =>
      show pymax0 ((s1.map Prod.fst).map String.length) =
        pymax0 ((s2.map Prod.fst).map String.length)
      exact pymax0_perm ((sup_keys_perm hWF1 hWF2 hE h1 h2).map String.length)

theorem dwidth_eq {D1 D2 : DocSet} (hWF1 : DocSetWF D1) (hWF2 : DocSetWF D2)
    (hE : DsEq D1 D2) :
    pymax0 ((D1.map Prod.fst).map (fun fn =>
      pymax0 ((((alookup D1 fn).getD []).map Prod.snd).map (fun g =>
        pymax0 ((g.map Prod.snd).map (fun x => (pyrepr x).length)))))) =
    pymax0 ((D2.map Prod.fst).map (fun fn =>
      pymax0 ((((alookup D2 fn).getD []).map Prod.snd).map (fun g =>
        pymax0 ((g.map Prod.snd).map (fun x => (pyrepr x).length)))))) := by
  have hF : (fun fn =>
      pymax0 ((((alookup D1 fn).getD []).map Prod.snd).map (fun g =>
        pymax0 ((g.map Prod.snd).map (fun x => (pyrepr x).length))))) =
      (fun fn =>
      pymax0 ((((alookup D2 fn).getD []).map Prod.snd).map (fun g =>
        pymax0 ((g.map Prod.snd).map (fun x => (pyrepr x).length))))) := by
    funext fn
    exact perdoc_dwidth_eq (docOf_WF hWF1 fn) (docOf_WF hWF2 fn)
      (byname_DocEq D1 D2 hE.1 (DsEq_zip hE) fn)
  rw [hE.1, hF]

theorem latexCell_congr {grp1 grp2 : Group}
    (h : ∀ w, alookup grp1 w = alookup grp2 w) (masterswitch v : String)
    (x : NmlValue) :
    latexCell grp1 masterswitch v x = latexCell grp2 masterswitch v x := by
  unfold latexCell
  rw [h masterswitch]

theorem strnmldictMd_congr (D1 D2 : DocSet) (nmlss1 nmlss2 : Document)
    (fnames : List String) (colwidth : Nat)
    (hlen : nmlss1.length = nmlss2.length)
    (hpairs : sortedPairs nmlss1 = sortedPairs nmlss2)
    (hdoc : ∀ fn, DocEq ((alookup D1 fn).getD []) ((alookup D2 fn).getD [])) :
    strnmldictMd D1 nmlss1 fnames colwidth =
      strnmldictMd D2 nmlss2 fnames colwidth := by
  unfold strnmldictMd
  rw [hlen, hpairs]
  by_cases hcc : nmlss2.length > 0
  · rw [if_pos hcc, if_pos hcc]
    simp only []
    congr 1
    apply foldl_congr'
    intro acc fn
    apply foldl_congr'
    intro acc2 gv
    rw [(hdoc fn).2 gv.1 gv.2]
  · rw [if_neg hcc, if_neg hcc]

theorem strnmldictDefault_congr (D1 D2 : DocSet) (nmlss1 nmlss2 : Document)
    (fnames : List String) (colwidth : Nat) (hide : List (String × List String))
    (hkeys : pysorted (nmlss1.map Prod.fst) = pysorted (nmlss2.map Prod.fst))
    (hgkeys : ∀ g, pysorted (((alookup nmlss1 g).getD []).map Prod.fst) =
      pysorted (((alookup nmlss2 g).getD []).map Prod.fst))
    (hdoc : ∀ fn, DocEq ((alookup D1 fn).getD []) ((alookup D2 fn).getD [])) :
    strnmldictDefault D1 nmlss1 fnames colwidth hide =
      strnmldictDefault D2 nmlss2 fnames colwidth hide := by
  unfold strnmldictDefault
  rw [hkeys]
  apply foldl_congr'
  intro st g
  rw [hgkeys g]
  apply foldl_congr'
  intro st2 v
  by_cases hh : hideHas hide g v = true
  · simp only [hh, if_true]
  · have hh' : hideHas hide g v = false := Bool.eq_false_iff.mpr hh
    simp only [hh', Bool.false_eq_true, if_false]
    apply foldl_congr'
    intro st3 fn
    rw [(hdoc fn).2 g v]

theorem strnmldictText_congr (D1 D2 : DocSet) (nmlss1 nmlss2 nmldss1 nmldss2 : Document)
    (fnames : List String) (hide : List (String × List String))
    (gwidth vwidth dwidth : Nat)
    (hkeys : pysorted (nmlss1.map Prod.fst) = pysorted (nmlss2.map Prod.fst))
    (hgkeys : ∀ g, pysorted (((alookup nmlss1 g).getD []).map Prod.fst) =
      pysorted (((alookup nmlss2 g).getD []).map Prod.fst))
    (hdss : ∀ g v, dssHas nmldss1 g v = dssHas nmldss2 g v)
    (hdoc : ∀ fn, DocEq ((alookup D1 fn).getD []) ((alookup D2 fn).getD [])) :
    strnmldictText D1 nmlss1 nmldss1 fnames hide gwidth vwidth dwidth =
      strnmldictText D2 nmlss2 nmldss2 fnames hide gwidth vwidth dwidth := by
  unfold strnmldictText
  rw [hkeys]
  apply foldl_congr'
  intro st g
  rw [hgkeys g]
  apply foldl_congr'
  intro st2 v
  by_cases hh : hideHas hide g v = true
  · simp only [hh, if_true]
  · have hh' : hideHas hide g v = false := Bool.eq_false_iff.mpr hh
    simp only [hh', Bool.false_eq_true, if_false]
    rw [hdss g v]
    apply foldl_congr'
    intro st3 fn
    rw [(hdoc fn).2 g v]

theorem latexTableRows_congr (D1 D2 : DocSet) (nmlss1 nmlss2 nmldss1 nmldss2 : Document)
    (fnames : List String) (masterswitch : String)
    (hide : List (String × List String))
    (hkeys : pysorted (nmlss1.map Prod.fst) = pysorted (nmlss2.map Prod.fst))
    (hgkeys : ∀ g, pysorted (((alookup nmlss1 g).getD []).map Prod.fst) =
      pysorted (((alookup nmlss2 g).getD []).map Prod.fst))
    (hdss : ∀ g v, dssHas nmldss1 g v = dssHas nmldss2 g v)
    (hdoc : ∀ fn, DocEq ((alookup D1 fn).getD []) ((alookup D2 fn).getD [])) :
    latexTableRows D1 nmlss1 nmldss1 fnames masterswitch hide =
      latexTableRows D2 nmlss2 nmldss2 fnames masterswitch hide := by
  unfold latexTableRows
  rw [hkeys]
  apply foldl_congr'
  intro st g
  rw [hgkeys g]
  have hres : (pysorted (((alookup nmlss2 g).getD []).map Prod.fst)).foldl
      (fun (acc : String × Bool) v =>
        if hideHas hide g v then acc
        else
          let gr := if acc.2 then "\\&\\nmllink\x7b" ++ latexstr g ++ "\x7d\x7b" ++ g ++ "\x7d" else ""
          let st1 :=
            if dssHas nmldss1 g v then
              gr ++ " \\hfill \\nmldiffer\x7b\\nmllink\x7b" ++ latexstr v ++ "\x7d\x7b" ++ v ++ "\x7d\x7d"
            else
              gr ++ " \\hfill \\nmllink\x7b" ++ latexstr v ++ "\x7d\x7b" ++ v ++ "\x7d"
          let st := acc.1 ++ st1
          let st := fnames.foldl (fun st fn =>
            let st := st ++ "\t & \t"
            match alookup ((alookup D1 fn).getD []) g with
            | some grp =>
              match alookup grp v with
              | some x => st ++ latexCell grp masterswitch v x
              | none => st
            | none => st) st
          (st ++ " \\\\\n", false))
      (st, true) =
      (pysorted (((alookup nmlss2 g).getD []).map Prod.fst)).foldl
      (fun (acc : String × Bool) v =>
        if hideHas hide g v then acc
        else
          let gr := if acc.2 then "\\&\\nmllink\x7b" ++ latexstr g ++ "\x7d\x7b" ++ g ++ "\x7d" else ""
          let st1 :=
            if dssHas nmldss2 g v then
              gr ++ " \\hfill \\nmldiffer\x7b\\nmllink\x7b" ++ latexstr v ++ "\x7d\x7b" ++ v ++ "\x7d\x7d"
            else
              gr ++ " \\hfill \\nmllink\x7b" ++ latexstr v ++ "\x7d\x7b" ++ v ++ "\x7d"
          let st := acc.1 ++ st1
          let st := fnames.foldl (fun st fn =>
            let st := st ++ "\t & \t"
            match alookup ((alookup D2 fn).getD []) g with
            | some grp =>
              match alookup grp v with
              | some x => st ++ latexCell grp masterswitch v x
              | none => st
            | none => st) st
          (st ++ " \\\\\n", false))
      (st, true) := by
    apply foldl_congr'
    intro acc v
    by_cases hh : hideHas hide g v = true
    · simp only [hh, if_true]
    · have hh' : hideHas hide g v = false := Bool.eq_false_iff.mpr hh
      simp only [hh', Bool.false_eq_true, if_false]
      rw [hdss g v]
      rw [Prod.mk.injEq]
      refine ⟨?_, rfl⟩
      congr 1
      apply foldl_congr'
      intro st2 fn
      have hp := (hdoc fn).1 g
      cases h1 : alookup ((alookup D1 fn).getD []) g with
      | none =>
        rw [h1] at hp
        cases h2 : alookup ((alookup D2 fn).getD []) g with
        | none => rfl
        | some grp2 =>
          rw [h2] at hp
          cases hp
      | some grp1 =>
        rw [h1] at hp
        cases h2 : alookup ((alookup D2 fn).getD []) g with
        | none =>
          rw [h2] at hp
          cases hp
        | some grp2 =>
          show (match alookup grp1 v with
            | some x => st2 ++ "\t & \t" ++ latexCell grp1 masterswitch v x
            | none => st2 ++ "\t & \t") =
            (match alookup grp2 v with
            | some x => st2 ++ "\t & \t" ++ latexCell grp2 masterswitch v x
            | none => st2 ++ "\t & \t")
          have hlv : ∀ w, alookup grp1 w = alookup grp2 w := by
            intro w
            have hv := (hdoc fn).2 g w
            rw [dvlookup_eq_getD, dvlookup_eq_getD, h1, h2] at hv
            simpa using hv
          rw [hlv v]
          cases hx : alookup grp2 v with
          | none => rfl
          | some x =>
            show st2 ++ "\t & \t" ++ latexCell grp1 masterswitch v x =
              st2 ++ "\t & \t" ++ latexCell grp2 masterswitch v x
            rw [latexCell_congr hlv masterswitch v x]
  rw [hres]

theorem strnmldictLatex_congr (D1 D2 : DocSet)
    (nmlss1 nmlss2 nmldss1 nmldss2 : Document) (fnames : List String)
    (fmt masterswitch : String) (hide : List (String × List String))
    (heading url : String)
    (hlen : nmlss1.length = nmlss2.length)
    (hkeys : pysorted (nmlss1.map Prod.fst) = pysorted (nmlss2.map Prod.fst))
    (hgkeys : ∀ g, pysorted (((alookup nmlss1 g).getD []).map Prod.fst) =
      pysorted (((alookup nmlss2 g).getD []).map Prod.fst))
    (hdss : ∀ g v, dssHas nmldss1 g v = dssHas nmldss2 g v)
    (hdoc : ∀ fn, DocEq ((alookup D1 fn).getD []) ((alookup D2 fn).getD [])) :
    strnmldictLatex D1 nmlss1 nmldss1 fnames fmt masterswitch hide heading url =
      strnmldictLatex D2 nmlss2 nmldss2 fnames fmt masterswitch hide heading url := by
  unfold strnmldictLatex
  rw [hlen]
  by_cases hcc : nmlss2.length > 0
  · rw [if_pos hcc, if_pos hcc]
    rw [latexTableRows_congr D1 D2 nmlss1 nmlss2 nmldss1 nmldss2 fnames
      masterswitch hide hkeys hgkeys hdss hdoc]
  · rw [if_neg hcc, if_neg hcc]

theorem strnmldict_invariant {D1 D2 : DocSet} (hWF1 : DocSetWF D1)
    (hWF2 : DocSetWF D2) (hE : DsEq D1 D2) (fmt0 masterswitch : String)
    (hide : List (String × List String)) (heading url : String) :
    strnmldict D1 fmt0 masterswitch hide heading url =
      strnmldict D2 fmt0 masterswitch hide heading url := by
  have hE' : DsEq (nmldiff D1 "") (nmldiff D2 "") := nmldiff_DsEq hWF1 hWF2 hE ""
  have hWF1' : DocSetWF (nmldiff D1 "") := nmldiff_WF "" hWF1
  have hWF2' : DocSetWF (nmldiff D2 "") := nmldiff_WF "" hWF2
  have hdoc : ∀ fn, DocEq ((alookup D1 fn).getD []) ((alookup D2 fn).getD []) :=
    byname_DocEq D1 D2 hE.1 (DsEq_zip hE)
  have hkeys : pysorted ((superset D1).map Prod.fst) =
      pysorted ((superset D2).map Prod.fst) :=
    pysorted_perm_eq (sup_keys_perm' hE)
  have hgkeys : ∀ g, pysorted (((alookup (superset D1) g).getD []).map Prod.fst) =
      pysorted (((alookup (superset D2) g).getD []).map Prod.fst) :=
    sup_gkeys_sorted_eq hWF1 hWF2 hE
  have hdss : ∀ g v, dssHas (superset (nmldiff D1 "")) g v =
      dssHas (superset (nmldiff D2 "")) g v :=
    dssHas_eq hWF1' hWF2' hE'
  have hpairs : sortedPairs (superset D1) = sortedPairs (superset D2) :=
    sortedPairs_eq hWF1 hWF2 hE
  have hslen : (superset D1).length = (superset D2).length := by
    have hh := (sup_keys_perm' hE).length_eq
    simpa using hh
  have hgw := gwidth_eq hE
  have hvw := vwidth_eq hWF1 hWF2 hE
  have hdw2 : pymax0 ((D2.map Prod.fst).map (fun fn =>
      pymax0 ((((alookup D1 fn).getD []).map Prod.snd).map (fun g =>
        pymax0 ((g.map Prod.snd).map (fun x => (pyrepr x).length)))))) =
      pymax0 ((D2.map Prod.fst).map (fun fn =>
      pymax0 ((((alookup D2 fn).getD []).map Prod.snd).map (fun g =>
        pymax0 ((g.map Prod.snd).map (fun x => (pyrepr x).length)))))) := by
    have hF : (fun fn =>
        pymax0 ((((alookup D1 fn).getD []).map Prod.snd).map (fun g =>
          pymax0 ((g.map Prod.snd).map (fun x => (pyrepr x).length))))) =
        (fun fn =>
        pymax0 ((((alookup D2 fn).getD []).map Prod.snd).map (fun g =>
          pymax0 ((g.map Prod.snd).map (fun x => (pyrepr x).length))))) := by
      funext fn
      exact perdoc_dwidth_eq (docOf_WF hWF1 fn) (docOf_WF hWF2 fn) (hdoc fn)
    rw [hF]
  simp only [strnmldict]
  rw [hE.1]
  split_ifs with h1 h2 h3 h4
  · exact strnmldictMd_congr D1 D2 _ _ _ _ hslen hpairs hdoc
  · exact strnmldictLatex_congr D1 D2 _ _ _ _ _ _ _ _ _ _
      hslen hkeys hgkeys hdss hdoc
  · rw [hgw, hvw, hdw2]
    exact strnmldictText_congr D1 D2 _ _ _ _ _ _ _ _ _
      hkeys hgkeys hdss hdoc
  · exact strnmldictText_congr D1 D2 _ _ _ _ _ _ _ _ _
      hkeys hgkeys hdss hdoc
  · exact strnmldictDefault_congr D1 D2 _ _ _ _ _ hkeys hgkeys hdoc

/-- Lexicographic order on (group, variable) pairs: strictly increasing
group name, or equal group and non-decreasing variable name. -/
def pairLE (a b : String × String) : Prop :=
  a.1 < b.1 ∨ (a.1 = b.1 ∧ a.2 ≤ b.2)

theorem pysorted_sorted (l : List String) :
    (pysorted l).Sorted (fun a b : String => a ≤ b) :=
  List.sorted_insertionSort _ l

theorem pysorted_nodup {l : List String} (h : l.Nodup) : (pysorted l).Nodup :=
  ((List.perm_insertionSort _ l).nodup_iff).mpr h

theorem sorted_lt_of_nodup {l : List String}
    (hs : l.Sorted (fun a b : String => a ≤ b)) (hn : l.Nodup) :
    l.Pairwise (fun a b : String => a < b) :=
  (hs.and hn).imp (fun hab => lt_of_le_of_ne hab.1 hab.2)

theorem flat_pairwise (F : String → List String) :
    ∀ (gs : List String), gs.Pairwise (fun a b : String => a < b) →
    (gs.flatMap (fun g => (pysorted (F g)).map (fun v => (g, v)))).Pairwise pairLE := by
  intro gs
  induction gs with
  | nil => intro _; exact List.Pairwise.nil
  | cons g gs' ih =>
    intro hp
    rw [List.flatMap_cons]
    apply List.pairwise_append.mpr
    refine ⟨?_, ?_, ?_⟩
    · apply List.pairwise_map.mpr
      exact (pysorted_sorted (F g)).imp (fun hab => Or.inr ⟨rfl, hab⟩)
    · exact ih (List.pairwise_cons.mp hp).2
    · intro a ha b hb
      obtain ⟨v, hv, rfl⟩ := List.mem_map.mp ha
      obtain ⟨g', hg', hbmem⟩ := List.mem_flatMap.mp hb
      obtain ⟨v', hv', rfl⟩ := List.mem_map.mp hbmem
      left
      exact (List.pairwise_cons.mp hp).1 g' hg'

theorem sortedPairs_pairwise (nmlss : Document)
    (hnd : (nmlss.map Prod.fst).Nodup) :
    (sortedPairs nmlss).Pairwise pairLE := by
  unfold sortedPairs
  exact flat_pairwise (fun g => ((alookup nmlss g).getD []).map Prod.fst)
    (pysorted (nmlss.map Prod.fst))
    (sorted_lt_of_nodup (pysorted_sorted _) (pysorted_nodup hnd))

/-- C6: rendering is deterministic and fully ordered: strnmldict gives
byte-identical output on any two well-formed DocumentSets with the same
sources and the same content regardless of insertion order (so output is a
pure function of content, format and options, with per-source columns in
DocumentSet order), and the (group, variable) pairs every format iterates
are emitted in lexicographic order of group name then variable name. -/
theorem strnmldict_deterministic (D1 D2 : DocSet) (hWF1 : DocSetWF D1)
    (hWF2 : DocSetWF D2) (hEq : dsEquivB D1 D2 = true)
    (fmt masterswitch : String) (hide : List (String × List String))
    (heading url : String) :
    strnmldict D1 fmt masterswitch hide heading url =
      strnmldict D2 fmt masterswitch hide heading url
    ∧ (sortedPairs (superset D1)).Pairwise pairLE :=
  ⟨strnmldict_invariant hWF1 hWF2 (dsEquivB_DsEq hEq) fmt masterswitch hide
    heading url,
   sortedPairs_pairwise (superset D1) (superset_nodup_keys D1)⟩

def exampleDet1 : DocSet :=
  [("a", [("g", [("x", NmlValue.vint 1), ("y", NmlValue.vint 2)]),
          ("h", [("z", NmlValue.vbool true)])]),
   ("b", [("h", [("z", NmlValue.vbool true)]),
          ("g", [("y", NmlValue.vint 3), ("x", NmlValue.vint 1)])])]

def exampleDet2 : DocSet :=
  [("a", [("h", [("z", NmlValue.vbool true)]),
          ("g", [("y", NmlValue.vint 2), ("x", NmlValue.vint 1)])]),
   ("b", [("g", [("x", NmlValue.vint 1), ("y", NmlValue.vint 3)]),
          ("h", [("z", NmlValue.vbool true)])])]

theorem strnmldict_deterministic_witness :
    strnmldict exampleDet1 "text" "sw" [] "h" "u" =
      strnmldict exampleDet2 "text" "sw" [] "h" "u"
    ∧ (sortedPairs (superset exampleDet1)).Pairwise pairLE :=
  strnmldict_deterministic exampleDet1 exampleDet2 (by decide) (by decide)
    (by decide) "text" "sw" [] "h" "u"
